import Mathlib

set_option linter.unusedVariables false

/-!
# Verification of the SimPEG time-domain EM simulation engine

Shallow embedding of `SimPEG/electromagnetics/time_domain/simulation.py`
(`BaseTDEMSimulation` and its four formulation variants) over exact rational
arithmetic, together with proofs settling the spec claims about the
time-stepper (`fields`), the sensitivity engines (`Jvec`, `Jtvec`), the
factorization cache and the formulation-variant operator assembly.

Conventions:
* numpy arrays become `List ℚ` / `Fin n → ℚ` / `Matrix (Fin m) (Fin n) ℚ`;
* a sparse factorization (`self.solver(A)`) becomes a `Fact` record carrying
  the factored matrix and a fresh id; solving against it multiplies by the
  explicit rational inverse `minv` (determinant-scaled adjugate);
* cache bookkeeping (`self.Ainv` / `self.ATinv` dictionaries, the in-flight
  factorization of each loop) is threaded explicitly, and every call to
  `self.solver` / `.clean()` is recorded in an event log so that claims about
  factorization reuse and invalidation become statements about the log;
* code paths on which Python raises (`KeyError`, `AttributeError`,
  `NameError`) make the embedded functions return `none`.
-/

namespace TDEMSpec

open Matrix

/-- Rectangular rational matrix, the embedding of a scipy sparse matrix. -/
abbrev Mat (m n : ℕ) := Matrix (Fin m) (Fin n) ℚ

/-- Rational vector, the embedding of a 1-d numpy array of known length. -/
abbrev Vec (n : ℕ) := Fin n → ℚ

/-- `utils.speye(n)`: sparse identity. -/
def speye (n : ℕ) : Mat n n := 1

/-- `utils.sdiag(v)`: sparse diagonal matrix from a vector. -/
def sdiag {n : ℕ} (v : Vec n) : Mat n n := Matrix.diagonal v

/-- Explicit computable inverse of a rational matrix
(`det⁻¹ • adjugate`, which agrees with Mathlib's `A⁻¹` over `ℚ`).
This is the solution operator a sparse factorization implements. -/
def minv {n : ℕ} (A : Mat n n) : Mat n n := (A.det)⁻¹ • A.adjugate

theorem minv_eq_inv {n : ℕ} (A : Mat n n) : minv A = A⁻¹ := by
  rw [Matrix.inv_def, minv, Ring.inverse_eq_inv']

/-- An opaque reusable factorization of a system matrix: the embedding of the
object returned by `self.solver(A, **self.solver_opts)`.  `fid` is a creation
counter so that reuse versus rebuild is observable. -/
structure Fact (n : ℕ) where
  mat : Mat n n
  fid : ℕ
deriving DecidableEq

/-- `Fact * vector`: solve against the factorization (one right-hand side). -/
def Fact.solveV {n : ℕ} (F : Fact n) (b : Vec n) : Vec n := (minv F.mat).mulVec b

/-- `Fact * matrix`: batched solve, all right-hand-side columns at once. -/
def Fact.solveM {n k : ℕ} (F : Fact n) (B : Mat n k) : Mat n k := minv F.mat * B

/-- Observable cache events: every call of `self.solver` on a direct operator
(`factor`), on a transposed operator (`factorT`), on the DC operator
(`factorDC`), and every explicit `.clean()` (`cleanEv`). -/
inductive Ev : Type
  | factor (dt : ℚ) (fid : ℕ)
  | factorT (dt : ℚ) (fid : ℕ)
  | factorDC (fid : ℕ)
  | cleanEv (fid : ℕ)
deriving DecidableEq

/-- Number of direct-operator factorizations recorded in a log. -/
def countFactor (l : List Ev) : ℕ :=
  l.countP (fun e => match e with | Ev.factor _ _ => true | _ => false)

/-- Number of direct-operator factorizations for a given step length `dt`. -/
def countFactorAt (l : List Ev) (dt : ℚ) : ℕ :=
  l.countP (fun e => match e with | Ev.factor k _ => decide (k = dt) | _ => false)

/-- Number of transposed-operator factorizations recorded in a log. -/
def countFactorT (l : List Ev) : ℕ :=
  l.countP (fun e => match e with | Ev.factorT _ _ => true | _ => false)

/-- Number of DC (steady-state) factorizations recorded in a log. -/
def countFactorDC (l : List Ev) : ℕ :=
  l.countP (fun e => match e with | Ev.factorDC _ => true | _ => false)

/-!
## Formulation-variant operator assembly

The four variants (`Simulation3DMagneticFluxDensity`, `Simulation3DElectricField`,
`Simulation3DMagneticField`, `Simulation3DCurrentDensity`) assemble their
per-step operators from mesh differential operators and mass matrices.
-/

/-- Modelled from the spec: the mesh/operator and physical-property
collaborators of §6 (`discretize` mesh attributes `edge_curl`,
`nodal_gradient`, `face_divergence`, `cell_volumes`, and the
`BaseEMSimulation` mass matrices `MeSigma`, `MeSigmaI`, `MfMui`, `MfRho`,
`MfRhoI`, `MeMu`, `MeMuI`), none of which are under `src/`.  They are opaque
model-derived matrices of the stated shapes (`nE` edges, `nF` faces, `nN`
nodes, `nC` cells); `makeASymmetric` is the symmetrization policy flag
`_makeASymmetric` of §4.1. -/
structure EMMats (nE nF nN nC : ℕ) where
  edge_curl : Mat nF nE
  nodal_gradient : Mat nE nN
  face_divergence : Mat nC nF
  cell_volumes : Vec nC
  MeSigma : Mat nE nE
  MeSigmaI : Mat nE nE
  MfMui : Mat nF nF
  MfRho : Mat nF nF
  MfRhoI : Mat nF nF
  MeMu : Mat nE nE
  MeMuI : Mat nE nE
  makeASymmetric : Bool

/-- `Simulation3DMagneticFluxDensity.getAdiag(tInd)`:
`assert tInd >= 0 and tInd < self.nT`, then
`1/dt * I + C * (MeSigmaI * (C.T * MfMui))`, left-multiplied by `MfMui.T`
when `_makeASymmetric`.  The failed assertion is `none`. -/
def getAdiag_b {nE nF nN nC : ℕ} (M : EMMats nE nF nN nC) (ts : List ℚ)
    (tInd : ℤ) : Option (Mat nF nF) :=
  if 0 ≤ tInd ∧ tInd < (ts.length : ℤ) then
    let dt := ts.getD tInd.toNat 0
    let C := M.edge_curl
    let A := (1 / dt) • speye nF + C * (M.MeSigmaI * (Cᵀ * M.MfMui))
    some (if M.makeASymmetric then M.MfMuiᵀ * A else A)
  else none

/-- `Simulation3DElectricField.getAdiag(tInd)`:
`assert`, then `C.T * (MfMui * C) + 1/dt * MeSigma`. -/
def getAdiag_e {nE nF nN nC : ℕ} (M : EMMats nE nF nN nC) (ts : List ℚ)
    (tInd : ℤ) : Option (Mat nE nE) :=
  if 0 ≤ tInd ∧ tInd < (ts.length : ℤ) then
    let dt := ts.getD tInd.toNat 0
    let C := M.edge_curl
    some (Cᵀ * (M.MfMui * C) + (1 / dt) • M.MeSigma)
  else none

/-- `Simulation3DMagneticField.getAdiag(tInd)`:
`assert`, then `C.T * (MfRho * C) + 1/dt * MeMu`. -/
def getAdiag_h {nE nF nN nC : ℕ} (M : EMMats nE nF nN nC) (ts : List ℚ)
    (tInd : ℤ) : Option (Mat nE nE) :=
  if 0 ≤ tInd ∧ tInd < (ts.length : ℤ) then
    let dt := ts.getD tInd.toNat 0
    let C := M.edge_curl
    some (Cᵀ * (M.MfRho * C) + (1 / dt) • M.MeMu)
  else none

/-- `Simulation3DCurrentDensity.getAdiag(tInd)`:
`assert`, then `C * (MeMuI * (C.T * MfRho)) + 1/dt * eye`, left-multiplied by
`MfRho.T` when `_makeASymmetric`. -/
def getAdiag_j {nE nF nN nC : ℕ} (M : EMMats nE nF nN nC) (ts : List ℚ)
    (tInd : ℤ) : Option (Mat nF nF) :=
  if 0 ≤ tInd ∧ tInd < (ts.length : ℤ) then
    let dt := ts.getD tInd.toNat 0
    let C := M.edge_curl
    let A := C * (M.MeMuI * (Cᵀ * M.MfRho)) + (1 / dt) • speye nF
    some (if M.makeASymmetric then M.MfRhoᵀ * A else A)
  else none

/-!
## `getRHSDeriv` of the e-, h- and j-variants

All three return the `Zero()` sentinel unconditionally ("assumes no derivs on
sources").  The h-variant (`Simulation3DMagneticField`) defines
`getRHSDeriv` twice in the Python class body; the second definition
(`return Zero()`) shadows the first, so the effective method is the constant
sentinel, which is what is embedded here.
-/

/-- Result of a right-hand-side derivative: either the explicit `utils.Zero()`
sentinel or an actual vector of values. -/
inductive RHSDerivResult : Type
  | zeroSentinel
  | value (w : List ℚ)
deriving DecidableEq

/-- `Simulation3DElectricField.getRHSDeriv(tInd, src, v, adjoint)`:
`return Zero()` — sources assumed model-independent. -/
def getRHSDeriv_e (tInd : ℤ) (srcIdx : ℕ) (v : List ℚ) (adjoint : Bool) :
    RHSDerivResult := RHSDerivResult.zeroSentinel

/-- `Simulation3DMagneticField.getRHSDeriv(tInd, src, v, adjoint)` (the second,
effective definition): `return Zero()`. -/
def getRHSDeriv_h (tInd : ℤ) (srcIdx : ℕ) (v : List ℚ) (adjoint : Bool) :
    RHSDerivResult := RHSDerivResult.zeroSentinel

/-- `Simulation3DCurrentDensity.getRHSDeriv(tInd, src, v, adjoint)`:
`return Zero()`. -/
def getRHSDeriv_j (tInd : ℤ) (srcIdx : ℕ) (v : List ℚ) (adjoint : Bool) :
    RHSDerivResult := RHSDerivResult.zeroSentinel

/-!
## DC (steady-state) operator and the `Adcinv` property
-/

/-- `Simulation3DElectricField.getAdc()`:
`Adc = Grad.T * MeSigma * Grad`, then `Adc[0, 0] += 1.0` (null-space handling).
Stated over `nN + 1` nodes so that the `[0, 0]` entry exists. -/
def getAdc_e {nE nF nN nC : ℕ} (M : EMMats nE nF (nN + 1) nC) :
    Mat (nN + 1) (nN + 1) :=
  let Grad := M.nodal_gradient
  let Adc := Gradᵀ * M.MeSigma * Grad
  Matrix.of fun i j => if i = 0 ∧ j = 0 then Adc i j + 1 else Adc i j

/-- `Simulation3DMagneticField.getAdc()`:
`D = sdiag(vol) * faceDiv`, `G = D.T`, `Adc = D * MfRhoI * G`. -/
def getAdc_h {nE nF nN nC : ℕ} (M : EMMats nE nF nN nC) : Mat nC nC :=
  let D := sdiag M.cell_volumes * M.face_divergence
  let G := Dᵀ
  D * M.MfRhoI * G

/-- `Simulation3DCurrentDensity.getAdc()`: same assembly as the h-variant. -/
def getAdc_j {nE nF nN nC : ℕ} (M : EMMats nE nF nN nC) : Mat nC nC :=
  let D := sdiag M.cell_volumes * M.face_divergence
  let G := Dᵀ
  D * M.MfRhoI * G

/-- Cached DC factorization state: `self._Adcinv` plus the id counter. -/
structure DCState (n : ℕ) where
  adcinv : Option (Fact n)
  nextId : ℕ
deriving DecidableEq

/-- `BaseTDEMSimulation.Adcinv` (property): raise `NotImplementedError` naming
the formulation when the variant has no `getAdc` attribute; otherwise factor
`self.getAdc()` once and cache the factorization in `self._Adcinv`.
`getAdc?` is `some` of the assembled DC matrix exactly when the variant
defines `getAdc` (e-, h-, j-variants), `none` for the b-variant. -/
def AdcinvGet {n : ℕ} (fieldType : String) (getAdc? : Option (Mat n n))
    (st : DCState n) : Except String (Fact n × DCState n) :=
  match getAdc? with
  | none =>
      Except.error
        ("Support for galvanic sources has not been implemented for "
          ++ fieldType ++ "-formulation")
  | some Adc =>
      match st.adcinv with
      | some F => Except.ok (F, st)
      | none =>
          let F : Fact n := ⟨Adc, st.nextId⟩
          Except.ok (F, ⟨some F, st.nextId + 1⟩)

/-!
## The time-stepping engine `BaseTDEMSimulation.fields`

The engine is embedded over an "engine context" whose operator-assembly
callbacks mirror the polymorphic `getAdiag` / `getAsubdiag` / `getRHS`
dispatch: in all four variants the per-step system matrix depends on the
time index only through the step length `dt = time_steps[tInd]` (and on the
current model through the mass matrices, which are fixed inside one call),
so the context supplies `AdiagOf/AsubOf : ℚ → Mat`.
-/

/-- `np.round` rounds half to even; `⌊⌋`-based embedding of that rule. -/
def roundHalfEven (q : ℚ) : ℤ :=
  let f := ⌊q⌋
  let frac := q - f
  if frac < 1 / 2 then f
  else if 1 / 2 < frac then f + 1
  else if f % 2 = 0 then f else f + 1

/-- `self.time_steps = dt_threshold * np.round(self.time_steps / dt_threshold)`. -/
def roundTs (tau : ℚ) (ts : List ℚ) : List ℚ :=
  ts.map fun dt => tau * ((roundHalfEven (dt / tau) : ℤ) : ℚ)

/-- `np.unique(...).tolist()`: sorted distinct values. -/
def npUnique (l : List ℚ) : List ℚ :=
  l.dedup.mergeSort (fun a b => decide (a ≤ b))

/-- The `self.Ainv` / `self.ATinv` dictionaries: step length → possibly-`None`
factorization. -/
abbrev FactDict (nU : ℕ) := List (ℚ × Option (Fact nU))

/-- Dictionary read `d[k]`: `none` models a Python `KeyError`. -/
def dictGet {nU : ℕ} (d : FactDict nU) (k : ℚ) : Option (Option (Fact nU)) :=
  (d.find? (fun kv => decide (kv.1 = k))).map Prod.snd

/-- Dictionary write `d[k] = v` (inserts the key when absent). -/
def dictSet {nU : ℕ} (d : FactDict nU) (k : ℚ) (v : Option (Fact nU)) :
    FactDict nU :=
  if d.any (fun kv => decide (kv.1 = k)) then
    d.map (fun kv => if kv.1 = k then (k, v) else kv)
  else d ++ [(k, v)]

/-- `dict.fromkeys(keys, None)`. -/
def dictFromKeys (nU : ℕ) (ks : List ℚ) : FactDict nU :=
  ks.map fun k => (k, none)

/-- Persistent simulation state: the (possibly still absent) factorization
dictionaries, the (possibly rounded) `self.time_steps`, the cached DC
factorization `self._Adcinv`, and the id counter for fresh factorizations. -/
structure SimSt (nU nW : ℕ) where
  ts : List ℚ
  Ainv : Option (FactDict nU)
  ATinv : Option (FactDict nU)
  adcinv : Option (Fact nW)
  nextId : ℕ

/-- Engine context for `fields`: configuration plus the formulation-strategy
callbacks (`getRHS(k)` is the batched right-hand side, one column per
source; `initF` is `getInitialFields()`, one column per source). -/
structure FCtx (nU nSrc : ℕ) where
  dt_threshold : ℚ
  forward_only : Bool
  AdiagOf : ℚ → Mat nU nU
  AsubOf : ℚ → Mat nU nU
  RHS : ℕ → Mat nU nSrc
  initF : Mat nU nSrc

/-- `self.getAdiag(tInd)` as called by the engine. -/
def FCtx.getAdiag {nU nSrc : ℕ} (c : FCtx nU nSrc) (ts : List ℚ) (tInd : ℕ) :
    Mat nU nU :=
  c.AdiagOf (ts.getD tInd 0)

/-- `self.getAsubdiag(tInd)` as called by the engine. -/
def FCtx.getAsubdiag {nU nSrc : ℕ} (c : FCtx nU nSrc) (ts : List ℚ) (tInd : ℕ) :
    Mat nU nU :=
  c.AsubOf (ts.getD tInd 0)

/-- The step-length-change test of the forward loop of `fields`
(line 158-160): `tInd > 0 and abs(dt - self.time_steps[tInd - 1]) > self.dt_threshold`. -/
def fieldsRefactorCond (tau : ℚ) (ts : List ℚ) (tInd : ℕ) : Prop :=
  0 < tInd ∧ tau < |ts.getD tInd 0 - ts.getD (tInd - 1) 0|

instance (tau : ℚ) (ts : List ℚ) (tInd : ℕ) :
    Decidable (fieldsRefactorCond tau ts tInd) := by
  unfold fieldsRefactorCond; infer_instance

/-- Mutable state of the forward loop of `fields`: the in-flight
factorization `Ainv`, the solutions `u_0 .. u_k` written so far, the event
log and the id counter. -/
structure FLoopSt (nU nSrc : ℕ) where
  inflight : Option (Fact nU)
  us : List (Mat nU nSrc)
  log : List Ev
  nid : ℕ

/-- One iteration of the forward loop of `fields` (lines 155-199): clean the
in-flight factorization when the step length changed beyond
`dt_threshold`, (re)obtain a factorization — freshly built when
`forward_only`, else looked up in `self.Ainv` — then take one implicit step
for all sources at once, batched against the single factorization.
`none` models the `KeyError`/`TypeError` of a missing dictionary entry. -/
def fieldsStep {nU nSrc : ℕ} (c : FCtx nU nSrc) (ts : List ℚ) (ainv : FactDict nU)
    (tInd : ℕ) (s : FLoopSt nU nSrc) : Option (FLoopSt nU nSrc) :=
  let dt := ts.getD tInd 0
  let s1 :=
    match s.inflight with
    | some F =>
        if fieldsRefactorCond c.dt_threshold ts tInd then
          { s with inflight := none
                   log := s.log ++ (if c.forward_only then [Ev.cleanEv F.fid] else []) }
        else s
    | none => s
  let obtain : Option (Fact nU × FLoopSt nU nSrc) :=
    match s1.inflight with
    | some F => some (F, s1)
    | none =>
        if c.forward_only then
          let A := c.getAdiag ts tInd
          let F : Fact nU := ⟨A, s1.nid⟩
          some (F, { s1 with inflight := some F
                             log := s1.log ++ [Ev.factor dt s1.nid]
                             nid := s1.nid + 1 })
        else
          match dictGet ainv dt with
          | some (some F) => some (F, { s1 with inflight := some F })
          | _ => none
  match obtain with
  | none => none
  | some (F, s2) =>
      let rhs := c.RHS (tInd + 1)
      let Asubdiag := c.getAsubdiag ts tInd
      let uPrev := s2.us.getLastD c.initF
      let sol := F.solveM (rhs - Asubdiag * uPrev)
      some { s2 with us := s2.us ++ [sol] }

/-- The forward loop of `fields`, iterated over the pending time indices. -/
def fieldsLoop {nU nSrc : ℕ} (c : FCtx nU nSrc) (ts : List ℚ)
    (ainv : FactDict nU) : List ℕ → FLoopSt nU nSrc → Option (FLoopSt nU nSrc)
  | [], s => some s
  | tInd :: rest, s =>
      match fieldsStep c ts ainv tInd s with
      | none => none
      | some s2 => fieldsLoop c ts ainv rest s2

/-- One iteration of the eager persistent-refactorization loop of `fields`
(lines 136-146): `tInd = self.time_steps.tolist().index(dt)`,
`self.Ainv[dt] = self.solver(self.getAdiag(tInd))`. -/
def rebuildStep {nU nSrc : ℕ} (c : FCtx nU nSrc) (ts1 : List ℚ)
    (acc : FactDict nU × List Ev × ℕ) (dt : ℚ) : FactDict nU × List Ev × ℕ :=
  let tInd := ts1.indexOf dt
  let A := c.getAdiag ts1 tInd
  (dictSet acc.1 dt (some ⟨A, acc.2.2⟩),
   acc.2.1 ++ [Ev.factor dt acc.2.2], acc.2.2 + 1)

/-- Result of `fields(m)`: the Fields container (`u_0 .. u_nT`, one column
per source), the updated persistent state and the event log. -/
structure FOut (nU nSrc nW : ℕ) where
  u : List (Mat nU nSrc)
  st : SimSt nU nW
  log : List Ev

/-- The `forward_only=False` body of `fields` after the dictionaries have
been invalidated: the eager refactorization loop (lines 136-146) followed by
the forward loop and the epilogue that keeps the persistent factorizations
(`Ainv = None` merely drops the local reference). -/
def fieldsRunFalseTail {nU nSrc nW : ℕ} (c : FCtx nU nSrc) (ts1 : List ℚ)
    (ainvCleaned atinv1 : FactDict nU) (adc : Option (Fact nW)) (nid : ℕ) :
    Option (FOut nU nSrc nW) :=
  let reb :=
    (npUnique ts1).foldl (rebuildStep c ts1) (ainvCleaned, ([] : List Ev), nid)
  match fieldsLoop c ts1 reb.1 (List.range ts1.length)
          ⟨none, [c.initF], reb.2.1, reb.2.2⟩ with
  | none => none
  | some s =>
      some ⟨s.us,
            { ts := ts1, Ainv := some reb.1, ATinv := some atinv1,
              adcinv := adc, nextId := s.nid },
            s.log⟩

/-- `BaseTDEMSimulation.fields(m)` (lines 101-211).  With
`forward_only=False` the prologue (lines 119-146) first invalidates the
`Ainv` dictionary (`v.clean()` returns `None`), rounding `time_steps`
through `dt_threshold` and creating the dictionary when it does not exist
yet, invalidates `ATinv` the same way (the `try/except AttributeError`),
and then eagerly refactors `getAdiag` once per distinct step length.  The
forward loop then steps through all time indices; the epilogue cleans the
in-flight factorization when `forward_only` (an `AttributeError`, hence
`none`, when no step was taken) and otherwise just drops the reference. -/
def fieldsRun {nU nSrc nW : ℕ} (c : FCtx nU nSrc) (st0 : SimSt nU nW) :
    Option (FOut nU nSrc nW) :=
  if c.forward_only then
    match fieldsLoop c st0.ts [] (List.range st0.ts.length)
            ⟨none, [c.initF], [], st0.nextId⟩ with
    | none => none
    | some s =>
        match s.inflight with
        | none => none
        | some F =>
            some ⟨s.us, { st0 with nextId := s.nid }, s.log ++ [Ev.cleanEv F.fid]⟩
  else
    let pre : List ℚ × FactDict nU :=
      match st0.Ainv with
      | some d => (st0.ts, d.map fun kv => (kv.1, (none : Option (Fact nU))))
      | none =>
          let tsR := roundTs c.dt_threshold st0.ts
          (tsR, dictFromKeys nU (npUnique tsR))
    match pre with
    | (ts1, ainvCleaned) =>
      let atinv1 : FactDict nU :=
        match st0.ATinv with
        | some d =>
            if d.all (fun kv => kv.2.isSome) then
              d.map fun kv => (kv.1, (none : Option (Fact nU)))
            else dictFromKeys nU (npUnique ts1)
        | none => dictFromKeys nU (npUnique ts1)
      fieldsRunFalseTail c ts1 ainvCleaned atinv1 st0.adcinv st0.nextId

/-!
## The sensitivity engines `Jvec` and `Jtvec`

The engines are embedded over a context holding, besides the configuration
and the operator assembly, the linearized collaborator callbacks they
dispatch to.
-/

/-- `src.srcType`: the source classification tag. -/
inductive SType : Type
  | galvanic
  | inductiveSrc
deriving DecidableEq

/-- A receiver, as the sensitivity engines see it.  Modelled from the spec
(§4.4-4.5, §6) for the parts outside `src/`: `rx.evalDeriv` applies the fixed
projection `P = kron(Pt, Ps)` (`receivers.py`) to the time-stacked
field-derivative container — `P t` is its block acting on time node `t`, and
the adjoint applies the transposed blocks; the field-derivative accessor
`_%sDeriv` of `fields.py` is linear: forward
`df_dmFun(t, src, du, v) = Fu t ⬝ du + Fm t ⬝ v`, and in adjoint mode it
returns the pair `(Fu tᵀ ⬝ w, Fm tᵀ ⬝ w)` (`cur[0]`, `cur[1]`). -/
structure RxC (nU nP nM nD : ℕ) where
  P : ℕ → Mat nD nP
  Fu : ℕ → Mat nP nU
  Fm : ℕ → Mat nP nM

/-- A source, as the sensitivity engines see it.  Modelled from the spec
(§3, §6) for the parts outside `src/`: `getInitialFieldsDeriv(src, v)` is the
linear map `G ⬝ v` (adjoint: transpose), and `getRHSDeriv(t, src, v)` is
`dRHS t ⬝ v` (adjoint: transpose; identically zero for the e-, h-, and
j-variants). -/
structure SrcC (nU nP nM nD : ℕ) where
  rxs : List (RxC nU nP nM nD)
  G : Mat nU nM
  dRHS : ℕ → Mat nU nM
  srcType : SType

/-- Engine context for `Jvec`/`Jtvec`.  `DAdiag t u` is the linearization of
`getAdiagDeriv(t, u, ·)` (adjoint flag = transpose), `DAsub t u` of
`getAsubdiagDeriv(t, u, ·)`.  `Grad`, `AdcMat` and `DMeSigma` are the
`mesh.nodal_gradient`, `getAdc()` and `MeSigmaDeriv` collaborators used only
by the electric-field variant's galvanic phase. -/
structure JCtx (nU nP nM nD nW : ℕ) where
  dt_threshold : ℚ
  forward_only : Bool
  AdiagOf : ℚ → Mat nU nU
  AsubOf : ℚ → Mat nU nU
  DAdiag : ℕ → Vec nU → Mat nU nM
  DAsub : ℕ → Vec nU → Mat nU nM
  srcs : List (SrcC nU nP nM nD)
  Grad : Mat nU nW
  AdcMat : Mat nW nW
  DMeSigma : Vec nU → Mat nU nM

/-- `self.getAdiag(tInd)` as called by the sensitivity engines. -/
def JCtx.getAdiag {nU nP nM nD nW : ℕ} (c : JCtx nU nP nM nD nW) (ts : List ℚ)
    (tInd : ℕ) : Mat nU nU :=
  c.AdiagOf (ts.getD tInd 0)

/-- `self.getAsubdiag(tInd)` as called by the sensitivity engines. -/
def JCtx.getAsubdiag {nU nP nM nD nW : ℕ} (c : JCtx nU nP nM nD nW) (ts : List ℚ)
    (tInd : ℕ) : Mat nU nU :=
  c.AsubOf (ts.getD tInd 0)

/-- The step-length-change test of the forward loop of `Jvec` (line 270):
`tInd > 0 and dt != self.time_steps[tInd - 1]` — an exact comparison, not a
`dt_threshold` one. -/
def jvecRefactorCond (ts : List ℚ) (tInd : ℕ) : Prop :=
  0 < tInd ∧ ts.getD tInd 0 ≠ ts.getD (tInd - 1) 0

instance (ts : List ℚ) (tInd : ℕ) : Decidable (jvecRefactorCond ts tInd) := by
  unfold jvecRefactorCond; infer_instance

/-- The step-length-change test of the backward loop of `Jtvec`
(lines 435-436): `tInd <= self.nT and
self.time_steps[tInd] != self.time_steps[tInd + 1]` — again exact. -/
def jtvecRefactorCond (ts : List ℚ) (tInd : ℕ) : Prop :=
  tInd ≤ ts.length ∧ ts.getD tInd 0 ≠ ts.getD (tInd + 1) 0

instance (ts : List ℚ) (tInd : ℕ) : Decidable (jtvecRefactorCond ts tInd) := by
  unfold jtvecRefactorCond; infer_instance

/-- `len(self.time_steps + 1)`: numpy adds the scalar `1` to every entry, so
this is just `nT`; it is the right-hand side of the guard
`if tInd != len(self.time_steps + 1)` on the `Jvec` per-step update
(line 308). -/
def jvecGuardBound (ts : List ℚ) : ℕ := (ts.map (fun dt => dt + 1)).length

/-- Mutable state of the forward loop of `Jvec`: the in-flight factorization
`Adiaginv`, the per-source solution derivatives `dun_dm_v`, the
field-derivative store `df_dm_v` (per source, per receiver, per time node),
the event log and the id counter. -/
structure JLoopSt (nU nP : ℕ) where
  inflight : Option (Fact nU)
  du : List (Vec nU)
  dfS : List (List (List (Vec nP)))
  log : List Ev
  nid : ℕ

/-- The per-source body of the `Jvec` loop (lines 284-309): store the
projected-field derivative at the current node (computed from the lagged
`dun_dm_v`), assemble `JRHS = dRHS_dm_v - dAsubdiag_dm_v - dA_dm_v`, and
step `dun_dm_v[:, i]` under the guard `tInd != len(self.time_steps + 1)`. -/
def jvecSrcUpdate {nU nP nM nD nW : ℕ} (c : JCtx nU nP nM nD nW) (ts : List ℚ)
    (f : ℕ → ℕ → Vec nU) (v : Vec nM) (F : Fact nU) (Asubdiag : Mat nU nU)
    (tInd : ℕ) (i : ℕ) (src : SrcC nU nP nM nD) (dui : Vec nU)
    (dfi : List (List (Vec nP))) : Vec nU × List (List (Vec nP)) :=
  let dfi2 := (src.rxs.zip dfi).map
    (fun rl => rl.2.set tInd ((rl.1.Fu tInd).mulVec dui + (rl.1.Fm tInd).mulVec v))
  let un_src := f i (tInd + 1)
  let dA_dm_v := (c.DAdiag tInd un_src).mulVec v
  let dRHS_dm_v := (src.dRHS (tInd + 1)).mulVec v
  let dAsubdiag_dm_v := (c.DAsub tInd (f i tInd)).mulVec v
  let JRHS := dRHS_dm_v - dAsubdiag_dm_v - dA_dm_v
  let dui2 :=
    if tInd ≠ jvecGuardBound ts then F.solveV (JRHS - Asubdiag.mulVec dui)
    else dui
  (dui2, dfi2)

/-- One iteration of the forward loop of `Jvec` (lines 267-309): exact-`dt`
invalidation, factorization obtention (fresh when `forward_only`, else
`self.Ainv[dt]`), then the per-source updates. -/
def jvecStep {nU nP nM nD nW : ℕ} (c : JCtx nU nP nM nD nW) (ts : List ℚ)
    (ainv : FactDict nU) (f : ℕ → ℕ → Vec nU) (v : Vec nM) (tInd : ℕ)
    (s : JLoopSt nU nP) : Option (JLoopSt nU nP) :=
  let dt := ts.getD tInd 0
  let s1 :=
    match s.inflight with
    | some F =>
        if jvecRefactorCond ts tInd then
          { s with inflight := none
                   log := s.log ++ (if c.forward_only then [Ev.cleanEv F.fid] else []) }
        else s
    | none => s
  let obtain : Option (Fact nU × JLoopSt nU nP) :=
    match s1.inflight with
    | some F => some (F, s1)
    | none =>
        if c.forward_only then
          let A := c.getAdiag ts tInd
          let F : Fact nU := ⟨A, s1.nid⟩
          some (F, { s1 with inflight := some F
                             log := s1.log ++ [Ev.factor dt s1.nid]
                             nid := s1.nid + 1 })
        else
          match dictGet ainv dt with
          | some (some F) => some (F, { s1 with inflight := some F })
          | _ => none
  match obtain with
  | none => none
  | some (F, s2) =>
      let Asubdiag := c.getAsubdiag ts tInd
      let upd := (c.srcs.zip (s2.du.zip s2.dfS)).enum.map
        (fun p => jvecSrcUpdate c ts f v F Asubdiag tInd p.1 p.2.1 p.2.2.1 p.2.2.2)
      some { s2 with du := upd.map Prod.fst, dfS := upd.map Prod.snd }

/-- The forward loop of `Jvec` over the pending time indices. -/
def jvecLoop {nU nP nM nD nW : ℕ} (c : JCtx nU nP nM nD nW) (ts : List ℚ)
    (ainv : FactDict nU) (f : ℕ → ℕ → Vec nU) (v : Vec nM) :
    List ℕ → JLoopSt nU nP → Option (JLoopSt nU nP)
  | [], s => some s
  | tInd :: rest, s =>
      match jvecStep c ts ainv f v tInd s with
      | none => none
      | some s2 => jvecLoop c ts ainv f v rest s2

/-- Result of `Jvec`: the projected data, one vector per (source, receiver)
in survey-registration order, plus the event log. -/
structure JvOut (nD : ℕ) where
  data : List (List (Vec nD))
  log : List Ev

/-- `BaseTDEMSimulation.Jvec(m, v, f)` (lines 213-332), with the forward
fields `f` supplied (the `f is None` branch recomputes them through
`fields`).  `dun_dm_v` starts from the initial-field derivatives; the loop
fills `df_dm_v` at nodes `0 .. nT-1` (lagged by one step, so node `nT` keeps
its initial zeros) while stepping `dun_dm_v`; the epilogue cleans the
in-flight factorization (`AttributeError`, hence `none`, when `nT = 0` and
`forward_only`) and then applies each receiver's projection to the stacked
`df_dm_v`. -/
def jvecRun {nU nP nM nD nW : ℕ} (c : JCtx nU nP nM nD nW) (st : SimSt nU nW)
    (f : ℕ → ℕ → Vec nU) (v : Vec nM) : Option (JvOut nD) :=
  let ts := st.ts
  let nT := ts.length
  let du0 := c.srcs.map (fun src => src.G.mulVec v)
  let dfS0 := c.srcs.map
    (fun src => src.rxs.map (fun _ => List.replicate (nT + 1) (0 : Vec nP)))
  let ainv := (st.Ainv.getD [])
  match jvecLoop c ts ainv f v (List.range nT) ⟨none, du0, dfS0, [], st.nextId⟩ with
  | none => none
  | some s =>
      let log2? : Option (List Ev) :=
        if c.forward_only then
          match s.inflight with
          | none => none
          | some F => some (s.log ++ [Ev.cleanEv F.fid])
        else some s.log
      match log2? with
      | none => none
      | some log2 =>
          let data := (c.srcs.zip s.dfS).map
            (fun sd => (sd.1.rxs.zip sd.2).map
              (fun rl => ∑ t ∈ Finset.range (nT + 1),
                (rl.1.P t).mulVec (rl.2.getD t 0)))
          some ⟨data, log2⟩

/-!
### The guard-free variant of `Jvec` (claim C10)

Identical to `jvecRun` except that the per-step update executes
unconditionally (the guard `tInd != len(self.time_steps + 1)` removed).
-/

/-- `jvecSrcUpdate` with the guard on the `dun_dm_v` update removed. -/
def jvecSrcUpdateNoGuard {nU nP nM nD nW : ℕ} (c : JCtx nU nP nM nD nW)
    (ts : List ℚ) (f : ℕ → ℕ → Vec nU) (v : Vec nM) (F : Fact nU)
    (Asubdiag : Mat nU nU) (tInd : ℕ) (i : ℕ) (src : SrcC nU nP nM nD)
    (dui : Vec nU) (dfi : List (List (Vec nP))) :
    Vec nU × List (List (Vec nP)) :=
  let dfi2 := (src.rxs.zip dfi).map
    (fun rl => rl.2.set tInd ((rl.1.Fu tInd).mulVec dui + (rl.1.Fm tInd).mulVec v))
  let un_src := f i (tInd + 1)
  let dA_dm_v := (c.DAdiag tInd un_src).mulVec v
  let dRHS_dm_v := (src.dRHS (tInd + 1)).mulVec v
  let dAsubdiag_dm_v := (c.DAsub tInd (f i tInd)).mulVec v
  let JRHS := dRHS_dm_v - dAsubdiag_dm_v - dA_dm_v
  (F.solveV (JRHS - Asubdiag.mulVec dui), dfi2)

/-- `jvecStep` dispatching to the guard-free per-source body. -/
def jvecStepNoGuard {nU nP nM nD nW : ℕ} (c : JCtx nU nP nM nD nW) (ts : List ℚ)
    (ainv : FactDict nU) (f : ℕ → ℕ → Vec nU) (v : Vec nM) (tInd : ℕ)
    (s : JLoopSt nU nP) : Option (JLoopSt nU nP) :=
  let dt := ts.getD tInd 0
  let s1 :=
    match s.inflight with
    | some F =>
        if jvecRefactorCond ts tInd then
          { s with inflight := none
                   log := s.log ++ (if c.forward_only then [Ev.cleanEv F.fid] else []) }
        else s
    | none => s
  let obtain : Option (Fact nU × JLoopSt nU nP) :=
    match s1.inflight with
    | some F => some (F, s1)
    | none =>
        if c.forward_only then
          let A := c.getAdiag ts tInd
          let F : Fact nU := ⟨A, s1.nid⟩
          some (F, { s1 with inflight := some F
                             log := s1.log ++ [Ev.factor dt s1.nid]
                             nid := s1.nid + 1 })
        else
          match dictGet ainv dt with
          | some (some F) => some (F, { s1 with inflight := some F })
          | _ => none
  match obtain with
  | none => none
  | some (F, s2) =>
      let Asubdiag := c.getAsubdiag ts tInd
      let upd := (c.srcs.zip (s2.du.zip s2.dfS)).enum.map
        (fun p => jvecSrcUpdateNoGuard c ts f v F Asubdiag tInd p.1 p.2.1 p.2.2.1 p.2.2.2)
      some { s2 with du := upd.map Prod.fst, dfS := upd.map Prod.snd }

/-- The guard-free forward loop. -/
def jvecLoopNoGuard {nU nP nM nD nW : ℕ} (c : JCtx nU nP nM nD nW) (ts : List ℚ)
    (ainv : FactDict nU) (f : ℕ → ℕ → Vec nU) (v : Vec nM) :
    List ℕ → JLoopSt nU nP → Option (JLoopSt nU nP)
  | [], s => some s
  | tInd :: rest, s =>
      match jvecStepNoGuard c ts ainv f v tInd s with
      | none => none
      | some s2 => jvecLoopNoGuard c ts ainv f v rest s2

/-- `Jvec` with the guard removed. -/
def jvecRunNoGuard {nU nP nM nD nW : ℕ} (c : JCtx nU nP nM nD nW)
    (st : SimSt nU nW) (f : ℕ → ℕ → Vec nU) (v : Vec nM) : Option (JvOut nD) :=
  let ts := st.ts
  let nT := ts.length
  let du0 := c.srcs.map (fun src => src.G.mulVec v)
  let dfS0 := c.srcs.map
    (fun src => src.rxs.map (fun _ => List.replicate (nT + 1) (0 : Vec nP)))
  let ainv := (st.Ainv.getD [])
  match jvecLoopNoGuard c ts ainv f v (List.range nT)
          ⟨none, du0, dfS0, [], st.nextId⟩ with
  | none => none
  | some s =>
      let log2? : Option (List Ev) :=
        if c.forward_only then
          match s.inflight with
          | none => none
          | some F => some (s.log ++ [Ev.cleanEv F.fid])
        else some s.log
      match log2? with
      | none => none
      | some log2 =>
          let data := (c.srcs.zip s.dfS).map
            (fun sd => (sd.1.rxs.zip sd.2).map
              (fun rl => ∑ t ∈ Finset.range (nT + 1),
                (rl.1.P t).mulVec (rl.2.getD t 0)))
          some ⟨data, log2⟩

/-!
### `Jtvec`

`BaseTDEMSimulation.Jtvec` (lines 334-491) and the override
`Simulation3DElectricField.Jtvec` (lines 862-1035).  The override's
receiver back-projection and backward recursion are a verbatim copy of the
base implementation (the only textual difference, `Adiag.T` versus
`Adiag.T.tocsr()`, denotes the same matrix), so both are embedded through a
shared core; the override then appends the galvanic initial-condition phase
(lines 1002-1033).
-/

/-- Receiver back-projection phase for one source (lines 393-424): apply each
receiver's adjoint projection (`PT_v`), push it through the
field-derivative accessor in adjoint mode, accumulate `cur[0]` into
`df_duT_v[src, ·, t]` and `cur[1]` into the running gradient `JTv`. -/
def jtvecPhase1Src {nU nP nM nD : ℕ} (nT : ℕ) (d : ℕ → ℕ → Vec nD) (i : ℕ)
    (src : SrcC nU nP nM nD) (JTv0 : Vec nM) : List (Vec nU) × Vec nM :=
  src.rxs.enum.foldl
    (fun acc p =>
      let PT_v : ℕ → Vec nP := fun t => (p.2.P t)ᵀ.mulVec (d i p.1)
      (List.range (nT + 1)).foldl
        (fun acc2 t =>
          let cur0 := (p.2.Fu t)ᵀ.mulVec (PT_v t)
          let cur1 := (p.2.Fm t)ᵀ.mulVec (PT_v t)
          (acc2.1.set t (acc2.1.getD t 0 + cur0), cur1 + acc2.2))
        acc)
    (List.replicate (nT + 1) (0 : Vec nU), JTv0)

/-- Mutable state of the backward loop of `Jtvec`: the in-flight transposed
factorization `AdiagTinv`, the Python local `Asubdiag` (`none` while still
unbound), the per-source adjoint solves `ATinv_df_duT_v`, the running
gradient, the event log and the id counter. -/
structure JTLoopSt (nU nM : ℕ) where
  inflight : Option (Fact nU)
  lastAsub : Option (Mat nU nU)
  lam : List (Vec nU)
  JTv : Vec nM
  log : List Ev
  nid : ℕ

/-- The per-source body of the backward loop of `Jtvec` (lines 454-482):
solve against the accumulated adjoint field-derivative — the last time step
(first to be solved) has no sub-diagonal term, the others subtract
`Asubdiag.T * ATinv_df_duT_v[isrc]` using the Python local `Asubdiag`
(`none` models the `NameError` were it still unbound, which never happens
here because the loop binds it whenever `tInd < nT - 1`) — then accumulate
`JTv += -dAT_dm_v - dAsubdiagT_dm_v + dRHST_dm_v`.  The `elif tInd > -1`
guard of the source is always true for loop indices and is dropped. -/
def jtvecSrcUpdate {nU nP nM nD nW : ℕ} (c : JCtx nU nP nM nD nW) (ts : List ℚ)
    (f : ℕ → ℕ → Vec nU) (dfduT : List (List (Vec nU))) (tInd : ℕ)
    (F : Fact nU) (acc : JTLoopSt nU nM) (i : ℕ) (src : SrcC nU nP nM nD) :
    Option (JTLoopSt nU nM) :=
  let nT := ts.length
  let lami? : Option (Vec nU) :=
    if nT - 1 ≤ tInd then
      some (F.solveV ((dfduT.getD i []).getD (tInd + 1) 0))
    else
      match acc.lastAsub with
      | some Asubdiag =>
          some (F.solveV ((dfduT.getD i []).getD (tInd + 1) 0
            - Asubdiagᵀ.mulVec (acc.lam.getD i 0)))
      | none => none
  match lami? with
  | none => none
  | some lami =>
      let dAsubdiagT_dm_v := (c.DAsub tInd (f i tInd))ᵀ.mulVec lami
      let dRHST_dm_v := (src.dRHS (tInd + 1))ᵀ.mulVec lami
      let un_src := f i (tInd + 1)
      let dAT_dm_v := (c.DAdiag tInd un_src)ᵀ.mulVec lami
      some { acc with
             lam := acc.lam.set i lami
             JTv := acc.JTv + (-dAT_dm_v - dAsubdiagT_dm_v + dRHST_dm_v) }

/-- One iteration of the backward loop of `Jtvec` (lines 433-482): exact-`dt`
invalidation (evaluated lazily, only when a factorization is in flight),
obtention of the transposed factorization (fresh `solver(Adiag.T)` when
`forward_only`, else `self.ATinv[dt]`), the conditional rebinding of
`Asubdiag = getAsubdiag(tInd + 1)`, then the per-source updates. -/
def jtvecStep {nU nP nM nD nW : ℕ} (c : JCtx nU nP nM nD nW) (ts : List ℚ)
    (atinv : FactDict nU) (f : ℕ → ℕ → Vec nU) (dfduT : List (List (Vec nU)))
    (tInd : ℕ) (s : JTLoopSt nU nM) : Option (JTLoopSt nU nM) :=
  let nT := ts.length
  let s1 :=
    match s.inflight with
    | some F =>
        if jtvecRefactorCond ts tInd then
          { s with inflight := none
                   log := s.log ++ (if c.forward_only then [Ev.cleanEv F.fid] else []) }
        else s
    | none => s
  let obtain : Option (Fact nU × JTLoopSt nU nM) :=
    match s1.inflight with
    | some F => some (F, s1)
    | none =>
        if c.forward_only then
          let Adiag := c.getAdiag ts tInd
          let F : Fact nU := ⟨Adiagᵀ, s1.nid⟩
          some (F, { s1 with inflight := some F
                             log := s1.log ++ [Ev.factorT (ts.getD tInd 0) s1.nid]
                             nid := s1.nid + 1 })
        else
          match dictGet atinv (ts.getD tInd 0) with
          | some (some F) => some (F, { s1 with inflight := some F })
          | _ => none
  match obtain with
  | none => none
  | some (F, s2) =>
      let s3 :=
        if tInd < nT - 1 then { s2 with lastAsub := some (c.getAsubdiag ts (tInd + 1)) }
        else s2
      (c.srcs.enum).foldl
        (fun acc? p =>
          match acc? with
          | none => none
          | some acc => jtvecSrcUpdate c ts f dfduT tInd F acc p.1 p.2)
        (some s3)

/-- The backward loop of `Jtvec` over the pending (reversed) time indices. -/
def jtvecLoop {nU nP nM nD nW : ℕ} (c : JCtx nU nP nM nD nW) (ts : List ℚ)
    (atinv : FactDict nU) (f : ℕ → ℕ → Vec nU) (dfduT : List (List (Vec nU))) :
    List ℕ → JTLoopSt nU nM → Option (JTLoopSt nU nM)
  | [], s => some s
  | tInd :: rest, s =>
      match jtvecStep c ts atinv f dfduT tInd s with
      | none => none
      | some s2 => jtvecLoop c ts atinv f dfduT rest s2

/-- Intermediate result of the shared `Jtvec` core (receiver back-projection
plus backward recursion): everything the galvanic phase of the
electric-field override still needs. -/
structure JTCoreOut (nU nM nW : ℕ) where
  dfduT : List (List (Vec nU))
  lam : List (Vec nU)
  lastAsub : Option (Mat nU nU)
  JTv : Vec nM
  st : SimSt nU nW
  log : List Ev

/-- The `forward_only=False` prologue of `Jtvec`, rebuilding `self.ATinv`
when any entry is invalidated (lines 368-375).  `none` models the
`AttributeError` of a missing `self.ATinv`. -/
def jtvecPro {nU nP nM nD nW : ℕ} (c : JCtx nU nP nM nD nW)
    (st : SimSt nU nW) : Option (Option (FactDict nU) × List Ev × ℕ) :=
  let ts := st.ts
  if c.forward_only then some (st.ATinv, [], st.nextId)
  else
    match st.ATinv with
    | none => none
    | some dct =>
        if dct.any (fun kv => kv.2.isNone) then
          let reb :=
            (npUnique ts).foldl
              (fun (acc : FactDict nU × List Ev × ℕ) dt =>
                let tInd := ts.indexOf dt
                let A := c.getAdiag ts tInd
                (dictSet acc.1 dt (some ⟨Aᵀ, acc.2.2⟩),
                 acc.2.1 ++ [Ev.factorT dt acc.2.2], acc.2.2 + 1))
              (dct, ([] : List Ev), st.nextId)
          some (some reb.1, reb.2.1, reb.2.2)
        else some (some dct, [], st.nextId)

/-- The shared `Jtvec` core: the prologue, the receiver back-projection
phase, the backward recursion, and the epilogue cleaning the in-flight
transposed factorization.  `none` models the `AttributeError` of a missing
`self.ATinv` and the `KeyError` of a missing dictionary entry. -/
def jtvecCore {nU nP nM nD nW : ℕ} (c : JCtx nU nP nM nD nW) (st : SimSt nU nW)
    (f : ℕ → ℕ → Vec nU) (d : ℕ → ℕ → Vec nD) : Option (JTCoreOut nU nM nW) :=
  let ts := st.ts
  let nT := ts.length
  (jtvecPro c st).bind (fun pr =>
    let ph1 := (c.srcs.enum).foldl
      (fun (acc : List (List (Vec nU)) × Vec nM) p =>
        let r := jtvecPhase1Src nT d p.1 p.2 acc.2
        (acc.1 ++ [r.1], r.2))
      (([] : List (List (Vec nU))), (0 : Vec nM))
    (jtvecLoop c ts (pr.1.getD []) f ph1.1 (List.range nT).reverse
        ⟨none, none, c.srcs.map (fun _ => (0 : Vec nU)), ph1.2, pr.2.1, pr.2.2⟩).map
      (fun s =>
        ⟨ph1.1, s.lam, s.lastAsub, s.JTv,
         { st with ATinv := pr.1, nextId := s.nid },
         match s.inflight with
         | some F =>
             if c.forward_only then s.log ++ [Ev.cleanEv F.fid] else s.log
         | none => s.log⟩))

/-- Result of `Jtvec`: the gradient, the updated persistent state, the log. -/
structure JTOut (nM nU nW : ℕ) where
  JTv : Vec nM
  st : SimSt nU nW
  log : List Ev

/-- `BaseTDEMSimulation.Jtvec(m, v, f)` (lines 334-491, the b-, h- and
j-formulations), with the forward fields `f` supplied: exactly the shared
core — there is no initial-condition / galvanic phase in the base
implementation. -/
def jtvecBase {nU nP nM nD nW : ℕ} (c : JCtx nU nP nM nD nW) (st : SimSt nU nW)
    (f : ℕ → ℕ → Vec nU) (d : ℕ → ℕ → Vec nD) : Option (JTOut nM nU nW) :=
  match jtvecCore c st f d with
  | none => none
  | some r => some ⟨r.JTv, r.st, r.log⟩

/-- The galvanic phase of `Simulation3DElectricField.Jtvec`
(lines 1002-1033): for each source tagged `galvanic`, route the final
adjoint field-derivative through `Grad * (Adcinv * (Grad.T * ...))` — the
`Adcinv` property factorizes `getAdc()` on first use and caches it in
`self._Adcinv` — and accumulate `JTv += -dAT_dm_v + dRHST_dm_v`.  The
Python local `Asubdiag` is unbound (`NameError`, hence `none`) when the
backward loop never reached `tInd < nT - 1` and a galvanic source is
present. -/
def galvSrcStep {nU nP nM nD nW : ℕ} (c : JCtx nU nP nM nD nW)
    (f : ℕ → ℕ → Vec nU) (r : JTCoreOut nU nM nW)
    (acc : List (Vec nU) × Vec nM × SimSt nU nW × List Ev)
    (p : ℕ × SrcC nU nP nM nD) :
    Option (List (Vec nU) × Vec nM × SimSt nU nW × List Ev) :=
  match acc with
  | (lam, JTv, st, lg) =>
      match p.2.srcType with
      | SType.inductiveSrc => some (lam, JTv, st, lg)
      | SType.galvanic =>
          match r.lastAsub with
          | none => none
          | some Asubdiag =>
              let adc? : Option (Fact nW × SimSt nU nW × List Ev) :=
                match st.adcinv with
                | some F => some (F, st, lg)
                | none =>
                    let F : Fact nW := ⟨c.AdcMat, st.nextId⟩
                    some (F, { st with adcinv := some F, nextId := st.nextId + 1 },
                          lg ++ [Ev.factorDC st.nextId])
              match adc? with
              | none => none
              | some (adcF, st2, lg2) =>
                  let lamE := c.Grad.mulVec (adcF.solveV (c.Gradᵀ.mulVec
                    ((r.dfduT.getD p.1 []).getD 0 0
                      - Asubdiagᵀ.mulVec (lam.getD p.1 0))))
                  let dRHST_dm_v := (p.2.dRHS 0)ᵀ.mulVec lamE
                  let dAT_dm_v := (c.DMeSigma (f p.1 0))ᵀ.mulVec lamE
                  some (lam.set p.1 lamE, JTv + (-dAT_dm_v + dRHST_dm_v), st2, lg2)

def jtvecGalvanicPhase {nU nP nM nD nW : ℕ} (c : JCtx nU nP nM nD nW)
    (f : ℕ → ℕ → Vec nU) (r : JTCoreOut nU nM nW) : Option (JTOut nM nU nW) :=
  let step := (c.srcs.enum).foldl
    (fun acc? p =>
      match acc? with
      | none => none
      | some acc => galvSrcStep c f r acc p)
    (some (r.lam, r.JTv, r.st, r.log))
  match step with
  | none => none
  | some (_, JTv, st, lg) => some ⟨JTv, st, lg⟩

/-- `Simulation3DElectricField.Jtvec(m, v, f)` (lines 862-1035): the shared
core followed by the galvanic initial-condition phase. -/
def jtvecE {nU nP nM nD nW : ℕ} (c : JCtx nU nP nM nD nW) (st : SimSt nU nW)
    (f : ℕ → ℕ → Vec nU) (d : ℕ → ℕ → Vec nD) : Option (JTOut nM nU nW) :=
  match jtvecCore c st f d with
  | none => none
  | some r => jtvecGalvanicPhase c f r

/-!
## Claims C7, C8, C9: formulation-variant contracts
-/

/-- C7: for the electric-field, magnetic-field, and current-density
formulations, `getRHSDeriv(tInd, src, v, adjoint)` returns the explicit
`Zero` sentinel for every time index, source, vector, and both values of the
adjoint flag. -/
theorem claim_C7_getRHSDeriv_zero (tInd : ℤ) (srcIdx : ℕ) (v : List ℚ)
    (adjoint : Bool) :
    getRHSDeriv_e tInd srcIdx v adjoint = RHSDerivResult.zeroSentinel
    ∧ getRHSDeriv_h tInd srcIdx v adjoint = RHSDerivResult.zeroSentinel
    ∧ getRHSDeriv_j tInd srcIdx v adjoint = RHSDerivResult.zeroSentinel :=
  ⟨rfl, rfl, rfl⟩

/-- C9: for each of the four formulation variants, `getAdiag(k)` returns the
per-step system operator exactly when `0 ≤ k < nT`, and fails (assertion
failure, embedded as `none`) for every `k` outside `[0, nT)`. -/
theorem claim_C9_getAdiag_domain {nE nF nN nC : ℕ} (M : EMMats nE nF nN nC)
    (ts : List ℚ) (tInd : ℤ) :
    ((getAdiag_b M ts tInd).isSome ↔ 0 ≤ tInd ∧ tInd < (ts.length : ℤ))
    ∧ ((getAdiag_e M ts tInd).isSome ↔ 0 ≤ tInd ∧ tInd < (ts.length : ℤ))
    ∧ ((getAdiag_h M ts tInd).isSome ↔ 0 ≤ tInd ∧ tInd < (ts.length : ℤ))
    ∧ ((getAdiag_j M ts tInd).isSome ↔ 0 ≤ tInd ∧ tInd < (ts.length : ℤ)) := by
  unfold getAdiag_b getAdiag_e getAdiag_h getAdiag_j
  refine ⟨?_, ?_, ?_, ?_⟩ <;> (split <;> simp_all)

/-- C8: accessing `Adcinv` on a formulation with no `getAdc` (the b-variant)
raises `NotImplementedError` naming the formulation; on the variants that
define `getAdc` (e, h, j) the first access factorizes `getAdc()` and caches
the factorization, and a repeated access returns the cached factorization
with the state unchanged (no second factorization). -/
theorem claim_C8_Adcinv {nE nF nN nC nE2 nF2 nN2 nC2 n : ℕ}
    (M : EMMats nE nF (nN + 1) nC)
    (Mhj : EMMats nE2 nF2 nN2 nC2) (st : DCState (nN + 1)) (stc : DCState nC2)
    (stb : DCState n)
    (h1 : st.adcinv = none) (h2 : stc.adcinv = none) :
    AdcinvGet "b" (none : Option (Mat n n)) stb
      = Except.error
          "Support for galvanic sources has not been implemented for b-formulation"
    ∧ (AdcinvGet "e" (some (getAdc_e M)) st
        = Except.ok (⟨getAdc_e M, st.nextId⟩,
            ⟨some ⟨getAdc_e M, st.nextId⟩, st.nextId + 1⟩)
      ∧ AdcinvGet "e" (some (getAdc_e M))
          ⟨some ⟨getAdc_e M, st.nextId⟩, st.nextId + 1⟩
        = Except.ok (⟨getAdc_e M, st.nextId⟩,
            ⟨some ⟨getAdc_e M, st.nextId⟩, st.nextId + 1⟩))
    ∧ (AdcinvGet "h" (some (getAdc_h Mhj)) stc
        = Except.ok (⟨getAdc_h Mhj, stc.nextId⟩,
            ⟨some ⟨getAdc_h Mhj, stc.nextId⟩, stc.nextId + 1⟩)
      ∧ AdcinvGet "j" (some (getAdc_j Mhj)) stc
        = Except.ok (⟨getAdc_j Mhj, stc.nextId⟩,
            ⟨some ⟨getAdc_j Mhj, stc.nextId⟩, stc.nextId + 1⟩)) := by
  obtain ⟨a1, n1⟩ := st
  obtain ⟨a2, n2⟩ := stc
  simp only at h1 h2
  subst h1; subst h2
  refine ⟨rfl, ⟨rfl, rfl⟩, ⟨rfl, rfl⟩⟩

/-!
## Claim C10: the `Jvec` guard is always true
-/

theorem jvecGuardBound_eq (ts : List ℚ) : jvecGuardBound ts = ts.length :=
  List.length_map ts _

theorem jvecStep_eq_noGuard {nU nP nM nD nW : ℕ} (c : JCtx nU nP nM nD nW)
    (ts : List ℚ) (ainv : FactDict nU) (f : ℕ → ℕ → Vec nU) (v : Vec nM)
    (tInd : ℕ) (s : JLoopSt nU nP) (h : tInd < ts.length) :
    jvecStep c ts ainv f v tInd s = jvecStepNoGuard c ts ainv f v tInd s := by
  have hg : tInd ≠ jvecGuardBound ts := by rw [jvecGuardBound_eq]; omega
  unfold jvecStep jvecStepNoGuard
  simp only [jvecSrcUpdate, jvecSrcUpdateNoGuard, if_pos hg]

theorem jvecLoop_eq_noGuard {nU nP nM nD nW : ℕ} (c : JCtx nU nP nM nD nW)
    (ts : List ℚ) (ainv : FactDict nU) (f : ℕ → ℕ → Vec nU) (v : Vec nM) :
    ∀ (l : List ℕ) (s : JLoopSt nU nP), (∀ t ∈ l, t < ts.length) →
      jvecLoop c ts ainv f v l s = jvecLoopNoGuard c ts ainv f v l s := by
  intro l
  induction l with
  | nil => intro s _; rfl
  | cons t rest ih =>
      intro s hl
      have ht : t < ts.length := hl t (List.mem_cons_self t rest)
      rw [jvecLoop, jvecLoopNoGuard, jvecStep_eq_noGuard c ts ainv f v t s ht]
      cases jvecStepNoGuard c ts ainv f v t s with
      | none => rfl
      | some s2 => exact ih s2 (fun u hu => hl u (List.mem_cons_of_mem t hu))

/-- C10: in `BaseTDEMSimulation.Jvec`, the guard
`tInd != len(self.time_steps + 1)` compares the loop index against
`len(self.time_steps + 1) = nT` (numpy adds the scalar elementwise, leaving
the length unchanged), which the loop index never reaches, so the per-step
sensitivity update executes at every time step for every source; removing
the guard yields an equivalent function. -/
theorem claim_C10_guard_always_true {nU nP nM nD nW : ℕ}
    (c : JCtx nU nP nM nD nW) (st : SimSt nU nW) (f : ℕ → ℕ → Vec nU)
    (v : Vec nM) :
    (∀ tInd, tInd < st.ts.length → tInd ≠ jvecGuardBound st.ts)
    ∧ jvecRun c st f v = jvecRunNoGuard c st f v := by
  constructor
  · intro tInd h
    rw [jvecGuardBound_eq]; omega
  · unfold jvecRun jvecRunNoGuard
    have h := jvecLoop_eq_noGuard c st.ts (st.Ainv.getD []) f v
      (List.range st.ts.length)
      ⟨none, c.srcs.map (fun src => src.G.mulVec v),
       c.srcs.map
         (fun src => src.rxs.map
           (fun _ => List.replicate (st.ts.length + 1) (0 : Vec nP))),
       [], st.nextId⟩
      (fun t ht => List.mem_range.mp ht)
    simp only [h]

/-- A one-source, one-receiver demonstration context in dimension one
(`AdiagOf dt = dt`, zero sub-diagonal and derivative operators), used by
several witnesses and counterexamples below. -/
def rxDemo : RxC 1 1 1 1 :=
  { P := fun _ => 1, Fu := fun _ => 1, Fm := fun _ => 0 }

/-- The demonstration source: one receiver, zero initial-field derivative,
zero RHS derivative, inductive. -/
def srcDemo : SrcC 1 1 1 1 :=
  { rxs := [rxDemo], G := 0, dRHS := fun _ => 0, srcType := SType.inductiveSrc }

/-- Demonstration `Jvec`/`Jtvec` context (`forward_only = true`). -/
def cDemo : JCtx 1 1 1 1 1 :=
  { dt_threshold := 1
    forward_only := true
    AdiagOf := fun dt => dt • (1 : Mat 1 1)
    AsubOf := fun _ => 0
    DAdiag := fun _ _ => 0
    DAsub := fun _ _ => 0
    srcs := [srcDemo]
    Grad := 1
    AdcMat := 1
    DMeSigma := fun _ => 0 }

/-- Demonstration persistent state with a single unit time step. -/
def stDemo : SimSt 1 1 := ⟨[1], none, none, none, 0⟩

/-- Witness for C10 at a concrete input: the guard holds at `tInd = 0` for
`time_steps = [1]`, and the guard-free engine agrees there. -/
theorem claim_C10_guard_always_true_witness :
    ((0 : ℕ) ≠ jvecGuardBound stDemo.ts)
    ∧ jvecRun cDemo stDemo (fun _ _ => 0) 0
        = jvecRunNoGuard cDemo stDemo (fun _ _ => 0) 0 :=
  ⟨(claim_C10_guard_always_true cDemo stDemo (fun _ _ => 0) 0).1 0
      (by simp [stDemo]),
   (claim_C10_guard_always_true cDemo stDemo (fun _ _ => 0) 0).2⟩

/-!
## Claim C3: factorization reuse conditions of the three stepping loops

The two-step characterizations below settle how each loop decides reuse:
`fields` compares `|dt - dt_prev|` against `dt_threshold`; the `Jvec` and
`Jtvec` loops compare the step lengths for exact equality.
-/

theorem fieldsTwoStepLog {nU nSrc nW : ℕ} (c : FCtx nU nSrc) (st : SimSt nU nW)
    (a b : ℚ) (hfo : c.forward_only = true) (hts : st.ts = [a, b]) :
    (fieldsRun c st).map (fun o => countFactor o.log)
      = some (if c.dt_threshold < |b - a| then 2 else 1) := by
  obtain ⟨ts, ai, ati, adc, nid⟩ := st
  simp only at hts
  subst hts
  have hr : List.range (2 : ℕ) = [0, 1] := rfl
  by_cases h : c.dt_threshold < |b - a| <;>
    simp [fieldsRun, hfo, hr, fieldsLoop, fieldsStep, fieldsRefactorCond, h,
      countFactor, List.countP, List.countP.go]

theorem jtvecSrcFold_some {nU nP nM nD nW : ℕ} (c : JCtx nU nP nM nD nW)
    (ts : List ℚ) (f : ℕ → ℕ → Vec nU) (dfduT : List (List (Vec nU)))
    (tInd : ℕ) (F : Fact nU) :
    ∀ (l : List (ℕ × SrcC nU nP nM nD)) (s : JTLoopSt nU nM),
      (ts.length - 1 ≤ tInd ∨ s.lastAsub.isSome) →
      ∃ s2, (l.foldl (fun acc? p => match acc? with
              | none => none
              | some acc => jtvecSrcUpdate c ts f dfduT tInd F acc p.1 p.2)
              (some s)) = some s2
        ∧ s2.inflight = s.inflight ∧ s2.lastAsub = s.lastAsub
        ∧ s2.log = s.log ∧ s2.nid = s.nid := by
  intro l
  induction l with
  | nil => intro s h; exact ⟨s, rfl, rfl, rfl, rfl, rfl⟩
  | cons p rest ih =>
      intro s h
      have hstep : ∃ s1, jtvecSrcUpdate c ts f dfduT tInd F s p.1 p.2 = some s1
          ∧ s1.inflight = s.inflight ∧ s1.lastAsub = s.lastAsub
          ∧ s1.log = s.log ∧ s1.nid = s.nid := by
        unfold jtvecSrcUpdate
        rcases h with h | h
        · simp [h]
        · cases hls : s.lastAsub with
          | none => rw [hls] at h; simp at h
          | some A =>
              by_cases h2 : ts.length - 1 ≤ tInd <;> simp [h2, hls]
      obtain ⟨s1, he, h1, h2, h3, h4⟩ := hstep
      simp only [List.foldl_cons, he]
      obtain ⟨s2, he2, g1, g2, g3, g4⟩ := ih s1
        (by rcases h with h | h
            · exact Or.inl h
            · right; rw [h2]; exact h)
      exact ⟨s2, he2, by rw [g1, h1], by rw [g2, h2], by rw [g3, h3], by rw [g4, h4]⟩

theorem jtvecStep_none {nU nP nM nD nW : ℕ} (c : JCtx nU nP nM nD nW)
    (ts : List ℚ) (atinv : FactDict nU) (f : ℕ → ℕ → Vec nU)
    (dfduT : List (List (Vec nU))) (tInd : ℕ) (s : JTLoopSt nU nM)
    (hfo : c.forward_only = true) (hin : s.inflight = none) :
    ∃ s2, jtvecStep c ts atinv f dfduT tInd s = some s2
      ∧ s2.inflight = some ⟨(c.getAdiag ts tInd)ᵀ, s.nid⟩
      ∧ s2.log = s.log ++ [Ev.factorT (ts.getD tInd 0) s.nid]
      ∧ s2.nid = s.nid + 1 := by
  unfold jtvecStep
  simp only [hin, hfo, if_true]
  by_cases hlt : tInd < ts.length - 1
  · simp only [hlt, if_true]
    obtain ⟨s2, he, h1, h2, h3, h4⟩ := jtvecSrcFold_some c ts f dfduT tInd
      ⟨(c.getAdiag ts tInd)ᵀ, s.nid⟩ (c.srcs.enum)
      { s with inflight := some ⟨(c.getAdiag ts tInd)ᵀ, s.nid⟩
               lastAsub := some (c.getAsubdiag ts (tInd + 1))
               log := s.log ++ [Ev.factorT (ts.getD tInd 0) s.nid]
               nid := s.nid + 1 }
      (Or.inr rfl)
    exact ⟨s2, he, by rw [h1], by rw [h3], by rw [h4]⟩
  · simp only [hlt, if_false]
    obtain ⟨s2, he, h1, h2, h3, h4⟩ := jtvecSrcFold_some c ts f dfduT tInd
      ⟨(c.getAdiag ts tInd)ᵀ, s.nid⟩ (c.srcs.enum)
      { s with inflight := some ⟨(c.getAdiag ts tInd)ᵀ, s.nid⟩
               log := s.log ++ [Ev.factorT (ts.getD tInd 0) s.nid]
               nid := s.nid + 1 }
      (Or.inl (by omega))
    exact ⟨s2, he, by rw [h1], by rw [h3], by rw [h4]⟩

theorem jtvecStep_some_reuse {nU nP nM nD nW : ℕ} (c : JCtx nU nP nM nD nW)
    (ts : List ℚ) (atinv : FactDict nU) (f : ℕ → ℕ → Vec nU)
    (dfduT : List (List (Vec nU))) (tInd : ℕ) (s : JTLoopSt nU nM) (F : Fact nU)
    (hfo : c.forward_only = true) (hin : s.inflight = some F)
    (hc : ¬ jtvecRefactorCond ts tInd) :
    ∃ s2, jtvecStep c ts atinv f dfduT tInd s = some s2
      ∧ s2.inflight = some F ∧ s2.log = s.log ∧ s2.nid = s.nid := by
  unfold jtvecStep
  simp only [hin, hc, if_false]
  by_cases hlt : tInd < ts.length - 1
  · simp only [hlt, if_true]
    obtain ⟨s2, he, h1, h2, h3, h4⟩ := jtvecSrcFold_some c ts f dfduT tInd F
      (c.srcs.enum)
      { s with inflight := some F
               lastAsub := some (c.getAsubdiag ts (tInd + 1)) } (Or.inr rfl)
    exact ⟨s2, he, by rw [h1], by rw [h3], by rw [h4]⟩
  · simp only [hlt, if_false]
    obtain ⟨s2, he, h1, h2, h3, h4⟩ := jtvecSrcFold_some c ts f dfduT tInd F
      (c.srcs.enum) s (Or.inl (by omega))
    exact ⟨s2, he, by rw [h1, hin], by rw [h3], by rw [h4]⟩

theorem jtvecStep_some_refactor {nU nP nM nD nW : ℕ} (c : JCtx nU nP nM nD nW)
    (ts : List ℚ) (atinv : FactDict nU) (f : ℕ → ℕ → Vec nU)
    (dfduT : List (List (Vec nU))) (tInd : ℕ) (s : JTLoopSt nU nM) (F : Fact nU)
    (hfo : c.forward_only = true) (hin : s.inflight = some F)
    (hc : jtvecRefactorCond ts tInd) :
    ∃ s2, jtvecStep c ts atinv f dfduT tInd s = some s2
      ∧ s2.inflight = some ⟨(c.getAdiag ts tInd)ᵀ, s.nid⟩
      ∧ s2.log = s.log ++ [Ev.cleanEv F.fid, Ev.factorT (ts.getD tInd 0) s.nid]
      ∧ s2.nid = s.nid + 1 := by
  unfold jtvecStep
  simp only [hin, hc, if_true, hfo]
  by_cases hlt : tInd < ts.length - 1
  · simp only [hlt, if_true]
    obtain ⟨s2, he, h1, h2, h3, h4⟩ := jtvecSrcFold_some c ts f dfduT tInd
      ⟨(c.getAdiag ts tInd)ᵀ, s.nid⟩ (c.srcs.enum)
      { s with inflight := some ⟨(c.getAdiag ts tInd)ᵀ, s.nid⟩
               lastAsub := some (c.getAsubdiag ts (tInd + 1))
               log := (s.log ++ [Ev.cleanEv F.fid]) ++ [Ev.factorT (ts.getD tInd 0) s.nid]
               nid := s.nid + 1 }
      (Or.inr rfl)
    exact ⟨s2, he, by rw [h1], by rw [h3]; simp, by rw [h4]⟩
  · simp only [hlt, if_false]
    obtain ⟨s2, he, h1, h2, h3, h4⟩ := jtvecSrcFold_some c ts f dfduT tInd
      ⟨(c.getAdiag ts tInd)ᵀ, s.nid⟩ (c.srcs.enum)
      { s with inflight := some ⟨(c.getAdiag ts tInd)ᵀ, s.nid⟩
               log := (s.log ++ [Ev.cleanEv F.fid]) ++ [Ev.factorT (ts.getD tInd 0) s.nid]
               nid := s.nid + 1 }
      (Or.inl (by omega))
    exact ⟨s2, he, by rw [h1], by rw [h3]; simp, by rw [h4]⟩

theorem jtvecLoopTwoStepLog {nU nP nM nD nW : ℕ} (c : JCtx nU nP nM nD nW)
    (atinv : FactDict nU) (f : ℕ → ℕ → Vec nU) (dfduT : List (List (Vec nU)))
    (a b : ℚ) (lam0 : List (Vec nU)) (JTv0 : Vec nM) (nid : ℕ)
    (hfo : c.forward_only = true) :
    ∃ s, jtvecLoop c [a, b] atinv f dfduT [1, 0]
          ⟨none, none, lam0, JTv0, [], nid⟩ = some s
      ∧ countFactorT s.log = (if a = b then 1 else 2) := by
  obtain ⟨s1, he1, hi1, hl1, hn1⟩ := jtvecStep_none c [a, b] atinv f dfduT 1
    ⟨none, none, lam0, JTv0, [], nid⟩ hfo rfl
  by_cases hab : a = b
  · have hc : ¬ jtvecRefactorCond [a, b] 0 := by
      simp [jtvecRefactorCond, List.getD, hab]
    obtain ⟨s2, he2, hi2, hl2, hn2⟩ :=
      jtvecStep_some_reuse c [a, b] atinv f dfduT 0 s1 _ hfo hi1 hc
    refine ⟨s2, ?_, ?_⟩
    · simp only [jtvecLoop, he1, he2]
    · rw [hl2, hl1, if_pos hab]
      simp [countFactorT]
  · have hc : jtvecRefactorCond [a, b] 0 := by
      simp [jtvecRefactorCond, List.getD]
      exact hab
    obtain ⟨s2, he2, hi2, hl2, hn2⟩ :=
      jtvecStep_some_refactor c [a, b] atinv f dfduT 0 s1 _ hfo hi1 hc
    refine ⟨s2, ?_, ?_⟩
    · simp only [jtvecLoop, he1, he2]
    · rw [hl2, hl1, if_neg hab]
      simp [countFactorT]

theorem jvecTwoStepLog {nU nP nM nD nW : ℕ} (c : JCtx nU nP nM nD nW)
    (st : SimSt nU nW) (f : ℕ → ℕ → Vec nU) (v : Vec nM) (a b : ℚ)
    (hfo : c.forward_only = true) (hts : st.ts = [a, b]) :
    (jvecRun c st f v).map (fun o => countFactor o.log)
      = some (if b = a then 1 else 2) := by
  obtain ⟨ts, ai, ati, adc, nid⟩ := st
  simp only at hts
  subst hts
  have hr : List.range (2 : ℕ) = [0, 1] := rfl
  by_cases h : b = a <;>
    simp [jvecRun, hfo, hr, jvecLoop, jvecStep, jvecRefactorCond, h,
      countFactor, List.countP, List.countP.go]

/-!
## Dictionary and event-count bookkeeping lemmas
-/

theorem find_replace_ne {nU : ℕ} (d : FactDict nU) (k k2 : ℚ) (v : Option (Fact nU))
    (h : k2 ≠ k) :
    (d.map (fun kv => if kv.1 = k2 then (k2, v) else kv)).find?
        (fun kv => decide (kv.1 = k))
      = d.find? (fun kv => decide (kv.1 = k)) := by
  induction d with
  | nil => rfl
  | cons kv rest ih =>
      by_cases hk : kv.1 = k2
      · simp only [List.map_cons, if_pos hk, List.find?]
        have h1 : (decide (k2 = k)) = false := by simp [h]
        have h2 : (decide (kv.1 = k)) = false := by simp [hk, h]
        rw [h1, h2]
        exact ih
      · simp only [List.map_cons, if_neg hk, List.find?]
        cases hd : decide (kv.1 = k) with
        | true => rfl
        | false => exact ih

theorem dictGet_set_ne {nU : ℕ} (d : FactDict nU) (k k2 : ℚ)
    (v : Option (Fact nU)) (h : k2 ≠ k) :
    dictGet (dictSet d k2 v) k = dictGet d k := by
  unfold dictGet dictSet
  by_cases ha : d.any (fun kv => decide (kv.1 = k2))
  · rw [if_pos ha, find_replace_ne d k k2 v h]
  · rw [if_neg ha]
    induction d with
    | nil => simp [List.find?, h]
    | cons kv rest ih =>
        rw [List.cons_append, List.find?, List.find?]
        cases hd : decide (kv.1 = k) with
        | true => rfl
        | false =>
            exact ih (fun hc => ha (by
              simp only [List.any_cons, hc, Bool.or_true]))

theorem dictGet_set_self {nU : ℕ} (d : FactDict nU) (k : ℚ)
    (v : Option (Fact nU)) :
    dictGet (dictSet d k v) k = some v := by
  unfold dictGet dictSet
  by_cases ha : d.any (fun kv => decide (kv.1 = k))
  · rw [if_pos ha]
    induction d with
    | nil => simp at ha
    | cons kv rest ih =>
        by_cases hk : kv.1 = k
        · simp only [List.map_cons, if_pos hk, List.find?]
          simp
        · simp only [List.map_cons, if_neg hk, List.find?]
          have h2 : (decide (kv.1 = k)) = false := by simp [hk]
          rw [h2]
          exact ih (by
            simp only [List.any_cons, h2, Bool.false_or] at ha
            exact ha)
  · rw [if_neg ha]
    induction d with
    | nil => simp [List.find?]
    | cons kv rest ih =>
        rw [List.cons_append, List.find?]
        have hk : ¬ (kv.1 = k) := fun hc => ha (by simp [List.any_cons, hc])
        have h2 : (decide (kv.1 = k)) = false := by simp [hk]
        rw [h2]
        exact ih (fun hc => ha (by simp only [List.any_cons, hc, Bool.or_true]))

/-- Demonstration `fields` context (`forward_only = true`, `dt_threshold = 1`,
`AdiagOf dt = dt` in dimension one, unit right-hand sides, zero initial
fields). -/
def cFDemo : FCtx 1 1 :=
  { dt_threshold := 1
    forward_only := true
    AdiagOf := fun dt => dt • (1 : Mat 1 1)
    AsubOf := fun _ => 0
    RHS := fun _ => Matrix.of fun _ _ => 1
    initF := 0 }

/-- Persistent state with `time_steps = [1, 3/2]`: two consecutive step
lengths that differ, but by no more than `dt_threshold = 1`. -/
def stDemo32 : SimSt 1 1 := ⟨[1, 3 / 2], none, none, none, 0⟩

/-- C3 (amended): the forward loop of `fields` reuses the in-flight
factorization exactly when consecutive step lengths agree within
`dt_threshold` (one factorization if `|b - a| ≤ dt_threshold`, two
otherwise), but the forward loop of `Jvec` and the backward loop of `Jtvec`
reuse it exactly when consecutive step lengths are exactly equal — their
tests (`dt != time_steps[tInd-1]`, `time_steps[tInd] != time_steps[tInd+1]`)
do not consult `dt_threshold`. -/
theorem claim_C3_amended_reuse_conditions {nU nSrc nW nU2 nP nM nD nW2 : ℕ}
    (cF : FCtx nU nSrc) (stF : SimSt nU nW) (cJ : JCtx nU2 nP nM nD nW2)
    (stJ : SimSt nU2 nW2) (f : ℕ → ℕ → Vec nU2) (v : Vec nM)
    (d : ℕ → ℕ → Vec nD) (atinv : FactDict nU2)
    (dfduT : List (List (Vec nU2))) (lam0 : List (Vec nU2)) (JTv0 : Vec nM)
    (nid : ℕ) (a b : ℚ)
    (hfoF : cF.forward_only = true) (hfoJ : cJ.forward_only = true)
    (htsF : stF.ts = [a, b]) (htsJ : stJ.ts = [a, b]) :
    (fieldsRun cF stF).map (fun o => countFactor o.log)
        = some (if cF.dt_threshold < |b - a| then 2 else 1)
    ∧ (jvecRun cJ stJ f v).map (fun o => countFactor o.log)
        = some (if b = a then 1 else 2)
    ∧ (∃ s, jtvecLoop cJ [a, b] atinv f dfduT [1, 0]
            ⟨none, none, lam0, JTv0, [], nid⟩ = some s
          ∧ countFactorT s.log = (if a = b then 1 else 2)) :=
  ⟨fieldsTwoStepLog cF stF a b hfoF htsF,
   jvecTwoStepLog cJ stJ f v a b hfoJ htsJ,
   jtvecLoopTwoStepLog cJ atinv f dfduT a b lam0 JTv0 nid hfoJ⟩

/-- Witness for the amended C3 at concrete inputs (`a = 1`, `b = 2`, both
demonstration contexts, trivial loop data). -/
theorem claim_C3_amended_reuse_conditions_witness :
    (fieldsRun cFDemo (⟨[1, 2], none, none, none, 0⟩ : SimSt 1 1)).map
        (fun o => countFactor o.log)
        = some (if cFDemo.dt_threshold < |(2 : ℚ) - 1| then 2 else 1)
    ∧ (jvecRun cDemo (⟨[1, 2], none, none, none, 0⟩ : SimSt 1 1)
          (fun _ _ => 0) 0).map (fun o => countFactor o.log)
        = some (if (2 : ℚ) = 1 then 1 else 2)
    ∧ (∃ s, jtvecLoop cDemo [1, 2] [] (fun _ _ => 0) [] [1, 0]
            ⟨none, none, [], 0, [], 7⟩ = some s
          ∧ countFactorT s.log = (if (1 : ℚ) = 2 then 1 else 2)) :=
  claim_C3_amended_reuse_conditions cFDemo ⟨[1, 2], none, none, none, 0⟩
    cDemo ⟨[1, 2], none, none, none, 0⟩ (fun _ _ => 0) 0 (fun _ _ => 0) [] []
    [] 0 7 1 2 rfl rfl rfl rfl

/-- Counterexample to C3 as stated: with `time_steps = [1, 3/2]` and
`dt_threshold = 1` the consecutive step lengths agree within the threshold
(`|3/2 - 1| ≤ 1`), so the claim predicts reuse (a single factorization) in
the `Jvec` loop too — but `Jvec` factorizes twice. -/
theorem claim_C3_counterexample :
    |(3 / 2 : ℚ) - 1| ≤ 1
    ∧ (jvecRun cDemo stDemo32 (fun _ _ => 0) 0).map
        (fun o => countFactor o.log) = some 2 := by
  constructor
  · rw [abs_le]; constructor <;> norm_num
  · have h := jvecTwoStepLog cDemo stDemo32 (fun _ _ => 0) 0 1 (3 / 2) rfl rfl
    rwa [if_neg (by norm_num)] at h

/-!
## Claims C4, C6, C2: the `fields` engine

`rebuildFold_spec` characterizes the eager refactorization loop;
`fieldsStep_spec` / `fieldsLoop_spec` characterize the forward loop
(`fieldsUVal` is its closed-form value, `anchorDt` the step length whose
factorization is actually in flight); `fieldsRun_false_spec` assembles the
full `forward_only=False` behavior.
-/

theorem countFactor_append (l1 l2 : List Ev) :
    countFactor (l1 ++ l2) = countFactor l1 + countFactor l2 :=
  List.countP_append _ _ _

theorem countFactorT_append (l1 l2 : List Ev) :
    countFactorT (l1 ++ l2) = countFactorT l1 + countFactorT l2 :=
  List.countP_append _ _ _

theorem countFactorAt_append (l1 l2 : List Ev) (k : ℚ) :
    countFactorAt (l1 ++ l2) k = countFactorAt l1 k + countFactorAt l2 k :=
  List.countP_append _ _ _

theorem countFactor_single (dt : ℚ) (n : ℕ) :
    countFactor [Ev.factor dt n] = 1 := rfl

theorem countFactorT_single_factor (dt : ℚ) (n : ℕ) :
    countFactorT [Ev.factor dt n] = 0 := rfl

theorem countFactorAt_single_self (dt : ℚ) (n : ℕ) :
    countFactorAt [Ev.factor dt n] dt = 1 := by
  simp [countFactorAt, List.countP, List.countP.go]

theorem countFactorAt_single_ne (dt k : ℚ) (n : ℕ) (h : dt ≠ k) :
    countFactorAt [Ev.factor dt n] k = 0 := by
  simp [countFactorAt, List.countP, List.countP.go, h]

theorem rebuildFold_spec {nU nSrc : ℕ} (c : FCtx nU nSrc) (ts1 : List ℚ) :
    ∀ (keys : List ℚ) (d0 : FactDict nU) (lg0 : List Ev) (n0 : ℕ),
      keys.Nodup →
      ((∀ k ∈ keys, ∃ fid,
          dictGet ((keys.foldl (rebuildStep c ts1) (d0, lg0, n0)).1) k
            = some (some ⟨c.getAdiag ts1 (ts1.indexOf k), fid⟩))
        ∧ (∀ k, k ∉ keys →
            dictGet ((keys.foldl (rebuildStep c ts1) (d0, lg0, n0)).1) k
              = dictGet d0 k)
        ∧ countFactor (keys.foldl (rebuildStep c ts1) (d0, lg0, n0)).2.1
            = countFactor lg0 + keys.length
        ∧ (∀ k ∈ keys,
            countFactorAt (keys.foldl (rebuildStep c ts1) (d0, lg0, n0)).2.1 k
              = countFactorAt lg0 k + 1)
        ∧ (∀ k, k ∉ keys →
            countFactorAt (keys.foldl (rebuildStep c ts1) (d0, lg0, n0)).2.1 k
              = countFactorAt lg0 k)
        ∧ countFactorT (keys.foldl (rebuildStep c ts1) (d0, lg0, n0)).2.1
            = countFactorT lg0) := by
  intro keys
  induction keys with
  | nil =>
      intro d0 lg0 n0 _
      exact ⟨fun k hk => absurd hk (List.not_mem_nil k),
        fun k _ => rfl, by simp, fun k hk => absurd hk (List.not_mem_nil k),
        fun k _ => rfl, rfl⟩
  | cons a rest ih =>
      intro d0 lg0 n0 hnd
      have hnd2 := hnd.of_cons
      have hna : a ∉ rest := (List.nodup_cons.mp hnd).1
      obtain ⟨g1, g2, g3, g4, g5, g6⟩ :=
        ih (dictSet d0 a (some ⟨c.getAdiag ts1 (ts1.indexOf a), n0⟩))
          (lg0 ++ [Ev.factor a n0]) (n0 + 1) hnd2
      rw [List.foldl_cons]
      simp only [rebuildStep]
      refine ⟨?_, ?_, ?_, ?_, ?_, ?_⟩
      · intro k hk
        rcases List.mem_cons.mp hk with hk | hk
        · subst hk
          refine ⟨n0, ?_⟩
          rw [g2 k hna, dictGet_set_self]
        · exact g1 k hk
      · intro k hk
        have hk1 : k ≠ a := fun hc => hk (hc ▸ List.mem_cons_self a rest)
        have hk2 : k ∉ rest := fun hc => hk (List.mem_cons_of_mem a hc)
        rw [g2 k hk2, dictGet_set_ne d0 k a _ (fun hc => hk1 hc.symm)]
      · rw [g3, countFactor_append, countFactor_single]
        simp [List.length_cons]
        omega
      · intro k hk
        rcases List.mem_cons.mp hk with hk | hk
        · subst hk
          rw [g5 k hna, countFactorAt_append, countFactorAt_single_self]
        · rw [g4 k hk, countFactorAt_append]
          by_cases hak : a = k
          · subst hak
            exact absurd hk hna
          · rw [countFactorAt_single_ne a k n0 hak]
      · intro k hk
        have hk1 : a ≠ k := fun hc => hk (hc ▸ List.mem_cons_self a rest)
        have hk2 : k ∉ rest := fun hc => hk (List.mem_cons_of_mem a hc)
        rw [g5 k hk2, countFactorAt_append, countFactorAt_single_ne a k n0 hk1]
        omega
      · rw [g6, countFactorT_append, countFactorT_single_factor]
        omega

theorem mem_npUnique (l : List ℚ) (a : ℚ) : a ∈ npUnique l ↔ a ∈ l := by
  unfold npUnique
  rw [List.mem_mergeSort, List.mem_dedup]

theorem nodup_npUnique (l : List ℚ) : (npUnique l).Nodup := by
  unfold npUnique
  exact (List.mergeSort_perm l.dedup _).nodup_iff.mpr l.nodup_dedup

/-- The step length whose factorization is in flight at step `t`. -/
def anchorDt (tau : ℚ) (ts : List ℚ) : ℕ → ℚ
  | 0 => ts.getD 0 0
  | t + 1 =>
      if tau < |ts.getD (t + 1) 0 - ts.getD t 0| then ts.getD (t + 1) 0
      else anchorDt tau ts t

/-- Closed form of the forward recursion computed by `fields`. -/
def fieldsUVal {nU nSrc : ℕ} (c : FCtx nU nSrc) (ts : List ℚ) : ℕ → Mat nU nSrc
  | 0 => c.initF
  | t + 1 =>
      minv (c.AdiagOf (anchorDt c.dt_threshold ts t)) *
        (c.RHS (t + 1) - c.AsubOf (ts.getD t 0) * fieldsUVal c ts t)

theorem ts_getD_mem (ts : List ℚ) (t : ℕ) (h : t < ts.length) :
    ts.getD t 0 ∈ ts := by
  rw [List.getD_eq_getElem ts 0 h]
  exact List.getElem_mem h

theorem map_range_getLastD {α : Type} (f : ℕ → α) (t0 : ℕ) (x : α) :
    ((List.range (t0 + 1)).map f).getLastD x = f t0 := by
  rw [List.range_succ, List.map_append]
  simp

theorem map_range_snoc {α : Type} (f : ℕ → α) (t0 : ℕ) :
    (List.range (t0 + 1)).map f ++ [f (t0 + 1)]
      = (List.range (t0 + 2)).map f := by
  conv_rhs => rw [List.range_succ, List.map_append]
  rfl

theorem fieldsStep_spec {nU nSrc : ℕ} (c : FCtx nU nSrc) (ts : List ℚ)
    (d : FactDict nU)
    (HD : c.forward_only = true
      ∨ (∀ dt ∈ ts, ∃ F, dictGet d dt = some (some F) ∧ F.mat = c.AdiagOf dt))
    (t0 : ℕ) (s : FLoopSt nU nSrc) (ht : t0 < ts.length)
    (hus : s.us = (List.range (t0 + 1)).map (fieldsUVal c ts))
    (hin0 : s.inflight = none → t0 = 0)
    (hinS : ∀ F, s.inflight = some F →
      0 < t0 ∧ F.mat = c.AdiagOf (anchorDt c.dt_threshold ts (t0 - 1))) :
    ∃ s2, fieldsStep c ts d t0 s = some s2
      ∧ s2.us = (List.range (t0 + 2)).map (fieldsUVal c ts)
      ∧ (∀ F, s2.inflight = some F →
          F.mat = c.AdiagOf (anchorDt c.dt_threshold ts t0))
      ∧ s2.inflight.isSome
      ∧ (c.forward_only = false → s2.log = s.log ∧ s2.nid = s.nid) := by
  have hgetLast : s.us.getLastD c.initF = fieldsUVal c ts t0 := by
    rw [hus, map_range_getLastD]
  -- the solution appended by the step, whenever the factorization used
  -- carries the matrix `AdiagOf (anchorDt t0)`
  have hsol : ∀ F : Fact nU,
      F.mat = c.AdiagOf (anchorDt c.dt_threshold ts t0) →
      F.solveM (c.RHS (t0 + 1) - c.getAsubdiag ts t0 * s.us.getLastD c.initF)
        = fieldsUVal c ts (t0 + 1) := by
    intro F hF
    rw [Fact.solveM, hF, hgetLast, FCtx.getAsubdiag]
    rfl
  have hsnoc : ∀ x, x = fieldsUVal c ts (t0 + 1) →
      s.us ++ [x] = (List.range (t0 + 2)).map (fieldsUVal c ts) := by
    intro x hx
    rw [hx, hus, map_range_snoc]
  have hanchor_succ : 0 < t0 →
      (fieldsRefactorCond c.dt_threshold ts t0 →
        anchorDt c.dt_threshold ts t0 = ts.getD t0 0)
      ∧ (¬ fieldsRefactorCond c.dt_threshold ts t0 →
        anchorDt c.dt_threshold ts t0 = anchorDt c.dt_threshold ts (t0 - 1)) := by
    intro hpos
    obtain ⟨t1, rfl⟩ : ∃ t1, t0 = t1 + 1 := ⟨t0 - 1, (Nat.succ_pred_eq_of_pos hpos).symm⟩
    constructor
    · intro hc
      have hc2 : c.dt_threshold < |ts.getD (t1 + 1) 0 - ts.getD t1 0| := by
        simpa using hc.2
      rw [anchorDt, if_pos hc2]
    · intro hc
      have : ¬ c.dt_threshold < |ts.getD (t1 + 1) 0 - ts.getD t1 0| := by
        intro habs
        exact hc ⟨Nat.succ_pos t1, by simpa using habs⟩
      rw [anchorDt, if_neg this]
      rfl
  unfold fieldsStep
  cases hin : s.inflight with
  | none =>
      have ht0 : t0 = 0 := hin0 hin
      subst ht0
      have ha : anchorDt c.dt_threshold ts 0 = ts.getD 0 0 := rfl
      cases hfoc : c.forward_only with
      | true =>
          simp only [hin, hfoc, if_true]
          refine ⟨_, rfl, ?_, ?_, ?_, ?_⟩
          · exact hsnoc _ (hsol _ (by rw [FCtx.getAdiag, ha]))
          · intro F hF
            simp only [Option.some.injEq] at hF
            rw [← hF, FCtx.getAdiag, ha]
          · simp
          · intro hfo2; simp at hfo2
      | false =>
          have hdict := HD.resolve_left (fun h => by rw [h] at hfoc; simp at hfoc)
          obtain ⟨F, hFget, hFmat⟩ := hdict (ts.getD 0 0) (ts_getD_mem ts 0 ht)
          simp only [hin, hfoc, if_false, Bool.false_eq_true, hFget]
          refine ⟨_, rfl, ?_, ?_, ?_, ?_⟩
          · exact hsnoc _ (hsol _ (by rw [hFmat, ha]))
          · intro F2 hF2
            simp only [Option.some.injEq] at hF2
            rw [← hF2, hFmat, ha]
          · simp
          · intro _; exact ⟨rfl, rfl⟩
  | some F =>
      obtain ⟨hpos, hFmat⟩ := hinS F hin
      obtain ⟨hanc1, hanc2⟩ := hanchor_succ hpos
      by_cases hcond : fieldsRefactorCond c.dt_threshold ts t0
      · -- invalidate, then refactor / lookup
        cases hfoc : c.forward_only with
        | true =>
            simp only [hin, hcond, if_true, hfoc]
            refine ⟨_, rfl, ?_, ?_, ?_, ?_⟩
            · exact hsnoc _ (hsol _ (by rw [FCtx.getAdiag, hanc1 hcond]))
            · intro F2 hF2
              simp only [Option.some.injEq] at hF2
              rw [← hF2, FCtx.getAdiag, hanc1 hcond]
            · simp
            · intro hfo2; simp at hfo2
        | false =>
            have hdict := HD.resolve_left (fun h => by rw [h] at hfoc; simp at hfoc)
            obtain ⟨F2, hFget, hFmat2⟩ := hdict (ts.getD t0 0) (ts_getD_mem ts t0 ht)
            simp only [hin, hcond, if_true, hfoc, if_false, Bool.false_eq_true, hFget]
            refine ⟨_, rfl, ?_, ?_, ?_, ?_⟩
            · exact hsnoc _ (hsol _ (by rw [hFmat2, hanc1 hcond]))
            · intro F3 hF3
              simp only [Option.some.injEq] at hF3
              rw [← hF3, hFmat2, hanc1 hcond]
            · simp
            · intro _
              constructor
              · simp
              · rfl
      · -- reuse the in-flight factorization
        simp only [hin, hcond, if_false]
        refine ⟨_, rfl, ?_, ?_, ?_, ?_⟩
        · exact hsnoc _ (hsol _ (by rw [hFmat, hanc2 hcond]))
        · intro F2 hF2
          simp only [Option.some.injEq] at hF2
          rw [← hF2, hFmat, hanc2 hcond]
        · simp
        · intro _; exact ⟨rfl, rfl⟩

theorem fieldsLoop_spec {nU nSrc : ℕ} (c : FCtx nU nSrc) (ts : List ℚ)
    (d : FactDict nU)
    (HD : c.forward_only = true
      ∨ (∀ dt ∈ ts, ∃ F, dictGet d dt = some (some F) ∧ F.mat = c.AdiagOf dt)) :
    ∀ (len t0 : ℕ) (s : FLoopSt nU nSrc), t0 + len = ts.length →
      s.us = (List.range (t0 + 1)).map (fieldsUVal c ts) →
      (s.inflight = none → t0 = 0) →
      (∀ F, s.inflight = some F →
        0 < t0 ∧ F.mat = c.AdiagOf (anchorDt c.dt_threshold ts (t0 - 1))) →
      ∃ s2, fieldsLoop c ts d (List.range' t0 len) s = some s2
        ∧ s2.us = (List.range (ts.length + 1)).map (fieldsUVal c ts)
        ∧ (0 < len → s2.inflight.isSome)
        ∧ (len = 0 → s2 = s)
        ∧ (c.forward_only = false → s2.log = s.log ∧ s2.nid = s.nid) := by
  intro len
  induction len with
  | zero =>
      intro t0 s hlen hus hin0 hinS
      have ht0 : t0 = ts.length := by omega
      refine ⟨s, rfl, ?_, fun h => absurd h (by omega), fun _ => rfl,
        fun _ => ⟨rfl, rfl⟩⟩
      rw [hus, ht0]
  | succ len ih =>
      intro t0 s hlen hus hin0 hinS
      have ht : t0 < ts.length := by omega
      obtain ⟨s1, hstep, h1us, h1mat, h1some, h1log⟩ :=
        fieldsStep_spec c ts d HD t0 s ht hus hin0 hinS
      have hcons : List.range' t0 (len + 1) = t0 :: List.range' (t0 + 1) len := rfl
      obtain ⟨s2, hloop, g2us, g2some, g2id, g2log⟩ :=
        ih (t0 + 1) s1 (by omega) h1us
          (fun hc => absurd (hc ▸ h1some) (by simp))
          (fun F hF => ⟨Nat.succ_pos t0, by simpa using h1mat F hF⟩)
      refine ⟨s2, ?_, g2us, ?_, ?_, ?_⟩
      · rw [hcons, fieldsLoop, hstep]
        exact hloop
      · intro _
        cases hlen2 : len with
        | zero => rw [g2id hlen2]; exact h1some
        | succ l => exact g2some (by omega)
      · intro h; cases h
      · intro hfo
        obtain ⟨ga, gb⟩ := g2log hfo
        obtain ⟨gc, gd⟩ := h1log hfo
        exact ⟨ga.trans gc, gb.trans gd⟩

/-- The effective `self.time_steps` after the `forward_only=False` prologue of
`fields`: rounded through `dt_threshold` when the `Ainv` dictionary does not
exist yet, unchanged otherwise. -/
def fieldsEffTs {nU nSrc nW : ℕ} (c : FCtx nU nSrc) (st0 : SimSt nU nW) : List ℚ :=
  match st0.Ainv with
  | some _ => st0.ts
  | none => roundTs c.dt_threshold st0.ts

theorem getD_indexOf_self (l : List ℚ) (k : ℚ) (h : k ∈ l) :
    l.getD (l.indexOf k) 0 = k := by
  have hlt : l.indexOf k < l.length := List.indexOf_lt_length.mpr h
  rw [List.getD_eq_getElem l 0 hlt]
  exact List.getElem_indexOf hlt

theorem fieldsRunFalseTail_spec {nU nSrc nW : ℕ} (c : FCtx nU nSrc)
    (ts1 : List ℚ) (ainvCleaned atinv1 : FactDict nU) (adc : Option (Fact nW))
    (nid : ℕ) (hfo : c.forward_only = false) :
    ∃ out, fieldsRunFalseTail c ts1 ainvCleaned atinv1 adc nid = some out
      ∧ out.u = (List.range (ts1.length + 1)).map (fieldsUVal c ts1)
      ∧ out.st.ts = ts1
      ∧ out.st.Ainv.isSome
      ∧ out.st.ATinv = some atinv1
      ∧ countFactor out.log = (npUnique ts1).length
      ∧ (∀ k ∈ npUnique ts1, countFactorAt out.log k = 1)
      ∧ countFactorT out.log = 0
      ∧ out.st.adcinv = adc := by
  obtain ⟨g1, g2, g3, g4, g5, g6⟩ :=
    rebuildFold_spec c ts1 (npUnique ts1) ainvCleaned [] nid (nodup_npUnique ts1)
  have HD : c.forward_only = true
      ∨ (∀ dt ∈ ts1, ∃ F,
          dictGet ((npUnique ts1).foldl (rebuildStep c ts1)
            (ainvCleaned, ([] : List Ev), nid)).1 dt = some (some F)
          ∧ F.mat = c.AdiagOf dt) := by
    right
    intro dt hdt
    obtain ⟨fid, hget⟩ := g1 dt ((mem_npUnique ts1 dt).mpr hdt)
    refine ⟨_, hget, ?_⟩
    simp only [FCtx.getAdiag]
    rw [getD_indexOf_self ts1 dt hdt]
  obtain ⟨s2, hloop, h2us, h2some, h2id, h2log⟩ :=
    fieldsLoop_spec c ts1 _ HD ts1.length 0
      ⟨none, [c.initF],
       ((npUnique ts1).foldl (rebuildStep c ts1)
         (ainvCleaned, ([] : List Ev), nid)).2.1,
       ((npUnique ts1).foldl (rebuildStep c ts1)
         (ainvCleaned, ([] : List Ev), nid)).2.2⟩
      (by omega) rfl (fun _ => rfl) (fun F hF => by cases hF)
  obtain ⟨hlog, hnid⟩ := h2log hfo
  have hrun : fieldsRunFalseTail c ts1 ainvCleaned atinv1 adc nid
      = some ⟨s2.us,
          { ts := ts1,
            Ainv := some ((npUnique ts1).foldl (rebuildStep c ts1)
              (ainvCleaned, ([] : List Ev), nid)).1,
            ATinv := some atinv1, adcinv := adc, nextId := s2.nid },
          s2.log⟩ := by
    unfold fieldsRunFalseTail
    simp only []
    rw [List.range_eq_range', hloop]
  refine ⟨_, hrun, h2us, rfl, by simp, rfl, ?_, ?_, ?_, rfl⟩
  · rw [hlog]; exact g3.trans (by simp [countFactor])
  · intro k hk
    rw [hlog, g4 k hk]
    simp [countFactorAt]
  · rw [hlog, g6]
    rfl

theorem fieldsRun_false_spec {nU nSrc nW : ℕ} (c : FCtx nU nSrc)
    (st0 : SimSt nU nW) (hfo : c.forward_only = false) :
    ∃ out, fieldsRun c st0 = some out
      ∧ out.u = (List.range ((fieldsEffTs c st0).length + 1)).map
          (fieldsUVal c (fieldsEffTs c st0))
      ∧ out.st.ts = fieldsEffTs c st0
      ∧ out.st.Ainv.isSome
      ∧ (∃ at1, out.st.ATinv = some at1 ∧ ∀ kv ∈ at1, kv.2 = none)
      ∧ countFactor out.log = (npUnique (fieldsEffTs c st0)).length
      ∧ (∀ k ∈ npUnique (fieldsEffTs c st0), countFactorAt out.log k = 1)
      ∧ countFactorT out.log = 0
      ∧ out.st.adcinv = st0.adcinv := by
  obtain ⟨ts0, ai, ati, adc, nid⟩ := st0
  have hfin : ∀ (ts1 : List ℚ) (ainvC atinvC : FactDict nU),
      (∀ kv ∈ atinvC, kv.2 = none) →
      ∃ out, fieldsRunFalseTail c ts1 ainvC atinvC adc nid = some out
        ∧ out.u = (List.range (ts1.length + 1)).map (fieldsUVal c ts1)
        ∧ out.st.ts = ts1
        ∧ out.st.Ainv.isSome
        ∧ (∃ at1, out.st.ATinv = some at1 ∧ ∀ kv ∈ at1, kv.2 = none)
        ∧ countFactor out.log = (npUnique ts1).length
        ∧ (∀ k ∈ npUnique ts1, countFactorAt out.log k = 1)
        ∧ countFactorT out.log = 0
        ∧ out.st.adcinv = adc := by
    intro ts1 ainvC atinvC hall
    obtain ⟨out, h0, h1, h2, h3, h4, h5, h6, h7, h8⟩ :=
      fieldsRunFalseTail_spec c ts1 ainvC atinvC adc nid hfo
    exact ⟨out, h0, h1, h2, h3, ⟨atinvC, h4, hall⟩, h5, h6, h7, h8⟩
  have hmapnone : ∀ (d2 : FactDict nU),
      ∀ kv ∈ (d2.map fun kv => (kv.1, (none : Option (Fact nU)))), kv.2 = none := by
    intro d2 kv hkv
    obtain ⟨kv0, _, hkv2⟩ := List.mem_map.mp hkv
    rw [← hkv2]
  have hfromnone : ∀ (ks : List ℚ),
      ∀ kv ∈ (dictFromKeys nU ks), kv.2 = none := by
    intro ks kv hkv
    obtain ⟨k0, _, hkv2⟩ := List.mem_map.mp hkv
    rw [← hkv2]
  cases ai with
  | some d =>
      cases ati with
      | some d2 =>
          by_cases hall : d2.all (fun kv => kv.2.isSome)
          · simp only [fieldsRun, hfo, Bool.false_eq_true, if_false,
              fieldsEffTs, hall, if_true]
            exact hfin ts0 _ _ (hmapnone d2)
          · simp only [fieldsRun, hfo, Bool.false_eq_true, if_false,
              fieldsEffTs, hall, if_false]
            exact hfin ts0 _ _ (hfromnone _)
      | none =>
          simp only [fieldsRun, hfo, Bool.false_eq_true, if_false, fieldsEffTs]
          exact hfin ts0 _ _ (hfromnone _)
  | none =>
      cases ati with
      | some d2 =>
          by_cases hall : d2.all (fun kv => kv.2.isSome)
          · simp only [fieldsRun, hfo, Bool.false_eq_true, if_false,
              fieldsEffTs, hall, if_true]
            exact hfin _ _ _ (hmapnone d2)
          · simp only [fieldsRun, hfo, Bool.false_eq_true, if_false,
              fieldsEffTs, hall, if_false]
            exact hfin _ _ _ (hfromnone _)
      | none =>
          simp only [fieldsRun, hfo, Bool.false_eq_true, if_false, fieldsEffTs]
          exact hfin _ _ _ (hfromnone _)

theorem fieldsEffTs_of_isSome {nU nSrc nW : ℕ} (c : FCtx nU nSrc)
    (st : SimSt nU nW) (h : st.Ainv.isSome) : fieldsEffTs c st = st.ts := by
  unfold fieldsEffTs
  cases hai : st.Ainv with
  | some d => rfl
  | none => rw [hai] at h; cases h

/-- C4 (amended): with `forward_only=False`, two consecutive `fields(m)`
calls with an identical model produce bit-identical output — but the second
call does not reuse the persistent factorizations: every `fields` call
unconditionally invalidates the `Ainv`/`ATinv` dictionaries and refactors
the direct operator once per distinct step length, so the second call
rebuilds (the persistent cache only serves the sensitivity engines between
`fields` calls, and the model setter itself clears only the DC factorization
and the PDE-coefficient caches). -/
theorem claim_C4_amended_identical_model {nU nSrc nW : ℕ} (c : FCtx nU nSrc)
    (st0 : SimSt nU nW) (out1 out2 : FOut nU nSrc nW)
    (hfo : c.forward_only = false)
    (h1 : fieldsRun c st0 = some out1) (h2 : fieldsRun c out1.st = some out2) :
    out2.u = out1.u
    ∧ countFactor out2.log = (npUnique out1.st.ts).length
    ∧ (out1.st.ts ≠ [] → 0 < countFactor out2.log) := by
  obtain ⟨o1, g1, g1u, g1ts, g1ai, _, _, _, _, _⟩ := fieldsRun_false_spec c st0 hfo
  rw [h1] at g1
  injection g1 with g1
  subst g1
  obtain ⟨o2, g2, g2u, g2ts, _, _, g2cf, _, _, _⟩ :=
    fieldsRun_false_spec c out1.st hfo
  rw [h2] at g2
  injection g2 with g2
  subst g2
  have heff : fieldsEffTs c out1.st = out1.st.ts := fieldsEffTs_of_isSome c _ g1ai
  refine ⟨?_, ?_, ?_⟩
  · rw [g2u, g1u, heff, g1ts]
  · rw [g2cf, heff]
  · intro hne
    rw [g2cf, heff]
    obtain ⟨x, hx⟩ := List.exists_mem_of_ne_nil out1.st.ts hne
    have : x ∈ npUnique out1.st.ts := (mem_npUnique _ x).mpr hx
    have := List.length_pos.mpr (List.ne_nil_of_mem this)
    omega

/-- The demonstration `fields` context with persistent factorizations
(`forward_only = false`). -/
def cFF : FCtx 1 1 :=
  { dt_threshold := 1
    forward_only := false
    AdiagOf := fun dt => dt • (1 : Mat 1 1)
    AsubOf := fun _ => 0
    RHS := fun _ => Matrix.of fun _ _ => 1
    initF := 0 }

/-- Fresh persistent state with a single unit step. -/
def stFF : SimSt 1 1 := ⟨[1], none, none, none, 0⟩

theorem npUnique_one : npUnique [(1 : ℚ)] = [1] := by
  have h1 : List.dedup [(1 : ℚ)] = [1] := by simp
  unfold npUnique
  rw [h1]
  exact List.perm_singleton.mp (List.mergeSort_perm [1] _)

theorem effTs_cFF : fieldsEffTs cFF stFF = [1] := by
  show roundTs (1 : ℚ) [1] = [1]
  norm_num [roundTs, roundHalfEven, Int.floor_one]

/-- Witness for the amended C4: two consecutive calls on the concrete
context, with the second rebuilding exactly one factorization. -/
theorem claim_C4_amended_identical_model_witness :
    ∃ out1 out2 : FOut 1 1 1, fieldsRun cFF stFF = some out1
      ∧ fieldsRun cFF out1.st = some out2
      ∧ (out2.u = out1.u
        ∧ countFactor out2.log = (npUnique out1.st.ts).length
        ∧ (out1.st.ts ≠ [] → 0 < countFactor out2.log)) := by
  obtain ⟨out1, h1, _⟩ := fieldsRun_false_spec cFF stFF rfl
  obtain ⟨out2, h2, _⟩ := fieldsRun_false_spec cFF out1.st rfl
  exact ⟨out1, out2, h1, h2,
    claim_C4_amended_identical_model cFF stFF out1 out2 rfl h1 h2⟩

/-- Counterexample to C4 as stated: on the concrete context the second
`fields` call performs a (fresh) factorization — `countFactor = 1 ≠ 0` —
instead of reusing the persistent factorization built by the first call. -/
theorem claim_C4_counterexample :
    ∃ out1 out2 : FOut 1 1 1, fieldsRun cFF stFF = some out1
      ∧ fieldsRun cFF out1.st = some out2
      ∧ countFactor out2.log = 1 ∧ (1 : ℕ) ≠ 0 := by
  obtain ⟨out1, h1, _, hts1, hai1, _⟩ := fieldsRun_false_spec cFF stFF rfl
  obtain ⟨out2, h2, _, _, _, _, hcf2, _⟩ := fieldsRun_false_spec cFF out1.st rfl
  refine ⟨out1, out2, h1, h2, ?_, by omega⟩
  rw [hcf2, fieldsEffTs_of_isSome cFF _ hai1, hts1, effTs_cFF, npUnique_one]
  rfl

/-- C6 (amended): with `forward_only=False`, every invocation of `fields(m)`
(in particular the first one after a model change) invalidates the cached
factorizations for both the direct operator (`Ainv`) and its transpose
(`ATinv`), then eagerly rebuilds the direct-operator factorization exactly
once per distinct `dt` value after rounding through `dt_threshold`; the
transpose factorizations are not rebuilt by `fields` — they are left
invalidated (`None`), to be rebuilt lazily by the next `Jtvec`. -/
theorem claim_C6_amended_model_change_rebuild {nU nSrc nW : ℕ}
    (c : FCtx nU nSrc) (st0 : SimSt nU nW) (out : FOut nU nSrc nW)
    (hfo : c.forward_only = false) (h : fieldsRun c st0 = some out) :
    countFactor out.log = (npUnique (fieldsEffTs c st0)).length
    ∧ (∀ k ∈ npUnique (fieldsEffTs c st0), countFactorAt out.log k = 1)
    ∧ countFactorT out.log = 0
    ∧ (∃ at1, out.st.ATinv = some at1 ∧ ∀ kv ∈ at1, kv.2 = none) := by
  obtain ⟨o, g, _, _, _, gat, gcf, gat1, gct, _⟩ := fieldsRun_false_spec c st0 hfo
  rw [h] at g
  injection g with g
  subst g
  exact ⟨gcf, gat1, gct, gat⟩

/-- Witness for the amended C6 on the concrete context. -/
theorem claim_C6_amended_model_change_rebuild_witness :
    ∃ out : FOut 1 1 1, fieldsRun cFF stFF = some out
      ∧ (countFactor out.log = (npUnique (fieldsEffTs cFF stFF)).length
        ∧ (∀ k ∈ npUnique (fieldsEffTs cFF stFF), countFactorAt out.log k = 1)
        ∧ countFactorT out.log = 0
        ∧ (∃ at1, out.st.ATinv = some at1 ∧ ∀ kv ∈ at1, kv.2 = none)) := by
  obtain ⟨out, h, _⟩ := fieldsRun_false_spec cFF stFF rfl
  exact ⟨out, h, claim_C6_amended_model_change_rebuild cFF stFF out rfl h⟩

/-- Counterexample to C6 as stated: on the concrete context (one unit time
step, fresh state, `forward_only=False`) `fields` performs one
direct-operator factorization but zero transpose factorizations, and leaves
every `ATinv` entry `None` — the transpose factorizations are invalidated
but not rebuilt by `fields`. -/
theorem claim_C6_counterexample :
    ∃ (out : FOut 1 1 1) (at1 : FactDict 1),
      fieldsRun cFF stFF = some out
      ∧ countFactor out.log = 1
      ∧ countFactorT out.log = 0
      ∧ out.st.ATinv = some at1 ∧ (∀ kv ∈ at1, kv.2 = none) := by
  obtain ⟨out, h, _, _, _, ⟨at1, hat, hall⟩, gcf, _, gct, _⟩ :=
    fieldsRun_false_spec cFF stFF rfl
  refine ⟨out, at1, h, ?_, gct, hat, hall⟩
  rw [gcf, effTs_cFF, npUnique_one]
  rfl

theorem fieldsRun_true_spec {nU nSrc nW : ℕ} (c : FCtx nU nSrc)
    (st0 : SimSt nU nW) (hfo : c.forward_only = true) (hne : st0.ts ≠ []) :
    ∃ out, fieldsRun c st0 = some out
      ∧ out.u = (List.range (st0.ts.length + 1)).map (fieldsUVal c st0.ts)
      ∧ out.st.ts = st0.ts := by
  obtain ⟨ts0, ai, ati, adc, nid⟩ := st0
  obtain ⟨s2, hloop, h2us, h2some, _, _⟩ :=
    fieldsLoop_spec c ts0 [] (Or.inl hfo) ts0.length 0
      ⟨none, [c.initF], [], nid⟩ (by omega) rfl (fun _ => rfl)
      (fun F hF => by cases hF)
  have hpos : 0 < ts0.length := List.length_pos.mpr hne
  obtain ⟨F, hF⟩ := Option.isSome_iff_exists.mp (h2some hpos)
  refine ⟨⟨s2.us, SimSt.mk ts0 ai ati adc s2.nid,
      s2.log ++ [Ev.cleanEv F.fid]⟩, ?_, h2us, rfl⟩
  unfold fieldsRun
  simp only [hfo, if_true]
  rw [List.range_eq_range', hloop]
  simp only [hF]

theorem getD_map_range {α : Type} (f : ℕ → α) (n k : ℕ) (hd : α) (h : k < n) :
    ((List.range n).map f).getD k hd = f k := by
  rw [List.getD_eq_getElem _ _ (by simpa using h)]
  simp

theorem anchorDt_eq_of_runConstant (tau : ℚ) (ts : List ℚ)
    (hrc : ∀ t, t + 1 < ts.length →
      |ts.getD (t + 1) 0 - ts.getD t 0| ≤ tau →
      ts.getD (t + 1) 0 = ts.getD t 0) :
    ∀ k, k < ts.length → anchorDt tau ts k = ts.getD k 0 := by
  intro k
  induction k with
  | zero => intro _; rfl
  | succ t ih =>
      intro h
      unfold anchorDt
      by_cases hc : tau < |ts.getD (t + 1) 0 - ts.getD t 0|
      · rw [if_pos hc]
      · rw [if_neg hc, ih (by omega)]
        exact (hrc t h (le_of_not_lt hc)).symm

/-- C2 (amended): every `fields(m)` run steps the batched system — all
sources' right-hand-side columns solved against the single per-step
factorization — and, provided each reused factorization belongs to the same
step length (consecutive step lengths within `dt_threshold` are exactly
equal) and the per-step operators are nonsingular, the returned container
satisfies `Adiag(k) · u_{k+1} = RHS(k+1) - Asubdiag(k) · u_k` for every
`k ∈ [0, nT)`; in particular a single-step run with zero source terms and
zero initial field returns the zero field at `t_1` . -/
theorem claim_C2_amended_recurrence {nU nSrc nW : ℕ} (c : FCtx nU nSrc)
    (st0 : SimSt nU nW) (out : FOut nU nSrc nW)
    (h : fieldsRun c st0 = some out)
    (hrc : ∀ t, t + 1 < out.st.ts.length →
      |out.st.ts.getD (t + 1) 0 - out.st.ts.getD t 0| ≤ c.dt_threshold →
      out.st.ts.getD (t + 1) 0 = out.st.ts.getD t 0)
    (hinv : ∀ dt ∈ out.st.ts, IsUnit (c.AdiagOf dt).det) :
    out.u.length = out.st.ts.length + 1
    ∧ out.u.getD 0 0 = c.initF
    ∧ (∀ k, k < out.st.ts.length →
        c.AdiagOf (out.st.ts.getD k 0) * out.u.getD (k + 1) 0
          = c.RHS (k + 1) - c.AsubOf (out.st.ts.getD k 0) * out.u.getD k 0)
    ∧ ((out.st.ts.length = 1 ∧ c.RHS 1 = 0 ∧ c.initF = 0) →
        out.u.getD 1 0 = 0) := by
  have hu : out.u = (List.range (out.st.ts.length + 1)).map
      (fieldsUVal c out.st.ts) := by
    cases hfo : c.forward_only with
    | true =>
        have hne : st0.ts ≠ [] := by
          intro hnil
          obtain ⟨ts0, ai, ati, adc, nid⟩ := st0
          simp only at hnil
          subst hnil
          rw [fieldsRun, hfo] at h
          simp only [if_true] at h
          cases h
        obtain ⟨o, g, gu, gts⟩ := fieldsRun_true_spec c st0 hfo hne
        rw [h] at g
        injection g with g
        subst g
        rw [gu, gts]
    | false =>
        obtain ⟨o, g, gu, gts, _⟩ := fieldsRun_false_spec c st0 hfo
        rw [h] at g
        injection g with g
        subst g
        rw [gu, gts]
  have hanc := anchorDt_eq_of_runConstant c.dt_threshold out.st.ts hrc
  refine ⟨?_, ?_, ?_, ?_⟩
  · rw [hu]; simp
  · rw [hu, getD_map_range _ _ _ _ (by omega)]
    rfl
  · intro k hk
    rw [hu, getD_map_range _ _ _ _ (by omega), getD_map_range _ _ _ _ (by omega)]
    show c.AdiagOf (out.st.ts.getD k 0) *
        (minv (c.AdiagOf (anchorDt c.dt_threshold out.st.ts k)) *
          (c.RHS (k + 1) - c.AsubOf (out.st.ts.getD k 0) * fieldsUVal c out.st.ts k))
      = _
    rw [hanc k hk, minv_eq_inv, ← Matrix.mul_assoc,
      Matrix.mul_nonsing_inv _ (hinv _ (ts_getD_mem _ k hk)), Matrix.one_mul]
  · rintro ⟨hlen, hrhs, hinit⟩
    rw [hu, getD_map_range _ _ _ _ (by omega)]
    show minv (c.AdiagOf (anchorDt c.dt_threshold out.st.ts 0)) *
        (c.RHS 1 - c.AsubOf (out.st.ts.getD 0 0) * fieldsUVal c out.st.ts 0) = 0
    rw [hrhs]
    show minv _ * (0 - _ * c.initF) = 0
    rw [hinit, Matrix.mul_zero, sub_zero, Matrix.mul_zero]

theorem minv_one {n : ℕ} : minv (1 : Mat n n) = 1 := by
  rw [minv, Matrix.det_one, Matrix.adjugate_one, inv_one, one_smul]

/-- Witness for the amended C2 on the concrete single-step context. -/
theorem claim_C2_amended_recurrence_witness :
    ∃ out : FOut 1 1 1, fieldsRun cFDemo stDemo = some out
      ∧ (out.u.length = out.st.ts.length + 1
        ∧ out.u.getD 0 0 = cFDemo.initF
        ∧ (∀ k, k < out.st.ts.length →
            cFDemo.AdiagOf (out.st.ts.getD k 0) * out.u.getD (k + 1) 0
              = cFDemo.RHS (k + 1)
                - cFDemo.AsubOf (out.st.ts.getD k 0) * out.u.getD k 0)
        ∧ ((out.st.ts.length = 1 ∧ cFDemo.RHS 1 = 0 ∧ cFDemo.initF = 0) →
            out.u.getD 1 0 = 0)) := by
  obtain ⟨out, h, hu, hts⟩ :=
    fieldsRun_true_spec cFDemo stDemo rfl (by simp [stDemo])
  refine ⟨out, h, claim_C2_amended_recurrence cFDemo stDemo out h ?_ ?_⟩
  · rw [hts]
    intro t ht
    simp [stDemo] at ht
  · rw [hts]
    intro dt hdt
    simp only [stDemo, List.mem_singleton] at hdt
    subst hdt
    show IsUnit ((1 : ℚ) • (1 : Mat 1 1)).det
    rw [one_smul, Matrix.det_one]
    exact isUnit_one

theorem anchor_demo32_one : anchorDt 1 [1, 3 / 2] 1 = 1 := by
  have hg1 : [1, (3 : ℚ) / 2].getD 1 0 = 3 / 2 := rfl
  have hg0 : [1, (3 : ℚ) / 2].getD 0 0 = 1 := rfl
  have hne : ¬ (1 : ℚ) < |[1, (3 : ℚ) / 2].getD 1 0 - [1, (3 : ℚ) / 2].getD 0 0| := by
    rw [hg1, hg0, show ((3 : ℚ) / 2 - 1) = 1 / 2 by norm_num,
      abs_of_nonneg (by norm_num)]
    norm_num
  unfold anchorDt
  rw [if_neg hne]
  rfl

/-- Counterexample to C2 as stated: with `time_steps = [1, 3/2]` and
`dt_threshold = 1` the second step of `fields` reuses the factorization of
`Adiag(0)` (the step lengths agree within the threshold), so the returned
field at `t_2` does not satisfy `Adiag(1) · u_2 = RHS(2) - Asubdiag(1) · u_1`. -/
theorem claim_C2_counterexample :
    ∃ out : FOut 1 1 1, fieldsRun cFDemo stDemo32 = some out
      ∧ cFDemo.AdiagOf (out.st.ts.getD 1 0) * out.u.getD 2 0
          ≠ cFDemo.RHS 2 - cFDemo.AsubOf (out.st.ts.getD 1 0) * out.u.getD 1 0 := by
  obtain ⟨out, h, hu, hts⟩ :=
    fieldsRun_true_spec cFDemo stDemo32 rfl (by simp [stDemo32])
  have hts2 : out.st.ts = [1, 3 / 2] := hts
  have hlen : stDemo32.ts.length = 2 := rfl
  have e1 : fieldsUVal cFDemo [1, 3 / 2] 1 = cFDemo.RHS 1 := by
    show minv (cFDemo.AdiagOf (anchorDt 1 [1, 3 / 2] 0)) *
        (cFDemo.RHS 1 - cFDemo.AsubOf ([1, (3 : ℚ) / 2].getD 0 0) *
          fieldsUVal cFDemo [1, 3 / 2] 0) = cFDemo.RHS 1
    show minv ((1 : ℚ) • (1 : Mat 1 1)) *
        (cFDemo.RHS 1 - 0 * fieldsUVal cFDemo [1, 3 / 2] 0) = cFDemo.RHS 1
    rw [one_smul, minv_one, Matrix.zero_mul, sub_zero, Matrix.one_mul]
  have e2 : fieldsUVal cFDemo [1, 3 / 2] 2 = cFDemo.RHS 2 := by
    show minv (cFDemo.AdiagOf (anchorDt 1 [1, 3 / 2] 1)) *
        (cFDemo.RHS 2 - cFDemo.AsubOf ([1, (3 : ℚ) / 2].getD 1 0) *
          fieldsUVal cFDemo [1, 3 / 2] 1) = cFDemo.RHS 2
    rw [anchor_demo32_one]
    show minv ((1 : ℚ) • (1 : Mat 1 1)) *
        (cFDemo.RHS 2 - 0 * fieldsUVal cFDemo [1, 3 / 2] 1) = cFDemo.RHS 2
    rw [one_smul, minv_one, Matrix.zero_mul, sub_zero, Matrix.one_mul]
  refine ⟨out, h, ?_⟩
  rw [hts2, hu]
  simp only [stDemo32]
  rw [getD_map_range _ _ _ _ (by simp), getD_map_range _ _ _ _ (by simp)]
  rw [e1, e2]
  show cFDemo.AdiagOf ([1, (3 : ℚ) / 2].getD 1 0) * cFDemo.RHS 2
      ≠ cFDemo.RHS 2 - 0 * cFDemo.RHS 1
  rw [Matrix.zero_mul, sub_zero]
  show ((3 : ℚ) / 2) • (1 : Mat 1 1) * cFDemo.RHS 2 ≠ cFDemo.RHS 2
  intro heq
  have := congrFun (congrFun heq 0) 0
  rw [Matrix.smul_mul, Matrix.one_mul] at this
  simp only [Matrix.smul_apply, cFDemo, Matrix.of_apply, smul_eq_mul] at this
  norm_num at this

/-- Concrete collaborator matrices (all zero, no symmetrization) used by the
witnesses below. -/
def demoMats : EMMats 1 1 1 1 :=
  ⟨0, 0, 0, fun _ => 0, 0, 0, 0, 0, 0, 0, 0, false⟩

/-- Witness for C8 at concrete inputs: fresh DC states, the zero collaborator
matrices, dimension one. -/
theorem claim_C8_Adcinv_witness :
    AdcinvGet "b" (none : Option (Mat 1 1)) (⟨none, 5⟩ : DCState 1)
      = Except.error
          "Support for galvanic sources has not been implemented for b-formulation"
    ∧ (AdcinvGet "e" (some (getAdc_e demoMats)) (⟨none, 0⟩ : DCState 1)
        = Except.ok (⟨getAdc_e demoMats, 0⟩, ⟨some ⟨getAdc_e demoMats, 0⟩, 1⟩)
      ∧ AdcinvGet "e" (some (getAdc_e demoMats)) ⟨some ⟨getAdc_e demoMats, 0⟩, 1⟩
        = Except.ok (⟨getAdc_e demoMats, 0⟩, ⟨some ⟨getAdc_e demoMats, 0⟩, 1⟩))
    ∧ (AdcinvGet "h" (some (getAdc_h demoMats)) (⟨none, 0⟩ : DCState 1)
        = Except.ok (⟨getAdc_h demoMats, 0⟩, ⟨some ⟨getAdc_h demoMats, 0⟩, 1⟩)
      ∧ AdcinvGet "j" (some (getAdc_j demoMats)) (⟨none, 0⟩ : DCState 1)
        = Except.ok (⟨getAdc_j demoMats, 0⟩, ⟨some ⟨getAdc_j demoMats, 0⟩, 1⟩)) :=
  @claim_C8_Adcinv 1 1 0 1 1 1 1 1 1 demoMats demoMats ⟨none, 0⟩ ⟨none, 0⟩
    ⟨none, 5⟩ rfl rfl

theorem jtvecCore_adcinv {nU nP nM nD nW : ℕ} (c : JCtx nU nP nM nD nW)
    (st : SimSt nU nW) (f : ℕ → ℕ → Vec nU) (d : ℕ → ℕ → Vec nD)
    (r : JTCoreOut nU nM nW) (h : jtvecCore c st f d = some r) :
    r.st.adcinv = st.adcinv := by
  unfold jtvecCore at h
  simp only [Option.bind_eq_some, Option.map_eq_some'] at h
  obtain ⟨pr, hpro, s, hloop, hr⟩ := h
  rw [← hr]

theorem jtvecBase_decomp {nU nP nM nD nW : ℕ} (c : JCtx nU nP nM nD nW)
    (st : SimSt nU nW) (f : ℕ → ℕ → Vec nU) (d : ℕ → ℕ → Vec nD)
    (out : JTOut nM nU nW) (h : jtvecBase c st f d = some out) :
    ∃ r, jtvecCore c st f d = some r ∧ out = ⟨r.JTv, r.st, r.log⟩ := by
  unfold jtvecBase at h
  cases hc : jtvecCore c st f d with
  | none => rw [hc] at h; cases h
  | some r =>
      rw [hc] at h
      injection h with h
      exact ⟨r, rfl, h.symm⟩

theorem jtvecE_decomp {nU nP nM nD nW : ℕ} (c : JCtx nU nP nM nD nW)
    (st : SimSt nU nW) (f : ℕ → ℕ → Vec nU) (d : ℕ → ℕ → Vec nD)
    (out : JTOut nM nU nW) (h : jtvecE c st f d = some out) :
    ∃ r, jtvecCore c st f d = some r ∧ jtvecGalvanicPhase c f r = some out := by
  unfold jtvecE at h
  cases hc : jtvecCore c st f d with
  | none => rw [hc] at h; cases h
  | some r => rw [hc] at h; exact ⟨r, rfl, h⟩

theorem galvFold_all_inductive {nU nP nM nD nW : ℕ} (c : JCtx nU nP nM nD nW)
    (f : ℕ → ℕ → Vec nU) (r : JTCoreOut nU nM nW) :
    ∀ (l : List (ℕ × SrcC nU nP nM nD)) lam JTv st lg,
      (∀ p ∈ l, p.2.srcType = SType.inductiveSrc) →
      l.foldl (fun acc? p => match acc? with
          | none => none
          | some acc => galvSrcStep c f r acc p) (some (lam, JTv, st, lg))
        = some (lam, JTv, st, lg) := by
  intro l
  induction l with
  | nil => intro lam JTv st lg _; rfl
  | cons p rest ih =>
      intro lam JTv st lg hall
      simp only [List.foldl_cons]
      have hp : p.2.srcType = SType.inductiveSrc := hall p (List.mem_cons_self p rest)
      have hstep : galvSrcStep c f r (lam, JTv, st, lg) p = some (lam, JTv, st, lg) := by
        simp only [galvSrcStep, hp]
      rw [hstep]
      exact ih lam JTv st lg (fun q hq => hall q (List.mem_cons_of_mem p hq))

theorem galvFold_adc_some {nU nP nM nD nW : ℕ} (c : JCtx nU nP nM nD nW)
    (f : ℕ → ℕ → Vec nU) (r : JTCoreOut nU nM nW) (A : Mat nU nU)
    (hA : r.lastAsub = some A) :
    ∀ (l : List (ℕ × SrcC nU nP nM nD)) lam JTv st lg (F : Fact nW),
      st.adcinv = some F →
      ∃ lam2 JTv2,
        l.foldl (fun acc? p => match acc? with
            | none => none
            | some acc => galvSrcStep c f r acc p) (some (lam, JTv, st, lg))
          = some (lam2, JTv2, st, lg) := by
  intro l
  induction l with
  | nil => intro lam JTv st lg F _; exact ⟨lam, JTv, rfl⟩
  | cons p rest ih =>
      intro lam JTv st lg F hF
      simp only [List.foldl_cons]
      cases hp : p.2.srcType with
      | inductiveSrc =>
          have hstep : galvSrcStep c f r (lam, JTv, st, lg) p
              = some (lam, JTv, st, lg) := by
            simp only [galvSrcStep, hp]
          rw [hstep]
          exact ih lam JTv st lg F hF
      | galvanic =>
          have hstep : ∃ lamE, galvSrcStep c f r (lam, JTv, st, lg) p
              = some (lam.set p.1 lamE,
                  JTv + (-(c.DMeSigma (f p.1 0))ᵀ.mulVec lamE
                    + (p.2.dRHS 0)ᵀ.mulVec lamE), st, lg) := by
            simp only [galvSrcStep, hp, hA, hF]
            exact ⟨_, rfl⟩
          obtain ⟨lamE, hstep⟩ := hstep
          rw [hstep]
          exact ih _ _ st lg F hF

/-- Solve one right-hand side against the (exact) factorization of `A`. -/
def solveV {n : ℕ} (A : Mat n n) (b : Vec n) : Vec n := (minv A).mulVec b

/-- The per-step sensitivity right-hand side assembled by `Jvec`
(`JRHS = dRHS_dm_v - dAsubdiag_dm_v - dA_dm_v`). -/
def JRHSVal {nU nP nM nD nW : ℕ} (c : JCtx nU nP nM nD nW)
    (f : ℕ → ℕ → Vec nU) (v : Vec nM) (i : ℕ) (src : SrcC nU nP nM nD)
    (t : ℕ) : Vec nU :=
  (src.dRHS (t + 1)).mulVec v - (c.DAsub t (f i t)).mulVec v
    - (c.DAdiag t (f i (t + 1))).mulVec v

/-- Closed form of the solution derivative `dun_dm_v[:, i]` propagated by the
forward loop of `Jvec`. -/
def duVal {nU nP nM nD nW : ℕ} (c : JCtx nU nP nM nD nW) (ts : List ℚ)
    (f : ℕ → ℕ → Vec nU) (v : Vec nM) (i : ℕ) (src : SrcC nU nP nM nD) :
    ℕ → Vec nU
  | 0 => src.G.mulVec v
  | t + 1 =>
      solveV (c.AdiagOf (ts.getD t 0))
        (JRHSVal c f v i src t
          - (c.AsubOf (ts.getD t 0)).mulVec (duVal c ts f v i src t))

/-- Closed form of the entry of `df_dm_v` at time node `t`: written by the
loop for `t < nT` (with the one-step lag), left at its initial zero for the
final node `t = nT`. -/
def dfVal {nU nP nM nD nW : ℕ} (c : JCtx nU nP nM nD nW) (ts : List ℚ)
    (f : ℕ → ℕ → Vec nU) (v : Vec nM) (i : ℕ) (src : SrcC nU nP nM nD)
    (rx : RxC nU nP nM nD) (t : ℕ) : Vec nP :=
  if t < ts.length then
    (rx.Fu t).mulVec (duVal c ts f v i src t) + (rx.Fm t).mulVec v
  else 0

/-- Closed form of one receiver's `Jvec` output. -/
def dataVal {nU nP nM nD nW : ℕ} (c : JCtx nU nP nM nD nW) (ts : List ℚ)
    (f : ℕ → ℕ → Vec nU) (v : Vec nM) (i : ℕ) (src : SrcC nU nP nM nD)
    (rx : RxC nU nP nM nD) : Vec nD :=
  ∑ t ∈ Finset.range (ts.length + 1),
    (rx.P t).mulVec (dfVal c ts f v i src rx t)

/-- Closed form of the full `Jvec` output. -/
def jvecVal {nU nP nM nD nW : ℕ} (c : JCtx nU nP nM nD nW) (ts : List ℚ)
    (f : ℕ → ℕ → Vec nU) (v : Vec nM) : List (List (Vec nD)) :=
  c.srcs.enum.map (fun p => p.2.rxs.map (fun rx => dataVal c ts f v p.1 p.2 rx))

/-- The partially-filled `df_dm_v` store for source `i` after `t` loop
iterations. -/
def dfListVal {nU nP nM nD nW : ℕ} (c : JCtx nU nP nM nD nW) (ts : List ℚ)
    (f : ℕ → ℕ → Vec nU) (v : Vec nM) (t : ℕ) (i : ℕ)
    (src : SrcC nU nP nM nD) : List (List (Vec nP)) :=
  src.rxs.map (fun rx =>
    (List.range (ts.length + 1)).map
      (fun u => if u < t then dfVal c ts f v i src rx u else 0))

theorem map_range_set {α : Type} (n t : ℕ) (f : ℕ → α) (x : α) (h : t < n) :
    ((List.range n).map f).set t x
      = (List.range n).map (fun u => if u = t then x else f u) := by
  apply List.ext_getElem
  · simp
  · intro i h1 h2
    simp only [List.length_set, List.length_map, List.length_range] at h1 h2
    rw [List.getElem_set]
    by_cases hit : t = i
    · subst hit
      simp
    · simp only [if_neg hit, List.getElem_map, List.getElem_range]
      rw [if_neg (fun hc => hit hc.symm)]

theorem enum_map_snd_comp {α β : Type} (l : List α) (g : α → β) :
    l.enum.map (fun p => g p.2) = l.map g := by
  have : (fun (p : ℕ × α) => g p.2) = g ∘ Prod.snd := rfl
  rw [this, ← List.map_map, List.enum_map_snd]

theorem zip_self_map {α β : Type} (l : List α) (g : α → β) :
    l.zip (l.map g) = l.map (fun a => (a, g a)) := by
  induction l with
  | nil => rfl
  | cons a l ih => simp [ih]

theorem jvecSrcUpdate_val {nU nP nM nD nW : ℕ} (c : JCtx nU nP nM nD nW)
    (ts : List ℚ) (f : ℕ → ℕ → Vec nU) (v : Vec nM) (F : Fact nU)
    (Asub : Mat nU nU) (t i : ℕ) (src : SrcC nU nP nM nD)
    (hF : F.mat = c.AdiagOf (ts.getD t 0))
    (hAsub : Asub = c.AsubOf (ts.getD t 0)) (ht : t < ts.length) :
    jvecSrcUpdate c ts f v F Asub t i src (duVal c ts f v i src t)
        (dfListVal c ts f v t i src)
      = (duVal c ts f v i src (t + 1), dfListVal c ts f v (t + 1) i src) := by
  have hg : t ≠ jvecGuardBound ts := by rw [jvecGuardBound_eq]; omega
  unfold jvecSrcUpdate
  simp only [if_pos hg]
  rw [Prod.mk.injEq]
  refine ⟨?_, ?_⟩
  case _ =>
    -- the stepped solution derivative
    rw [Fact.solveV, hF, hAsub]
    simp only [duVal, solveV, JRHSVal]
  case _ =>
    -- the updated store
    unfold dfListVal
    rw [zip_self_map, List.map_map]
    apply List.map_congr_left
    intro rx _
    simp only [Function.comp_apply]
    rw [map_range_set _ t _ _ (by omega)]
    apply List.map_congr_left
    intro u hu
    by_cases hut : u = t
    · subst hut
      rw [if_pos rfl, if_pos (by omega), dfVal, if_pos ht]
    · rw [if_neg hut]
      by_cases hlt : u < t
      · rw [if_pos hlt, if_pos (by omega)]
      · rw [if_neg hlt, if_neg (by omega)]

/-- Coherence of the persistent `Ainv` dictionary with the current operator:
every step length has a cached factorization of the matching `getAdiag`
(this is what `fields(m)` establishes). -/
def ainvCoherent {nU nP nM nD nW : ℕ} (c : JCtx nU nP nM nD nW)
    (ainv : FactDict nU) (ts : List ℚ) : Prop :=
  ∀ dt ∈ ts, ∃ F : Fact nU, dictGet ainv dt = some (some F) ∧ F.mat = c.AdiagOf dt

/-- The per-source update map of one `Jvec` step, at the value level. -/
theorem jvecUpd_val {nU nP nM nD nW : ℕ} (c : JCtx nU nP nM nD nW)
    (ts : List ℚ) (f : ℕ → ℕ → Vec nU) (v : Vec nM) (F : Fact nU) (t : ℕ)
    (ht : t < ts.length) (hF : F.mat = c.AdiagOf (ts.getD t 0)) :
    (((c.srcs.zip
          ((c.srcs.enum.map (fun p => duVal c ts f v p.1 p.2 t)).zip
            (c.srcs.enum.map (fun p => dfListVal c ts f v t p.1 p.2)))).enum.map
        (fun p => jvecSrcUpdate c ts f v F (c.getAsubdiag ts t) t p.1 p.2.1
          p.2.2.1 p.2.2.2)).map Prod.fst
        = c.srcs.enum.map (fun p => duVal c ts f v p.1 p.2 (t + 1)))
    ∧ (((c.srcs.zip
          ((c.srcs.enum.map (fun p => duVal c ts f v p.1 p.2 t)).zip
            (c.srcs.enum.map (fun p => dfListVal c ts f v t p.1 p.2)))).enum.map
        (fun p => jvecSrcUpdate c ts f v F (c.getAsubdiag ts t) t p.1 p.2.1
          p.2.2.1 p.2.2.2)).map Prod.snd
        = c.srcs.enum.map (fun p => dfListVal c ts f v (t + 1) p.1 p.2)) := by
  constructor <;>
  · apply List.ext_getElem
    · simp
    · intro i h1 h2
      simp only [List.getElem_map, List.getElem_enum, List.getElem_zip]
      rw [jvecSrcUpdate_val c ts f v F (c.getAsubdiag ts t) t i _ hF (by rw [JCtx.getAsubdiag]) ht]

/-- One `Jvec` step, at the value level: entering step `t` with the closed-form
derivative state and a coherent in-flight factorization, the step succeeds and
produces the closed-form state at `t + 1`, leaving in flight a factorization
of the step-`t` operator. -/
theorem jvecStep_val {nU nP nM nD nW : ℕ} (c : JCtx nU nP nM nD nW)
    (ts : List ℚ) (ainv : FactDict nU) (f : ℕ → ℕ → Vec nU) (v : Vec nM)
    (t : ℕ) (ht : t < ts.length) (s : JLoopSt nU nP)
    (hdu : s.du = c.srcs.enum.map (fun p => duVal c ts f v p.1 p.2 t))
    (hdf : s.dfS = c.srcs.enum.map (fun p => dfListVal c ts f v t p.1 p.2))
    (hin : ∀ F, s.inflight = some F →
      F.mat = c.AdiagOf (ts.getD (t - 1) 0) ∧ 0 < t)
    (hco : c.forward_only = true ∨ ainvCoherent c ainv ts) :
    ∃ s2, jvecStep c ts ainv f v t s = some s2 ∧
      s2.du = c.srcs.enum.map (fun p => duVal c ts f v p.1 p.2 (t + 1)) ∧
      s2.dfS = c.srcs.enum.map (fun p => dfListVal c ts f v (t + 1) p.1 p.2) ∧
      ∃ F, s2.inflight = some F ∧ F.mat = c.AdiagOf (ts.getD t 0) := by
  have hget : c.forward_only = false →
      ∃ F : Fact nU, dictGet ainv (ts.getD t 0) = some (some F)
        ∧ F.mat = c.AdiagOf (ts.getD t 0) := by
    intro hfo
    rcases hco with hco | hco
    · rw [hfo] at hco; exact absurd hco (by simp)
    · exact hco _ (ts_getD_mem ts t ht)
  have hupd : ∀ F : Fact nU, F.mat = c.AdiagOf (ts.getD t 0) →
      ∀ s2 : JLoopSt nU nP, s2.du = s.du → s2.dfS = s.dfS →
      ((((c.srcs.zip (s2.du.zip s2.dfS)).enum.map
          (fun p => jvecSrcUpdate c ts f v F (c.getAsubdiag ts t) t p.1 p.2.1
            p.2.2.1 p.2.2.2)).map Prod.fst
          = c.srcs.enum.map (fun p => duVal c ts f v p.1 p.2 (t + 1)))
      ∧ (((c.srcs.zip (s2.du.zip s2.dfS)).enum.map
          (fun p => jvecSrcUpdate c ts f v F (c.getAsubdiag ts t) t p.1 p.2.1
            p.2.2.1 p.2.2.2)).map Prod.snd
          = c.srcs.enum.map (fun p => dfListVal c ts f v (t + 1) p.1 p.2))) := by
    intro F hF s2 h1 h2
    rw [h1, h2, hdu, hdf]
    exact jvecUpd_val c ts f v F t ht hF
  cases hins : s.inflight with
  | none =>
      cases hfo : c.forward_only with
      | true =>
          obtain ⟨e1, e2⟩ := hupd ⟨c.getAdiag ts t, s.nid⟩ (by rw [JCtx.getAdiag])
            s rfl rfl
          simp only [jvecStep, hins, hfo, if_true]
          exact ⟨_, rfl, e1, e2, _, rfl, by rw [JCtx.getAdiag]⟩
      | false =>
          obtain ⟨F, hF1, hF2⟩ := hget hfo
          obtain ⟨e1, e2⟩ := hupd F hF2 { s with inflight := some F } rfl rfl
          simp only [jvecStep, hins, hfo, Bool.false_eq_true, if_false, hF1]
          exact ⟨_, rfl, e1, e2, F, rfl, hF2⟩
  | some F0 =>
      obtain ⟨hFmat, htpos⟩ := hin F0 hins
      by_cases hrc : jvecRefactorCond ts t
      · cases hfo : c.forward_only with
        | true =>
            obtain ⟨e1, e2⟩ := hupd ⟨c.getAdiag ts t, s.nid⟩
              (by rw [JCtx.getAdiag])
              { s with inflight := none,
                       log := s.log ++ [Ev.cleanEv F0.fid] } rfl rfl
            simp only [jvecStep, hins, hfo, if_pos hrc, if_true]
            exact ⟨_, rfl, e1, e2, _, rfl, by rw [JCtx.getAdiag]⟩
        | false =>
            obtain ⟨F, hF1, hF2⟩ := hget hfo
            obtain ⟨e1, e2⟩ := hupd F hF2
              { s with inflight := some F, log := s.log ++ [] } rfl rfl
            simp only [jvecStep, hins, hfo, Bool.false_eq_true, if_pos hrc,
              if_false, hF1]
            exact ⟨_, rfl, e1, e2, F, rfl, hF2⟩
      · have hdteq : ts.getD t 0 = ts.getD (t - 1) 0 := by
          by_contra hne
          exact hrc ⟨htpos, hne⟩
        have hFcur : F0.mat = c.AdiagOf (ts.getD t 0) := by
          rw [hFmat, hdteq]
        obtain ⟨e1, e2⟩ := hupd F0 hFcur s rfl rfl
        simp only [jvecStep, hins, if_neg hrc]
        exact ⟨_, rfl, e1, e2, F0, rfl, hFcur⟩

/-- The forward loop of `Jvec`, at the value level: over the pending indices
`t0, …, t0+len-1` the loop succeeds and carries the closed-form derivative
state from `t0` to `t0 + len`. -/
theorem jvecLoop_val {nU nP nM nD nW : ℕ} (c : JCtx nU nP nM nD nW)
    (ts : List ℚ) (ainv : FactDict nU) (f : ℕ → ℕ → Vec nU) (v : Vec nM)
    (hco : c.forward_only = true ∨ ainvCoherent c ainv ts) :
    ∀ (len t0 : ℕ) (s : JLoopSt nU nP), t0 + len ≤ ts.length →
    s.du = c.srcs.enum.map (fun p => duVal c ts f v p.1 p.2 t0) →
    s.dfS = c.srcs.enum.map (fun p => dfListVal c ts f v t0 p.1 p.2) →
    (∀ F, s.inflight = some F →
      F.mat = c.AdiagOf (ts.getD (t0 - 1) 0) ∧ 0 < t0) →
    ∃ s2, jvecLoop c ts ainv f v (List.range' t0 len) s = some s2 ∧
      s2.du = c.srcs.enum.map (fun p => duVal c ts f v p.1 p.2 (t0 + len)) ∧
      s2.dfS = c.srcs.enum.map
        (fun p => dfListVal c ts f v (t0 + len) p.1 p.2) ∧
      ((len = 0 ∧ s2 = s) ∨ ∃ F, s2.inflight = some F
        ∧ F.mat = c.AdiagOf (ts.getD (t0 + len - 1) 0)) := by
  intro len
  induction len with
  | zero =>
      intro t0 s _ hdu hdf _
      exact ⟨s, rfl, by simpa using hdu, by simpa using hdf, Or.inl ⟨rfl, rfl⟩⟩
  | succ len ih =>
      intro t0 s hlen hdu hdf hin
      have ht0 : t0 < ts.length := by omega
      obtain ⟨s1, hs1, hdu1, hdf1, F1, hinF1, hF1mat⟩ :=
        jvecStep_val c ts ainv f v t0 ht0 s hdu hdf hin hco
      have hin1 : ∀ F, s1.inflight = some F →
          F.mat = c.AdiagOf (ts.getD (t0 + 1 - 1) 0) ∧ 0 < t0 + 1 := by
        intro F hF
        rw [hinF1] at hF
        cases hF
        exact ⟨by simpa using hF1mat, by omega⟩
      obtain ⟨s2, hs2, hdu2, hdf2, hdisj⟩ :=
        ih (t0 + 1) s1 (by omega) hdu1 hdf1 hin1
      rw [List.range'_succ]
      refine ⟨s2, ?_, by rw [hdu2]; ring_nf, by rw [hdf2]; ring_nf, ?_⟩
      · rw [jvecLoop, hs1]
        exact hs2
      · right
        rcases hdisj with ⟨hl0, hs2s1⟩ | ⟨F, hF, hFmat⟩
        · subst hl0
          exact ⟨F1, by rw [hs2s1, hinF1], by simpa using hF1mat⟩
        · have harith : t0 + 1 + len - 1 = t0 + (len + 1) - 1 := by omega
          exact ⟨F, hF, by rw [hFmat, harith]⟩

/-- The epilogue projection of `Jvec` applied to the filled store gives the
closed-form data of one source. -/
theorem jvecData_val {nU nP nM nD nW : ℕ} (c : JCtx nU nP nM nD nW)
    (ts : List ℚ) (f : ℕ → ℕ → Vec nU) (v : Vec nM) (i : ℕ)
    (src : SrcC nU nP nM nD) :
    (src.rxs.zip (dfListVal c ts f v ts.length i src)).map
      (fun rl => ∑ t ∈ Finset.range (ts.length + 1),
        (rl.1.P t).mulVec (rl.2.getD t 0))
      = src.rxs.map (fun rx => dataVal c ts f v i src rx) := by
  unfold dfListVal
  rw [zip_self_map, List.map_map]
  apply List.map_congr_left
  intro rx _
  simp only [Function.comp_apply]
  unfold dataVal
  apply Finset.sum_congr rfl
  intro t htmem
  have ht : t < ts.length + 1 := Finset.mem_range.mp htmem
  rw [List.getD_eq_getElem _ _ (by simp [ht])]
  simp only [List.getElem_map, List.getElem_range]
  by_cases hlt : t < ts.length
  · rw [if_pos hlt]
  · rw [if_neg hlt, dfVal, if_neg hlt]

/-- `Jvec`, at the value level: with at least one time step and either
`forward_only` factorization or a coherent persistent `Ainv` cache, the run
succeeds and its data is the closed-form sensitivity `jvecVal` — the solution
of the forward-difference recurrence projected through the receivers. -/
theorem jvecRun_val {nU nP nM nD nW : ℕ} (c : JCtx nU nP nM nD nW)
    (st : SimSt nU nW) (f : ℕ → ℕ → Vec nU) (v : Vec nM)
    (hne : st.ts ≠ [])
    (hco : c.forward_only = true
      ∨ ainvCoherent c (st.Ainv.getD []) st.ts) :
    ∃ out : JvOut nD, jvecRun c st f v = some out
      ∧ out.data = jvecVal c st.ts f v := by
  have hdu0 : (c.srcs.map (fun src => src.G.mulVec v))
      = c.srcs.enum.map (fun p => duVal c st.ts f v p.1 p.2 0) := by
    apply List.ext_getElem
    · simp
    · intro i h1 h2
      simp [duVal]
  have hdf0 : (c.srcs.map (fun src => src.rxs.map
        (fun _ => List.replicate (st.ts.length + 1) (0 : Vec nP))))
      = c.srcs.enum.map (fun p => dfListVal c st.ts f v 0 p.1 p.2) := by
    apply List.ext_getElem
    · simp
    · intro i h1 h2
      simp only [List.getElem_map, List.getElem_enum]
      unfold dfListVal
      apply List.map_congr_left
      intro rx _
      apply List.ext_getElem
      · simp
      · intro j hj1 hj2
        simp
  obtain ⟨s2, hloop, hdu2, hdf2, hdisj⟩ :=
    jvecLoop_val c st.ts (st.Ainv.getD []) f v hco st.ts.length 0
      ⟨none, c.srcs.map (fun src => src.G.mulVec v),
        c.srcs.map (fun src => src.rxs.map
          (fun _ => List.replicate (st.ts.length + 1) (0 : Vec nP))),
        [], st.nextId⟩
      (by omega) hdu0 hdf0 (by intro F hF; exact absurd hF (by simp))
  simp only [Nat.zero_add] at hdu2 hdf2 hdisj
  have hlen0 : st.ts.length ≠ 0 := fun h => hne (List.length_eq_zero.mp h)
  have hinf : ∃ F, s2.inflight = some F := by
    rcases hdisj with ⟨h0, _⟩ | ⟨F, hF, _⟩
    · exact absurd h0 hlen0
    · exact ⟨F, hF⟩
  obtain ⟨F, hF⟩ := hinf
  have hdata : (c.srcs.zip s2.dfS).map
      (fun sd => (sd.1.rxs.zip sd.2).map
        (fun rl => ∑ t ∈ Finset.range (st.ts.length + 1),
          (rl.1.P t).mulVec (rl.2.getD t 0)))
      = jvecVal c st.ts f v := by
    rw [hdf2]
    unfold jvecVal
    apply List.ext_getElem
    · simp
    · intro i h1 h2
      simp only [List.getElem_map, List.getElem_zip, List.getElem_enum]
      have hi : i < c.srcs.length := by simpa [jvecVal] using h2
      simpa using jvecData_val c st.ts f v i c.srcs[i]
  cases hfo : c.forward_only with
  | true =>
      refine ⟨⟨jvecVal c st.ts f v, s2.log ++ [Ev.cleanEv F.fid]⟩, ?_, rfl⟩
      simp only [jvecRun, List.range_eq_range', hloop, hfo, if_true, hF,
        hdata]
  | false =>
      refine ⟨⟨jvecVal c st.ts f v, s2.log⟩, ?_, rfl⟩
      simp only [jvecRun, List.range_eq_range', hloop, hfo,
        Bool.false_eq_true, if_false, hdata]

/-- Adjoint receiver back-projection at time node `t` for source `i`:
the accumulated `Fuᵀ (Pᵀ d)` over the source's receivers. -/
def qVal {nU nP nM nD : ℕ} (d : ℕ → ℕ → Vec nD) (i : ℕ)
    (src : SrcC nU nP nM nD) (t : ℕ) : Vec nU :=
  (src.rxs.enum.map
    (fun p => (p.2.Fu t)ᵀ.mulVec ((p.2.P t)ᵀ.mulVec (d i p.1)))).sum

/-- Direct model contribution of the back-projection at time node `t` for
source `i`: the accumulated `Fmᵀ (Pᵀ d)` over the source's receivers. -/
def qmVal {nU nP nM nD : ℕ} (d : ℕ → ℕ → Vec nD) (i : ℕ)
    (src : SrcC nU nP nM nD) (t : ℕ) : Vec nM :=
  (src.rxs.enum.map
    (fun p => (p.2.Fm t)ᵀ.mulVec ((p.2.P t)ᵀ.mulVec (d i p.1)))).sum

theorem getD_set_self {α : Type} (l : List α) (t : ℕ) (v x : α)
    (h : t < l.length) : (l.set t v).getD t x = v := by
  rw [List.getD_eq_getElem _ _ (by simpa using h), List.getElem_set, if_pos rfl]

theorem getD_set_ne {α : Type} (l : List α) (s t : ℕ) (v x : α)
    (h : t < l.length) (hne : s ≠ t) : (l.set s v).getD t x = l.getD t x := by
  rw [List.getD_eq_getElem _ _ (by simpa using h), List.getElem_set,
    if_neg hne, List.getD_eq_getElem _ _ h]

/-- The inner time-node fold of the back-projection phase: each node in the
window `[a, a+n)` receives its `Fuᵀ Pᵀ d` summand, and the model-space
accumulator collects the `Fmᵀ Pᵀ d` summands. -/
theorem setAddFold {nU nM : ℕ} (c0 : ℕ → Vec nU) (c1 : ℕ → Vec nM) :
    ∀ (n a : ℕ) (X : List (Vec nU)) (w : Vec nM), a + n ≤ X.length →
    ((List.range' a n).foldl
        (fun acc2 t => (acc2.1.set t (acc2.1.getD t 0 + c0 t), c1 t + acc2.2))
        (X, w))
      = ((List.range X.length).map
          (fun t => if a ≤ t ∧ t < a + n then X.getD t 0 + c0 t
            else X.getD t 0),
         w + ((List.range' a n).map c1).sum) := by
  intro n
  induction n with
  | zero =>
      intro a X w _
      simp only [List.range'_zero, List.foldl_nil, List.map_nil, List.sum_nil,
        add_zero]
      rw [Prod.mk.injEq]
      refine ⟨?_, rfl⟩
      apply List.ext_getElem
      · simp
      · intro i h1 h2
        have hi : i < X.length := by simpa using h1
        simp only [List.getElem_map, List.getElem_range]
        rw [if_neg (by omega), List.getD_eq_getElem _ _ hi]
  | succ n ih =>
      intro a X w hle
      rw [List.range'_succ, List.foldl_cons]
      have ha : a < X.length := by omega
      rw [ih (a + 1) (X.set a (X.getD a 0 + c0 a)) (c1 a + w)
        (by simp only [List.length_set]; omega)]
      rw [Prod.mk.injEq]
      constructor
      · apply List.ext_getElem
        · simp
        · intro i h1 h2
          have hi : i < X.length := by simpa using h1
          simp only [List.length_set, List.getElem_map, List.getElem_range]
          by_cases hia : i = a
          · subst hia
            rw [if_neg (by omega), if_pos (by omega), getD_set_self _ _ _ _ ha]
          · rw [getD_set_ne _ _ _ _ _ hi (fun hc => hia hc.symm)]
            by_cases hwin : a + 1 ≤ i ∧ i < a + 1 + n
            · rw [if_pos hwin, if_pos (by omega)]
            · rw [if_neg hwin, if_neg (by omega)]
      · rw [List.map_cons, List.sum_cons]
        abel

theorem sum_map_add {α : Type} {M : Type} [AddCommMonoid M] (l : List α)
    (g h : α → M) :
    (l.map (fun x => g x + h x)).sum = (l.map g).sum + (l.map h).sum := by
  induction l with
  | nil => simp
  | cons a l ih =>
      simp only [List.map_cons, List.sum_cons, ih]
      abel

theorem list_sum_comm {α β M : Type} [AddCommMonoid M] (l1 : List α)
    (l2 : List β) (g : α → β → M) :
    (l1.map (fun a => (l2.map (g a)).sum)).sum
      = (l2.map (fun b => (l1.map (fun a => g a b)).sum)).sum := by
  induction l1 with
  | nil => simp
  | cons a l ih =>
      simp only [List.map_cons, List.sum_cons, ih, ← sum_map_add]

theorem list_range_sum {M : Type} [AddCommMonoid M] (n : ℕ) (f : ℕ → M) :
    ((List.range n).map f).sum = ∑ t ∈ Finset.range n, f t := by
  induction n with
  | zero => simp
  | succ n ih =>
      rw [List.range_succ, List.map_append, List.sum_append,
        Finset.sum_range_succ, ih]
      simp

/-- The receiver fold of the back-projection phase, for a generic receiver
list and accumulator. -/
theorem phase1RxFold {nU nP nM nD : ℕ} (nT : ℕ) (d : ℕ → ℕ → Vec nD)
    (i : ℕ) :
    ∀ (l : List (ℕ × RxC nU nP nM nD)) (X : List (Vec nU)) (w : Vec nM),
      X.length = nT + 1 →
      (l.foldl
        (fun acc p =>
          (List.range (nT + 1)).foldl
            (fun acc2 t =>
              (acc2.1.set t (acc2.1.getD t 0
                  + (p.2.Fu t)ᵀ.mulVec ((p.2.P t)ᵀ.mulVec (d i p.1))),
               (p.2.Fm t)ᵀ.mulVec ((p.2.P t)ᵀ.mulVec (d i p.1)) + acc2.2))
            acc)
        (X, w))
      = ((List.range (nT + 1)).map
          (fun t => X.getD t 0 + (l.map
            (fun p => (p.2.Fu t)ᵀ.mulVec ((p.2.P t)ᵀ.mulVec (d i p.1)))).sum),
         w + (l.map (fun p => ((List.range (nT + 1)).map
            (fun t => (p.2.Fm t)ᵀ.mulVec ((p.2.P t)ᵀ.mulVec (d i p.1)))).sum)).sum)
      := by
  intro l
  induction l with
  | nil =>
      intro X w hX
      simp only [List.foldl_nil, List.map_nil, List.sum_nil, add_zero]
      rw [Prod.mk.injEq]
      refine ⟨?_, rfl⟩
      apply List.ext_getElem
      · simp [hX]
      · intro j h1 h2
        have hj : j < X.length := by simpa [hX] using h1
        simp only [List.getElem_map, List.getElem_range, add_zero]
        rw [List.getD_eq_getElem _ _ hj]
  | cons p l ih =>
      intro X w hX
      rw [List.foldl_cons, List.range_eq_range',
        setAddFold (fun t => (p.2.Fu t)ᵀ.mulVec ((p.2.P t)ᵀ.mulVec (d i p.1)))
          (fun t => (p.2.Fm t)ᵀ.mulVec ((p.2.P t)ᵀ.mulVec (d i p.1)))
          (nT + 1) 0 X w (by omega), ← List.range_eq_range']
      rw [ih _ _ (by simp [hX])]
      rw [Prod.mk.injEq]
      constructor
      · apply List.ext_getElem
        · simp
        · intro j h1 h2
          have hj : j < nT + 1 := by simpa using h1
          simp only [List.getElem_map, List.getElem_range, hX]
          rw [List.getD_eq_getElem _ _ (by simp [hX]; omega),
            List.getElem_map, List.getElem_range, if_pos ⟨by omega, by
              simpa [hX] using hj⟩]
          rw [List.map_cons, List.sum_cons]
          exact add_assoc _ _ _
      · simp only [List.map_cons, List.sum_cons]
        abel

/-- The back-projection phase for one source, at the value level: node `t`
holds `qVal … t` and the model accumulator gains every `qmVal … t`. -/
theorem jtvecPhase1Src_val {nU nP nM nD : ℕ} (nT : ℕ) (d : ℕ → ℕ → Vec nD)
    (i : ℕ) (src : SrcC nU nP nM nD) (JTv0 : Vec nM) :
    jtvecPhase1Src nT d i src JTv0
      = ((List.range (nT + 1)).map (qVal d i src),
         JTv0 + ∑ t ∈ Finset.range (nT + 1), qmVal d i src t) := by
  simp only [jtvecPhase1Src]
  rw [phase1RxFold nT d i src.rxs.enum (List.replicate (nT + 1) 0) JTv0
    (by simp)]
  rw [Prod.mk.injEq]
  constructor
  · apply List.map_congr_left
    intro t ht
    have htlt : t < nT + 1 := List.mem_range.mp ht
    rw [List.getD_eq_getElem _ _ (by simpa using htlt),
      List.getElem_replicate, zero_add]
    rfl
  · rw [list_sum_comm, ← list_range_sum]
    rfl

/-- The back-projection phase over all sources, at the value level. -/
theorem ph1Fold_val {nU nP nM nD : ℕ} (nT : ℕ) (d : ℕ → ℕ → Vec nD) :
    ∀ (l : List (ℕ × SrcC nU nP nM nD)) (L0 : List (List (Vec nU)))
      (w0 : Vec nM),
    (l.foldl
      (fun (acc : List (List (Vec nU)) × Vec nM) p =>
        (acc.1 ++ [(jtvecPhase1Src nT d p.1 p.2 acc.2).1],
         (jtvecPhase1Src nT d p.1 p.2 acc.2).2))
      (L0, w0))
    = (L0 ++ l.map (fun p => (List.range (nT + 1)).map (qVal d p.1 p.2)),
       w0 + (l.map
         (fun p => ∑ t ∈ Finset.range (nT + 1), qmVal d p.1 p.2 t)).sum) := by
  intro l
  induction l with
  | nil => intro L0 w0; simp
  | cons p l ih =>
      intro L0 w0
      rw [List.foldl_cons,
        show ((L0, w0).1 ++ [(jtvecPhase1Src nT d p.1 p.2 (L0, w0).2).1],
            (jtvecPhase1Src nT d p.1 p.2 (L0, w0).2).2)
          = (L0 ++ [(jtvecPhase1Src nT d p.1 p.2 w0).1],
             (jtvecPhase1Src nT d p.1 p.2 w0).2) from rfl,
        jtvecPhase1Src_val, ih]
      rw [Prod.mk.injEq]
      constructor
      · rw [List.map_cons, List.append_assoc]
        rfl
      · rw [List.map_cons, List.sum_cons]
        exact add_assoc _ _ _

/-- Placeholder source used only as the `getD` default when indexing the
source list within bounds. -/
def dummySrc {nU nP nM nD : ℕ} : SrcC nU nP nM nD :=
  ⟨[], 0, fun _ => 0, SType.inductiveSrc⟩

/-- Closed form of the adjoint solves of the backward recursion of `Jtvec`,
indexed by the number `k` of processed (reversed) time indices: after
processing steps `nT-1, …, nT-k` the per-source solve equals `lamVal … k`. -/
def lamVal {nU nP nM nD nW : ℕ} (c : JCtx nU nP nM nD nW) (ts : List ℚ)
    (q : ℕ → Vec nU) : ℕ → Vec nU
  | 0 => 0
  | 1 => solveV ((c.AdiagOf (ts.getD (ts.length - 1) 0))ᵀ) (q ts.length)
  | k + 2 =>
      solveV ((c.AdiagOf (ts.getD (ts.length - k - 2) 0))ᵀ)
        (q (ts.length - k - 1)
          - ((c.AsubOf (ts.getD (ts.length - k - 1) 0))ᵀ).mulVec
              (lamVal c ts q (k + 1)))

/-- Gradient contribution accumulated by the backward loop at step `tInd` for
source `i`. -/
def jtvecContribVal {nU nP nM nD nW : ℕ} (c : JCtx nU nP nM nD nW)
    (ts : List ℚ) (f : ℕ → ℕ → Vec nU) (q : ℕ → Vec nU) (i : ℕ)
    (src : SrcC nU nP nM nD) (tInd : ℕ) : Vec nM :=
  let lami := lamVal c ts q (ts.length - tInd);
  -((c.DAdiag tInd (f i (tInd + 1)))ᵀ.mulVec lami)
    - (c.DAsub tInd (f i tInd))ᵀ.mulVec lami
    + (src.dRHS (tInd + 1))ᵀ.mulVec lami

/-- The per-source fold of one backward `Jtvec` step, at the value level:
processing sources `j, …, N-1` advances each of their solves from
`lamVal … (nT - tInd - 1)` to `lamVal … (nT - tInd)` and accumulates each
`jtvecContribVal`. -/
theorem jtvecSrcFold_val {nU nP nM nD nW : ℕ} (c : JCtx nU nP nM nD nW)
    (ts : List ℚ) (f : ℕ → ℕ → Vec nU) (d : ℕ → ℕ → Vec nD)
    (dfduT : List (List (Vec nU)))
    (hdfduT : dfduT = c.srcs.enum.map
      (fun p => (List.range (ts.length + 1)).map (qVal d p.1 p.2)))
    (tInd : ℕ) (htInd : tInd < ts.length) (F : Fact nU)
    (hF : F.mat = (c.AdiagOf (ts.getD tInd 0))ᵀ) :
    ∀ (n j : ℕ) (s : JTLoopSt nU nM), j + n = c.srcs.length →
      (tInd < ts.length - 1
        → s.lastAsub = some (c.AsubOf (ts.getD (tInd + 1) 0))) →
      s.lam.length = c.srcs.length →
      (∀ i, i < c.srcs.length → s.lam.getD i 0 =
        if i < j then
          lamVal c ts (qVal d i (c.srcs.getD i dummySrc)) (ts.length - tInd)
        else
          lamVal c ts (qVal d i (c.srcs.getD i dummySrc))
            (ts.length - tInd - 1)) →
      ∃ s2, ((List.enumFrom j (c.srcs.drop j)).foldl
          (fun acc? p => match acc? with
            | none => none
            | some acc => jtvecSrcUpdate c ts f dfduT tInd F acc p.1 p.2)
          (some s)) = some s2
        ∧ s2.lam.length = c.srcs.length
        ∧ (∀ i, i < c.srcs.length → s2.lam.getD i 0 =
            lamVal c ts (qVal d i (c.srcs.getD i dummySrc))
              (ts.length - tInd))
        ∧ s2.JTv = s.JTv + ∑ i ∈ Finset.Ico j c.srcs.length,
            jtvecContribVal c ts f (qVal d i (c.srcs.getD i dummySrc)) i
              (c.srcs.getD i dummySrc) tInd
        ∧ s2.inflight = s.inflight ∧ s2.lastAsub = s.lastAsub
        ∧ s2.log = s.log ∧ s2.nid = s.nid := by
  intro n
  induction n with
  | zero =>
      intro j s hj hlA hlen hlam
      have hdrop : c.srcs.drop j = [] := List.drop_eq_nil_of_le (by omega)
      rw [hdrop]
      refine ⟨s, rfl, hlen, ?_, ?_, rfl, rfl, rfl, rfl⟩
      · intro i hi
        rw [hlam i hi, if_pos (by omega)]
      · have hje : c.srcs.length = j := by omega
        rw [hje, Finset.Ico_self, Finset.sum_empty, add_zero]
  | succ n ih =>
      intro j s hj hlA hlen hlam
      have hjN : j < c.srcs.length := by omega
      have hdrop : c.srcs.drop j = c.srcs[j] :: c.srcs.drop (j + 1) :=
        List.drop_eq_getElem_cons hjN
      rw [hdrop]
      have hgetD : c.srcs.getD j dummySrc = c.srcs[j] :=
        List.getD_eq_getElem _ _ hjN
      -- the value read from the adjoint field-derivative store
      have hrow : dfduT.getD j []
          = (List.range (ts.length + 1)).map (qVal d j c.srcs[j]) := by
        rw [hdfduT]
        rw [List.getD_eq_getElem _ _ (by simpa using hjN)]
        rw [List.getElem_map, List.getElem_enum]
      have hq : (dfduT.getD j []).getD (tInd + 1) 0
          = qVal d j c.srcs[j] (tInd + 1) := by
        rw [hrow]
        rw [List.getD_eq_getElem _ _ (by
          simpa using Nat.succ_lt_succ htInd)]
        rw [List.getElem_map, List.getElem_range]
      -- the stepped solve for this source
      have hupd : jtvecSrcUpdate c ts f dfduT tInd F s j c.srcs[j]
          = some { s with
              lam := s.lam.set j (lamVal c ts
                (qVal d j (c.srcs.getD j dummySrc)) (ts.length - tInd)),
              JTv := s.JTv + jtvecContribVal c ts f
                (qVal d j (c.srcs.getD j dummySrc)) j
                (c.srcs.getD j dummySrc) tInd } := by
        have hlamj : s.lam.getD j 0 = lamVal c ts
            (qVal d j (c.srcs.getD j dummySrc)) (ts.length - tInd - 1) := by
          rw [hlam j hjN, if_neg (by omega)]
        simp only [jtvecSrcUpdate]
        by_cases hcase : ts.length - 1 ≤ tInd
        · have h1 : ts.length - tInd = 1 := by omega
          have ht1 : tInd = ts.length - 1 := by omega
          have hlv : lamVal c ts (qVal d j (c.srcs.getD j dummySrc))
              (ts.length - tInd)
              = F.solveV (qVal d j c.srcs[j] (tInd + 1)) := by
            rw [hgetD, h1, lamVal, Fact.solveV, hF, solveV, ht1]
            have h2 : ts.length - 1 + 1 = ts.length := by omega
            rw [h2]
          rw [if_pos hcase, hq, ← hlv, jtvecContribVal, hgetD]
        · have hlt : tInd < ts.length - 1 := by omega
          have hk : ts.length - tInd = (ts.length - tInd - 2) + 2 := by omega
          have hlv : lamVal c ts (qVal d j (c.srcs.getD j dummySrc))
              (ts.length - tInd)
              = F.solveV (qVal d j c.srcs[j] (tInd + 1)
                  - (c.AsubOf (ts.getD (tInd + 1) 0))ᵀ.mulVec
                      (lamVal c ts (qVal d j (c.srcs.getD j dummySrc))
                        (ts.length - tInd - 1))) := by
            rw [hgetD, hk, lamVal, Fact.solveV, hF, solveV]
            have e1 : ts.length - (ts.length - tInd - 2) - 2 = tInd := by omega
            have e2 : ts.length - (ts.length - tInd - 2) - 1 = tInd + 1 := by
              omega
            have e3 : ts.length - tInd - 2 + 1 = ts.length - tInd - 1 := by
              omega
            rw [e1, e2, e3,
              show ts.length - tInd - 2 + 2 - 1 = ts.length - tInd - 1
                from by omega]
          rw [if_neg hcase]
          simp only [hlA hlt]
          rw [hq, hlamj, ← hlv, jtvecContribVal, hgetD]
      rw [show List.enumFrom j (c.srcs[j] :: c.srcs.drop (j + 1))
          = (j, c.srcs[j]) :: List.enumFrom (j + 1) (c.srcs.drop (j + 1))
        from rfl]
      rw [List.foldl_cons]
      rw [show (match (some s : Option (JTLoopSt nU nM)) with
          | none => none
          | some acc => jtvecSrcUpdate c ts f dfduT tInd F acc j c.srcs[j])
          = jtvecSrcUpdate c ts f dfduT tInd F s j c.srcs[j] from rfl]
      rw [hupd]
      obtain ⟨s2, he2, g1, g2, g3, g4, g5, g6, g7⟩ := ih (j + 1)
        { s with
          lam := s.lam.set j (lamVal c ts
            (qVal d j (c.srcs.getD j dummySrc)) (ts.length - tInd)),
          JTv := s.JTv + jtvecContribVal c ts f
            (qVal d j (c.srcs.getD j dummySrc)) j
            (c.srcs.getD j dummySrc) tInd }
        (by omega)
        (by intro h; simpa using hlA h)
        (by simpa using hlen)
        (by
          intro i hi
          by_cases hij : i = j
          · subst hij
            rw [if_pos (by omega)]
            exact getD_set_self s.lam i _ 0 (by rw [hlen]; omega)
          · rw [getD_set_ne s.lam j i _ 0 (by rw [hlen]; omega)
              (fun hc => hij hc.symm), hlam i hi]
            by_cases hilt : i < j
            · rw [if_pos hilt, if_pos (by omega)]
            · rw [if_neg hilt, if_neg (by omega)])
      refine ⟨s2, he2, g1, g2, ?_, by simpa using g4, by simpa using g5,
        by simpa using g6, by simpa using g7⟩
      rw [g3]
      simp only []
      rw [Finset.sum_eq_sum_Ico_succ_bot hjN]
      exact add_assoc _ _ _

theorem countFactorDC_append (l1 l2 : List Ev) :
    countFactorDC (l1 ++ l2) = countFactorDC l1 + countFactorDC l2 :=
  List.countP_append _ _ _

/-- Coherence of the persistent `ATinv` dictionary: every step length has a
cached factorization of the matching transposed `getAdiag`. -/
def atinvCoherent {nU nP nM nD nW : ℕ} (c : JCtx nU nP nM nD nW)
    (atinv : FactDict nU) (ts : List ℚ) : Prop :=
  ∀ dt ∈ ts, ∃ F : Fact nU, dictGet atinv dt = some (some F)
    ∧ F.mat = (c.AdiagOf dt)ᵀ

/-- One backward `Jtvec` step, at the value level. -/
theorem jtvecStep_val {nU nP nM nD nW : ℕ} (c : JCtx nU nP nM nD nW)
    (ts : List ℚ) (atinv : FactDict nU) (f : ℕ → ℕ → Vec nU)
    (d : ℕ → ℕ → Vec nD) (dfduT : List (List (Vec nU)))
    (hdfduT : dfduT = c.srcs.enum.map
      (fun p => (List.range (ts.length + 1)).map (qVal d p.1 p.2)))
    (tInd : ℕ) (htInd : tInd < ts.length) (s : JTLoopSt nU nM)
    (hco : c.forward_only = true ∨ atinvCoherent c atinv ts)
    (hin : ∀ F, s.inflight = some F →
      F.mat = (c.AdiagOf (ts.getD (tInd + 1) 0))ᵀ ∧ tInd + 1 < ts.length)
    (hlen : s.lam.length = c.srcs.length)
    (hlam : ∀ i, i < c.srcs.length → s.lam.getD i 0 =
      lamVal c ts (qVal d i (c.srcs.getD i dummySrc))
        (ts.length - tInd - 1)) :
    ∃ s2, jtvecStep c ts atinv f dfduT tInd s = some s2
      ∧ s2.lam.length = c.srcs.length
      ∧ (∀ i, i < c.srcs.length → s2.lam.getD i 0 =
          lamVal c ts (qVal d i (c.srcs.getD i dummySrc))
            (ts.length - tInd))
      ∧ s2.JTv = s.JTv + ∑ i ∈ Finset.range c.srcs.length,
          jtvecContribVal c ts f (qVal d i (c.srcs.getD i dummySrc)) i
            (c.srcs.getD i dummySrc) tInd
      ∧ (∀ F, s2.inflight = some F →
          F.mat = (c.AdiagOf (ts.getD tInd 0))ᵀ ∧ tInd < ts.length)
      ∧ countFactorDC s2.log = countFactorDC s.log
      ∧ s2.lastAsub = (if tInd < ts.length - 1 then
          some (c.AsubOf (ts.getD (tInd + 1) 0)) else s.lastAsub) := by
  have henum : c.srcs.enum = List.enumFrom 0 (c.srcs.drop 0) := by
    rw [List.drop_zero]
    rfl
  have hget : c.forward_only = false →
      ∃ F : Fact nU, dictGet atinv (ts.getD tInd 0) = some (some F)
        ∧ F.mat = (c.AdiagOf (ts.getD tInd 0))ᵀ := by
    intro hfo
    rcases hco with hco | hco
    · rw [hfo] at hco; exact absurd hco (by simp)
    · exact hco _ (ts_getD_mem ts tInd htInd)
  have hrun : ∀ (F : Fact nU) (s2 : JTLoopSt nU nM),
      F.mat = (c.AdiagOf (ts.getD tInd 0))ᵀ →
      s2.lam = s.lam → s2.JTv = s.JTv →
      countFactorDC s2.log = countFactorDC s.log → s2.lastAsub = s.lastAsub →
      ∃ sf, ((c.srcs.enum).foldl
          (fun acc? p => match acc? with
            | none => none
            | some acc => jtvecSrcUpdate c ts f dfduT tInd F acc p.1 p.2)
          (some (if tInd < ts.length - 1 then
            { s2 with lastAsub := some (c.getAsubdiag ts (tInd + 1)) }
            else s2))) = some sf
        ∧ sf.lam.length = c.srcs.length
        ∧ (∀ i, i < c.srcs.length → sf.lam.getD i 0 =
            lamVal c ts (qVal d i (c.srcs.getD i dummySrc))
              (ts.length - tInd))
        ∧ sf.JTv = s.JTv + ∑ i ∈ Finset.range c.srcs.length,
            jtvecContribVal c ts f (qVal d i (c.srcs.getD i dummySrc)) i
              (c.srcs.getD i dummySrc) tInd
        ∧ sf.inflight = s2.inflight
        ∧ countFactorDC sf.log = countFactorDC s.log
        ∧ sf.lastAsub = (if tInd < ts.length - 1 then
            some (c.AsubOf (ts.getD (tInd + 1) 0)) else s.lastAsub) := by
    intro F s2 hF hlameq hjtv hdc hlaeq
    by_cases hlt : tInd < ts.length - 1
    · rw [if_pos hlt, henum]
      obtain ⟨sf, he, g1, g2, g3, g4, g5, g6, g7⟩ :=
        jtvecSrcFold_val c ts f d dfduT hdfduT tInd htInd F hF
          c.srcs.length 0
          { s2 with lastAsub := some (c.getAsubdiag ts (tInd + 1)) }
          (by omega) (fun _ => rfl) (by simpa [hlameq] using hlen)
          (by
            intro i hi
            rw [if_neg (by omega)]
            simpa [hlameq] using hlam i hi)
      refine ⟨sf, he, g1, g2, ?_, by simpa using g4, by rw [g6]; exact hdc,
        by rw [g5, if_pos hlt]; rfl⟩
      rw [g3, Finset.range_eq_Ico]
      simpa [hjtv] using rfl
    · rw [if_neg hlt, henum]
      obtain ⟨sf, he, g1, g2, g3, g4, g5, g6, g7⟩ :=
        jtvecSrcFold_val c ts f d dfduT hdfduT tInd htInd F hF
          c.srcs.length 0 s2
          (by omega) (fun hc => absurd hc hlt) (by simpa [hlameq] using hlen)
          (by
            intro i hi
            rw [if_neg (by omega)]
            simpa [hlameq] using hlam i hi)
      refine ⟨sf, he, g1, g2, ?_, g4, by rw [g6]; exact hdc,
        by rw [g5, if_neg hlt, hlaeq]⟩
      rw [g3, Finset.range_eq_Ico, hjtv]
  cases hins : s.inflight with
  | none =>
      cases hfo : c.forward_only with
      | true =>
          obtain ⟨sf, he, g1, g2, g3, g4, g5, g6⟩ :=
            hrun ⟨(c.getAdiag ts tInd)ᵀ, s.nid⟩
              { s with inflight := some ⟨(c.getAdiag ts tInd)ᵀ, s.nid⟩,
                       log := s.log ++ [Ev.factorT (ts.getD tInd 0) s.nid],
                       nid := s.nid + 1 }
              (by rw [JCtx.getAdiag]) rfl rfl
              (by rw [countFactorDC_append]; simp [countFactorDC,
                List.countP, List.countP.go]) rfl
          simp only [jtvecStep, hins, hfo, if_true]
          exact ⟨sf, he, g1, g2, g3,
            fun F2 hF2 => ⟨by
              rw [g4] at hF2
              cases hF2
              rw [JCtx.getAdiag], htInd⟩, g5, g6⟩
      | false =>
          obtain ⟨F, hF1, hF2⟩ := hget hfo
          obtain ⟨sf, he, g1, g2, g3, g4, g5, g6⟩ :=
            hrun F { s with inflight := some F } hF2 rfl rfl rfl rfl
          simp only [jtvecStep, hins, hfo, Bool.false_eq_true, if_false, hF1]
          exact ⟨sf, he, g1, g2, g3,
            fun F2 hF2x => ⟨by
              rw [g4] at hF2x
              cases hF2x
              exact hF2, htInd⟩, g5, g6⟩
  | some F0 =>
      by_cases hrc : jtvecRefactorCond ts tInd
      · cases hfo : c.forward_only with
        | true =>
            obtain ⟨sf, he, g1, g2, g3, g4, g5, g6⟩ :=
              hrun ⟨(c.getAdiag ts tInd)ᵀ, s.nid⟩
                { s with inflight := some ⟨(c.getAdiag ts tInd)ᵀ, s.nid⟩,
                         log := (s.log ++ [Ev.cleanEv F0.fid])
                           ++ [Ev.factorT (ts.getD tInd 0) s.nid],
                         nid := s.nid + 1 }
                (by rw [JCtx.getAdiag]) rfl rfl
                (by rw [countFactorDC_append, countFactorDC_append]
                    simp [countFactorDC, List.countP, List.countP.go]) rfl
            simp only [jtvecStep, hins, hfo, if_pos hrc, if_true]
            exact ⟨sf, he, g1, g2, g3,
              fun F2 hF2 => ⟨by
                rw [g4] at hF2
                cases hF2
                rw [JCtx.getAdiag], htInd⟩, g5, g6⟩
        | false =>
            obtain ⟨F, hF1, hF2⟩ := hget hfo
            obtain ⟨sf, he, g1, g2, g3, g4, g5, g6⟩ :=
              hrun F { s with inflight := some F, log := s.log ++ [] }
                hF2 rfl rfl (by rw [countFactorDC_append]; simp [countFactorDC,
                  List.countP, List.countP.go]) rfl
            simp only [jtvecStep, hins, hfo, Bool.false_eq_true, if_pos hrc,
              if_false, hF1]
            exact ⟨sf, he, g1, g2, g3,
              fun F2 hF2x => ⟨by
                rw [g4] at hF2x
                cases hF2x
                exact hF2, htInd⟩, g5, g6⟩
      · obtain ⟨hF0mat, h1n⟩ := hin F0 hins
        have hdteq : ts.getD tInd 0 = ts.getD (tInd + 1) 0 := by
          by_contra hne
          exact hrc ⟨by omega, hne⟩
        have hF0cur : F0.mat = (c.AdiagOf (ts.getD tInd 0))ᵀ := by
          rw [hF0mat, hdteq]
        obtain ⟨sf, he, g1, g2, g3, g4, g5, g6⟩ :=
          hrun F0 s hF0cur rfl rfl rfl rfl
        simp only [jtvecStep, hins, if_neg hrc]
        rw [← hins]
        exact ⟨sf, he, g1, g2, g3,
          fun F2 hF2x => ⟨by
            rw [g4] at hF2x
            rw [hins] at hF2x
            cases hF2x
            exact hF0cur, htInd⟩, g5, g6⟩

/-- The backward loop of `Jtvec`, at the value level: the remaining reversed
indices `m-1, …, 0` are all processed, each advancing the per-source solves
one level and accumulating its gradient contributions. -/
theorem jtvecLoop_val {nU nP nM nD nW : ℕ} (c : JCtx nU nP nM nD nW)
    (ts : List ℚ) (atinv : FactDict nU) (f : ℕ → ℕ → Vec nU)
    (d : ℕ → ℕ → Vec nD) (dfduT : List (List (Vec nU)))
    (hdfduT : dfduT = c.srcs.enum.map
      (fun p => (List.range (ts.length + 1)).map (qVal d p.1 p.2)))
    (hco : c.forward_only = true ∨ atinvCoherent c atinv ts) :
    ∀ (m : ℕ) (s : JTLoopSt nU nM), m ≤ ts.length →
    (∀ F, s.inflight = some F →
      F.mat = (c.AdiagOf (ts.getD m 0))ᵀ ∧ m < ts.length) →
    s.lam.length = c.srcs.length →
    (∀ i, i < c.srcs.length → s.lam.getD i 0 =
      lamVal c ts (qVal d i (c.srcs.getD i dummySrc)) (ts.length - m)) →
    ∃ s2, jtvecLoop c ts atinv f dfduT (List.range m).reverse s = some s2
      ∧ s2.lam.length = c.srcs.length
      ∧ (∀ i, i < c.srcs.length → s2.lam.getD i 0 =
          lamVal c ts (qVal d i (c.srcs.getD i dummySrc)) ts.length)
      ∧ s2.JTv = s.JTv + ∑ t ∈ Finset.range m,
          ∑ i ∈ Finset.range c.srcs.length,
            jtvecContribVal c ts f (qVal d i (c.srcs.getD i dummySrc)) i
              (c.srcs.getD i dummySrc) t
      ∧ countFactorDC s2.log = countFactorDC s.log
      ∧ (0 < m → 1 < ts.length →
          s2.lastAsub = some (c.AsubOf (ts.getD 1 0)))
      ∧ (m = 0 → s2.lastAsub = s.lastAsub) := by
  intro m
  induction m with
  | zero =>
      intro s hm hin hlen hlam
      refine ⟨s, rfl, hlen, ?_, by simp, rfl,
        fun h => absurd h (by omega), fun _ => rfl⟩
      intro i hi
      simpa using hlam i hi
  | succ m ih =>
      intro s hm hin hlen hlam
      have hrev : (List.range (m + 1)).reverse = m :: (List.range m).reverse
          := by
        rw [List.range_succ, List.reverse_append, List.reverse_singleton]
        rfl
      rw [hrev]
      obtain ⟨s1, he1, g1, g2, g3, g4, g5, g6⟩ :=
        jtvecStep_val c ts atinv f d dfduT hdfduT m (by omega) s hco
          (by
            intro F hF
            obtain ⟨h1, h2⟩ := hin F hF
            exact ⟨h1, by omega⟩)
          hlen
          (by
            intro i hi
            have := hlam i hi
            rwa [show ts.length - (m + 1) = ts.length - m - 1 from by omega]
              at this)
      obtain ⟨s2, he2, k1, k2, k3, k4, k5, k6⟩ := ih s1 (by omega) g4 g1 g2
      refine ⟨s2, ?_, k1, k2, ?_, by rw [k4, g5], ?_,
        fun h => absurd h (by omega)⟩
      · rw [jtvecLoop, he1]
        exact he2
      · rw [k3, g3, Finset.sum_range_succ]
        abel
      · intro _ h1n
        by_cases hm0 : m = 0
        · subst hm0
          rw [k6 rfl, g6, if_pos (by omega)]
        · exact k5 (by omega) h1n

/-- The lazy `ATinv` rebuild of the `Jtvec` prologue (lines 368-375): every
visited step length gets a fresh factorization of the transposed operator;
other keys are untouched; no DC factorizations are recorded. -/
theorem jtvecRebuildFold_spec {nU nP nM nD nW : ℕ} (c : JCtx nU nP nM nD nW)
    (ts1 : List ℚ) :
    ∀ (keys : List ℚ) (d0 : FactDict nU) (lg0 : List Ev) (n0 : ℕ),
      keys.Nodup →
      ((∀ k ∈ keys, ∃ fid,
          dictGet ((keys.foldl
              (fun (acc : FactDict nU × List Ev × ℕ) dt =>
                (dictSet acc.1 dt
                  (some ⟨(c.getAdiag ts1 (ts1.indexOf dt))ᵀ, acc.2.2⟩),
                 acc.2.1 ++ [Ev.factorT dt acc.2.2], acc.2.2 + 1))
              (d0, lg0, n0)).1) k
            = some (some ⟨(c.getAdiag ts1 (ts1.indexOf k))ᵀ, fid⟩))
        ∧ (∀ k, k ∉ keys →
            dictGet ((keys.foldl
              (fun (acc : FactDict nU × List Ev × ℕ) dt =>
                (dictSet acc.1 dt
                  (some ⟨(c.getAdiag ts1 (ts1.indexOf dt))ᵀ, acc.2.2⟩),
                 acc.2.1 ++ [Ev.factorT dt acc.2.2], acc.2.2 + 1))
              (d0, lg0, n0)).1) k = dictGet d0 k)
        ∧ countFactorDC ((keys.foldl
              (fun (acc : FactDict nU × List Ev × ℕ) dt =>
                (dictSet acc.1 dt
                  (some ⟨(c.getAdiag ts1 (ts1.indexOf dt))ᵀ, acc.2.2⟩),
                 acc.2.1 ++ [Ev.factorT dt acc.2.2], acc.2.2 + 1))
              (d0, lg0, n0)).2.1)
            = countFactorDC lg0) := by
  intro keys
  induction keys with
  | nil =>
      intro d0 lg0 n0 _
      exact ⟨fun k hk => absurd hk (List.not_mem_nil k), fun k _ => rfl, rfl⟩
  | cons a rest ih =>
      intro d0 lg0 n0 hnd
      have hnd2 := hnd.of_cons
      have hna : a ∉ rest := (List.nodup_cons.mp hnd).1
      obtain ⟨g1, g2, g3⟩ :=
        ih (dictSet d0 a (some ⟨(c.getAdiag ts1 (ts1.indexOf a))ᵀ, n0⟩))
          (lg0 ++ [Ev.factorT a n0]) (n0 + 1) hnd2
      rw [List.foldl_cons]
      refine ⟨?_, ?_, ?_⟩
      · intro k hk
        rcases List.mem_cons.mp hk with hk | hk
        · subst hk
          refine ⟨n0, ?_⟩
          rw [g2 k hna, dictGet_set_self]
        · exact g1 k hk
      · intro k hk
        have hk1 : k ≠ a := fun hc => hk (hc ▸ List.mem_cons_self a rest)
        have hk2 : k ∉ rest := fun hc => hk (List.mem_cons_of_mem a hc)
        rw [g2 k hk2, dictGet_set_ne d0 k a _ (fun hc => hk1 hc.symm)]
      · rw [g3, countFactorDC_append]
        simp [countFactorDC, List.countP, List.countP.go]

/-- Closed form of the gradient computed by the shared `Jtvec` core. -/
def JTvVal {nU nP nM nD nW : ℕ} (c : JCtx nU nP nM nD nW) (ts : List ℚ)
    (f : ℕ → ℕ → Vec nU) (d : ℕ → ℕ → Vec nD) : Vec nM :=
  (c.srcs.enum.map
    (fun p => ∑ t ∈ Finset.range (ts.length + 1), qmVal d p.1 p.2 t)).sum
  + ∑ t ∈ Finset.range ts.length, ∑ i ∈ Finset.range c.srcs.length,
      jtvecContribVal c ts f (qVal d i (c.srcs.getD i dummySrc)) i
        (c.srcs.getD i dummySrc) t

set_option maxHeartbeats 1600000 in
/-- The `Jtvec` core with a given prologue result, at the value level. -/
theorem jtvecCont_val {nU nP nM nD nW : ℕ} (c : JCtx nU nP nM nD nW)
    (st : SimSt nU nW) (f : ℕ → ℕ → Vec nU) (d : ℕ → ℕ → Vec nD)
    (pr : Option (FactDict nU) × List Ev × ℕ)
    (hpro : jtvecPro c st = some pr)
    (hco2 : c.forward_only = true ∨ atinvCoherent c (pr.1.getD []) st.ts)
    (hdc : countFactorDC pr.2.1 = 0) :
    ∃ r : JTCoreOut nU nM nW, jtvecCore c st f d = some r
      ∧ r.JTv = JTvVal c st.ts f d
      ∧ r.dfduT = c.srcs.enum.map
          (fun p => (List.range (st.ts.length + 1)).map (qVal d p.1 p.2))
      ∧ (∀ i, i < c.srcs.length → r.lam.getD i 0 =
          lamVal c st.ts (qVal d i (c.srcs.getD i dummySrc)) st.ts.length)
      ∧ r.lam.length = c.srcs.length
      ∧ r.st.adcinv = st.adcinv
      ∧ countFactorDC r.log = 0
      ∧ (1 < st.ts.length →
          r.lastAsub = some (c.AsubOf (st.ts.getD 1 0))) := by
  simp only [jtvecCore, hpro, Option.some_bind]
  have hph1 : ((c.srcs.enum).foldl
      (fun (acc : List (List (Vec nU)) × Vec nM) p =>
        (acc.1 ++ [(jtvecPhase1Src st.ts.length d p.1 p.2 acc.2).1],
         (jtvecPhase1Src st.ts.length d p.1 p.2 acc.2).2))
      (([] : List (List (Vec nU))), (0 : Vec nM)))
      = (c.srcs.enum.map
          (fun p => (List.range (st.ts.length + 1)).map (qVal d p.1 p.2)),
         (c.srcs.enum.map
          (fun p => ∑ t ∈ Finset.range (st.ts.length + 1),
            qmVal d p.1 p.2 t)).sum) := by
    rw [ph1Fold_val st.ts.length d c.srcs.enum [] 0]
    rw [List.nil_append]
    rw [Prod.mk.injEq]
    exact ⟨rfl, zero_add _⟩
  rw [hph1]
  set Q : List (List (Vec nU)) := c.srcs.enum.map
    (fun p => (List.range (st.ts.length + 1)).map (qVal d p.1 p.2)) with hQ
  obtain ⟨s2, hloop, k1, k2, k3, k4, k5, k6⟩ :=
    jtvecLoop_val c st.ts (pr.1.getD []) f d Q hQ hco2 st.ts.length
      ⟨none, none, c.srcs.map (fun _ => (0 : Vec nU)),
        (c.srcs.enum.map
          (fun p => ∑ t ∈ Finset.range (st.ts.length + 1),
            qmVal d p.1 p.2 t)).sum,
        pr.2.1, pr.2.2⟩
      (le_refl _)
      (by intro F hF; exact absurd hF (by simp))
      (by simp)
      (by
        intro i hi
        rw [Nat.sub_self]
        rw [List.getD_eq_getElem _ _ (by simpa using hi), List.getElem_map]
        rfl)
  rw [hloop, Option.map_some']
  refine ⟨_, rfl, ?_, rfl, k2, k1, rfl, ?_, fun h1n => k5 (by omega) h1n⟩
  · show s2.JTv = _
    rw [k3, JTvVal]
  · show countFactorDC (match s2.inflight with
      | some F =>
          if c.forward_only then s2.log ++ [Ev.cleanEv F.fid] else s2.log
      | none => s2.log) = 0
    have hbase : countFactorDC s2.log = 0 := by
      rw [k4]
      exact hdc
    cases hinf : s2.inflight with
    | none => exact hbase
    | some F =>
        cases hfo : c.forward_only with
        | true =>
            simp only [if_true]
            rw [countFactorDC_append, hbase]
            simp [countFactorDC, List.countP, List.countP.go]
        | false =>
            simp only [Bool.false_eq_true, if_false]
            exact hbase

/-- The shared `Jtvec` core, at the value level: with `forward_only`
factorization, or a persistent `ATinv` that is either invalidated (then
rebuilt by the prologue) or coherent, the core succeeds; its gradient is the
closed form `JTvVal`, its adjoint store and solves are the closed forms, the
DC cache is untouched and no DC factorization is logged. -/
theorem jtvecCore_val {nU nP nM nD nW : ℕ} (c : JCtx nU nP nM nD nW)
    (st : SimSt nU nW) (f : ℕ → ℕ → Vec nU) (d : ℕ → ℕ → Vec nD)
    (hready : c.forward_only = true
      ∨ (∃ dct, st.ATinv = some dct ∧
          (dct.any (fun kv => kv.2.isNone) = true
            ∨ atinvCoherent c dct st.ts))) :
    ∃ r : JTCoreOut nU nM nW, jtvecCore c st f d = some r
      ∧ r.JTv = JTvVal c st.ts f d
      ∧ r.dfduT = c.srcs.enum.map
          (fun p => (List.range (st.ts.length + 1)).map (qVal d p.1 p.2))
      ∧ (∀ i, i < c.srcs.length → r.lam.getD i 0 =
          lamVal c st.ts (qVal d i (c.srcs.getD i dummySrc)) st.ts.length)
      ∧ r.lam.length = c.srcs.length
      ∧ r.st.adcinv = st.adcinv
      ∧ countFactorDC r.log = 0
      ∧ (1 < st.ts.length →
          r.lastAsub = some (c.AsubOf (st.ts.getD 1 0))) := by
  cases hfo : c.forward_only with
  | true =>
      have hpro : jtvecPro c st
          = some (st.ATinv, ([] : List Ev), st.nextId) := by
        simp only [jtvecPro, hfo, if_true]
      exact jtvecCont_val c st f d (st.ATinv, [], st.nextId) hpro
        (Or.inl hfo) rfl
  | false =>
      rcases hready with hready | ⟨dct, hAT, hcases⟩
      · rw [hfo] at hready; exact absurd hready (by simp)
      by_cases hany : dct.any (fun kv => kv.2.isNone) = true
      · have hpro : jtvecPro c st
            = some (some ((npUnique st.ts).foldl
                (fun (acc : FactDict nU × List Ev × ℕ) dt =>
                  (dictSet acc.1 dt
                    (some ⟨(c.getAdiag st.ts (st.ts.indexOf dt))ᵀ, acc.2.2⟩),
                   acc.2.1 ++ [Ev.factorT dt acc.2.2], acc.2.2 + 1))
                (dct, ([] : List Ev), st.nextId)).1,
              ((npUnique st.ts).foldl
                (fun (acc : FactDict nU × List Ev × ℕ) dt =>
                  (dictSet acc.1 dt
                    (some ⟨(c.getAdiag st.ts (st.ts.indexOf dt))ᵀ, acc.2.2⟩),
                   acc.2.1 ++ [Ev.factorT dt acc.2.2], acc.2.2 + 1))
                (dct, ([] : List Ev), st.nextId)).2.1,
              ((npUnique st.ts).foldl
                (fun (acc : FactDict nU × List Ev × ℕ) dt =>
                  (dictSet acc.1 dt
                    (some ⟨(c.getAdiag st.ts (st.ts.indexOf dt))ᵀ, acc.2.2⟩),
                   acc.2.1 ++ [Ev.factorT dt acc.2.2], acc.2.2 + 1))
                (dct, ([] : List Ev), st.nextId)).2.2) := by
          simp only [jtvecPro, hfo, Bool.false_eq_true, if_false, hAT,
            if_pos hany]
        refine jtvecCont_val c st f d _ hpro (Or.inr ?_) ?_
        · intro dt hdt
          obtain ⟨g1, g2, g3⟩ := jtvecRebuildFold_spec c st.ts
            (npUnique st.ts) dct [] st.nextId (nodup_npUnique st.ts)
          obtain ⟨fid, hget⟩ := g1 dt ((mem_npUnique st.ts dt).mpr hdt)
          refine ⟨⟨(c.getAdiag st.ts (st.ts.indexOf dt))ᵀ, fid⟩, hget, ?_⟩
          rw [JCtx.getAdiag, getD_indexOf_self st.ts dt hdt]
        · obtain ⟨g1, g2, g3⟩ := jtvecRebuildFold_spec c st.ts
            (npUnique st.ts) dct [] st.nextId (nodup_npUnique st.ts)
          exact g3
      · have hpro : jtvecPro c st
            = some (some dct, ([] : List Ev), st.nextId) := by
          simp only [jtvecPro, hfo, Bool.false_eq_true, if_false, hAT,
            if_neg hany]
        refine jtvecCont_val c st f d _ hpro (Or.inr ?_) rfl
        rcases hcases with hcases | hcases
        · exact absurd hcases hany
        · exact hcases

/-- The first galvanic source found with an empty DC cache factorizes
`getAdc()` once; every later source reuses the cache. -/
theorem galvFold_builds {nU nP nM nD nW : ℕ} (c : JCtx nU nP nM nD nW)
    (f : ℕ → ℕ → Vec nU) (r : JTCoreOut nU nM nW) (A : Mat nU nU)
    (hA : r.lastAsub = some A) :
    ∀ (l : List (ℕ × SrcC nU nP nM nD)) lam JTv (st : SimSt nU nW) lg,
      st.adcinv = none → (∃ p ∈ l, p.2.srcType = SType.galvanic) →
      ∃ lam2 JTv2,
        l.foldl (fun acc? p => match acc? with
            | none => none
            | some acc => galvSrcStep c f r acc p) (some (lam, JTv, st, lg))
          = some (lam2, JTv2,
              { st with adcinv := some ⟨c.AdcMat, st.nextId⟩,
                        nextId := st.nextId + 1 },
              lg ++ [Ev.factorDC st.nextId]) := by
  intro l
  induction l with
  | nil =>
      intro lam JTv st lg _ hex
      obtain ⟨p, hp, _⟩ := hex
      exact absurd hp (List.not_mem_nil p)
  | cons p rest ih =>
      intro lam JTv st lg hadc hex
      simp only [List.foldl_cons]
      cases hp : p.2.srcType with
      | inductiveSrc =>
          have hstep : galvSrcStep c f r (lam, JTv, st, lg) p
              = some (lam, JTv, st, lg) := by
            simp only [galvSrcStep, hp]
          rw [hstep]
          refine ih lam JTv st lg hadc ?_
          obtain ⟨q, hq, hqt⟩ := hex
          rcases List.mem_cons.mp hq with hq | hq
          · subst hq
            rw [hp] at hqt
            cases hqt
          · exact ⟨q, hq, hqt⟩
      | galvanic =>
          have hstep : ∃ lamE,
              galvSrcStep c f r (lam, JTv, st, lg) p
                = some (lam.set p.1 lamE,
                    JTv + (-(c.DMeSigma (f p.1 0))ᵀ.mulVec lamE
                      + (p.2.dRHS 0)ᵀ.mulVec lamE),
                    { st with adcinv := some ⟨c.AdcMat, st.nextId⟩,
                              nextId := st.nextId + 1 },
                    lg ++ [Ev.factorDC st.nextId]) := by
            simp only [galvSrcStep, hp, hA, hadc]
            exact ⟨_, rfl⟩
          obtain ⟨lamE, hstep⟩ := hstep
          rw [hstep]
          obtain ⟨lam2, JTv2, hrest⟩ := galvFold_adc_some c f r A hA rest _ _
            { st with adcinv := some ⟨c.AdcMat, st.nextId⟩,
                      nextId := st.nextId + 1 }
            (lg ++ [Ev.factorDC st.nextId]) ⟨c.AdcMat, st.nextId⟩ rfl
          exact ⟨lam2, JTv2, hrest⟩

theorem jtvecSrcUpdate_log_inv {nU nP nM nD nW : ℕ} (c : JCtx nU nP nM nD nW)
    (ts : List ℚ) (f : ℕ → ℕ → Vec nU) (dfduT : List (List (Vec nU)))
    (tInd : ℕ) (F : Fact nU) (acc : JTLoopSt nU nM) (i : ℕ)
    (src : SrcC nU nP nM nD) (s2 : JTLoopSt nU nM)
    (h : jtvecSrcUpdate c ts f dfduT tInd F acc i src = some s2) :
    s2.log = acc.log ∧ s2.nid = acc.nid := by
  simp only [jtvecSrcUpdate] at h
  by_cases hc : ts.length - 1 ≤ tInd
  · rw [if_pos hc] at h
    injection h with h
    rw [← h]
    exact ⟨rfl, rfl⟩
  · rw [if_neg hc] at h
    cases hls : acc.lastAsub with
    | none => rw [hls] at h; cases h
    | some A =>
        rw [hls] at h
        injection h with h
        rw [← h]
        exact ⟨rfl, rfl⟩

theorem jtvecSrcFold_none {nU nP nM nD nW : ℕ} (c : JCtx nU nP nM nD nW)
    (ts : List ℚ) (f : ℕ → ℕ → Vec nU) (dfduT : List (List (Vec nU)))
    (tInd : ℕ) (F : Fact nU) :
    ∀ (l : List (ℕ × SrcC nU nP nM nD)),
      (l.foldl (fun acc? p => match acc? with
          | none => none
          | some acc => jtvecSrcUpdate c ts f dfduT tInd F acc p.1 p.2)
        none) = none := by
  intro l
  induction l with
  | nil => rfl
  | cons p rest ih => simpa using ih

theorem jtvecSrcFold_log_inv {nU nP nM nD nW : ℕ} (c : JCtx nU nP nM nD nW)
    (ts : List ℚ) (f : ℕ → ℕ → Vec nU) (dfduT : List (List (Vec nU)))
    (tInd : ℕ) (F : Fact nU) :
    ∀ (l : List (ℕ × SrcC nU nP nM nD)) (s s2 : JTLoopSt nU nM),
      (l.foldl (fun acc? p => match acc? with
          | none => none
          | some acc => jtvecSrcUpdate c ts f dfduT tInd F acc p.1 p.2)
        (some s)) = some s2 →
      s2.log = s.log ∧ s2.nid = s.nid := by
  intro l
  induction l with
  | nil =>
      intro s s2 h
      injection h with h
      rw [h]
      exact ⟨rfl, rfl⟩
  | cons p rest ih =>
      intro s s2 h
      rw [List.foldl_cons] at h
      cases hstep : jtvecSrcUpdate c ts f dfduT tInd F s p.1 p.2 with
      | none =>
          rw [show (match (some s : Option (JTLoopSt nU nM)) with
              | none => none
              | some acc => jtvecSrcUpdate c ts f dfduT tInd F acc p.1 p.2)
              = jtvecSrcUpdate c ts f dfduT tInd F s p.1 p.2 from rfl,
            hstep, jtvecSrcFold_none] at h
          cases h
      | some s1 =>
          rw [show (match (some s : Option (JTLoopSt nU nM)) with
              | none => none
              | some acc => jtvecSrcUpdate c ts f dfduT tInd F acc p.1 p.2)
              = jtvecSrcUpdate c ts f dfduT tInd F s p.1 p.2 from rfl,
            hstep] at h
          obtain ⟨h1, h2⟩ := ih s1 s2 h
          obtain ⟨h3, h4⟩ := jtvecSrcUpdate_log_inv c ts f dfduT tInd F s
            p.1 p.2 s1 hstep
          exact ⟨by rw [h1, h3], by rw [h2, h4]⟩

theorem jtvecStep_log_inv {nU nP nM nD nW : ℕ} (c : JCtx nU nP nM nD nW)
    (ts : List ℚ) (atinv : FactDict nU) (f : ℕ → ℕ → Vec nU)
    (dfduT : List (List (Vec nU))) (tInd : ℕ) (s s2 : JTLoopSt nU nM)
    (h : jtvecStep c ts atinv f dfduT tInd s = some s2) :
    countFactorDC s2.log = countFactorDC s.log := by
  have hfin : ∀ (F : Fact nU) (s3 : JTLoopSt nU nM),
      countFactorDC s3.log = countFactorDC s.log →
      ((c.srcs.enum).foldl (fun acc? p => match acc? with
          | none => none
          | some acc => jtvecSrcUpdate c ts f dfduT tInd F acc p.1 p.2)
        (some (if tInd < ts.length - 1 then
          { s3 with lastAsub := some (c.getAsubdiag ts (tInd + 1)) }
          else s3))) = some s2 →
      countFactorDC s2.log = countFactorDC s.log := by
    intro F s3 h3 hfold
    by_cases hlt : tInd < ts.length - 1
    · rw [if_pos hlt] at hfold
      obtain ⟨h1, _⟩ := jtvecSrcFold_log_inv c ts f dfduT tInd F
        c.srcs.enum _ s2 hfold
      rw [h1]
      exact h3
    · rw [if_neg hlt] at hfold
      obtain ⟨h1, _⟩ := jtvecSrcFold_log_inv c ts f dfduT tInd F
        c.srcs.enum _ s2 hfold
      rw [h1]
      exact h3
  cases hins : s.inflight with
  | none =>
      cases hfo : c.forward_only with
      | true =>
          simp only [jtvecStep, hins, hfo, if_true] at h
          refine hfin _ _ ?_ h
          simp only [countFactorDC_append]
          simp [countFactorDC, List.countP, List.countP.go]
      | false =>
          simp only [jtvecStep, hins, hfo, Bool.false_eq_true, if_false] at h
          cases hdict : dictGet atinv (ts.getD tInd 0) with
          | none => simp only [hdict] at h; cases h
          | some o =>
              cases o with
              | none => simp only [hdict] at h; cases h
              | some F =>
                  simp only [hdict] at h
                  exact hfin F { s with inflight := some F } rfl h
  | some F0 =>
      by_cases hrc : jtvecRefactorCond ts tInd
      · cases hfo : c.forward_only with
        | true =>
            simp only [jtvecStep, hins, hfo, if_pos hrc, if_true] at h
            refine hfin _ _ ?_ h
            simp only [countFactorDC_append]
            simp [countFactorDC, List.countP, List.countP.go]
        | false =>
            simp only [jtvecStep, hins, hfo, Bool.false_eq_true, if_pos hrc,
              if_false] at h
            cases hdict : dictGet atinv (ts.getD tInd 0) with
            | none => simp only [hdict] at h; cases h
            | some o =>
                cases o with
                | none => simp only [hdict] at h; cases h
                | some F =>
                    simp only [hdict] at h
                    refine hfin F
                      { s with inflight := some F, log := s.log ++ [] }
                      ?_ h
                    simp only [countFactorDC_append]
                    simp [countFactorDC, List.countP, List.countP.go]
      · simp only [jtvecStep, hins, if_neg hrc] at h
        rw [← hins] at h
        exact hfin F0 s rfl h

theorem jtvecLoop_log_inv {nU nP nM nD nW : ℕ} (c : JCtx nU nP nM nD nW)
    (ts : List ℚ) (atinv : FactDict nU) (f : ℕ → ℕ → Vec nU)
    (dfduT : List (List (Vec nU))) :
    ∀ (L : List ℕ) (s s2 : JTLoopSt nU nM),
      jtvecLoop c ts atinv f dfduT L s = some s2 →
      countFactorDC s2.log = countFactorDC s.log := by
  intro L
  induction L with
  | nil =>
      intro s s2 h
      injection h with h
      rw [h]
  | cons t rest ih =>
      intro s s2 h
      rw [jtvecLoop] at h
      cases hstep : jtvecStep c ts atinv f dfduT t s with
      | none => rw [hstep] at h; cases h
      | some s1 =>
          rw [hstep] at h
          rw [ih s1 s2 h, jtvecStep_log_inv c ts atinv f dfduT t s s1 hstep]

theorem jtvecPro_noDC {nU nP nM nD nW : ℕ} (c : JCtx nU nP nM nD nW)
    (st : SimSt nU nW) (pr : Option (FactDict nU) × List Ev × ℕ)
    (h : jtvecPro c st = some pr) : countFactorDC pr.2.1 = 0 := by
  cases hfo : c.forward_only with
  | true =>
      simp only [jtvecPro, hfo, if_true] at h
      injection h with h
      rw [← h]
      rfl
  | false =>
      simp only [jtvecPro, hfo, Bool.false_eq_true, if_false] at h
      cases hAT : st.ATinv with
      | none => simp only [hAT] at h; cases h
      | some dct =>
          simp only [hAT] at h
          by_cases hany : dct.any (fun kv => kv.2.isNone) = true
          · rw [if_pos hany] at h
            injection h with h
            obtain ⟨g1, g2, g3⟩ := jtvecRebuildFold_spec c st.ts
              (npUnique st.ts) dct [] st.nextId (nodup_npUnique st.ts)
            rw [← h]
            exact g3
          · rw [if_neg hany] at h
            injection h with h
            rw [← h]
            rfl

/-- The shared `Jtvec` core never factorizes the steady-state DC operator
and never touches the cached DC factorization. -/
theorem jtvecCore_noDC {nU nP nM nD nW : ℕ} (c : JCtx nU nP nM nD nW)
    (st : SimSt nU nW) (f : ℕ → ℕ → Vec nU) (d : ℕ → ℕ → Vec nD)
    (r : JTCoreOut nU nM nW) (h : jtvecCore c st f d = some r) :
    countFactorDC r.log = 0 ∧ r.st.adcinv = st.adcinv := by
  unfold jtvecCore at h
  simp only [Option.bind_eq_some, Option.map_eq_some'] at h
  obtain ⟨pr, hpro, s, hloop, hr⟩ := h
  have hs : countFactorDC s.log = 0 := by
    rw [jtvecLoop_log_inv c st.ts (pr.1.getD []) f _ _ _ s hloop]
    exact jtvecPro_noDC c st pr hpro
  constructor
  · rw [← hr]
    show countFactorDC (match s.inflight with
      | some F =>
          if c.forward_only then s.log ++ [Ev.cleanEv F.fid] else s.log
      | none => s.log) = 0
    cases hinf : s.inflight with
    | none => exact hs
    | some F =>
        cases hfo : c.forward_only with
        | true =>
            simp only [if_true]
            rw [countFactorDC_append, hs]
            simp [countFactorDC, List.countP, List.countP.go]
        | false =>
            simp only [Bool.false_eq_true, if_false]
            exact hs
  · rw [← hr]

theorem snd_mem_of_mem_enumFrom {α : Type} :
    ∀ (l : List α) (n : ℕ) (p : ℕ × α), p ∈ List.enumFrom n l → p.2 ∈ l := by
  intro l
  induction l with
  | nil => intro n p h; exact absurd h (List.not_mem_nil p)
  | cons a rest ih =>
      intro n p h
      rcases List.mem_cons.mp h with h | h
      · subst h
        exact List.mem_cons_self a rest
      · exact List.mem_cons_of_mem a (ih (n + 1) p h)

theorem mem_enumFrom_of_mem {α : Type} :
    ∀ (l : List α) (a : α) (n : ℕ), a ∈ l →
      ∃ k, (k, a) ∈ List.enumFrom n l := by
  intro l
  induction l with
  | nil => intro a n h; exact absurd h (List.not_mem_nil a)
  | cons b rest ih =>
      intro a n h
      rcases List.mem_cons.mp h with h | h
      · subst h
        exact ⟨n, List.mem_cons_self _ _⟩
      · obtain ⟨k, hk⟩ := ih a (n + 1) h
        exact ⟨k, List.mem_cons_of_mem _ hk⟩

/-- C5 (amended): during `Jtvec`, only the electric-field formulation has the
galvanic phase: the base (b-, h-, j-formulation) `Jtvec` never factorizes the
steady-state DC operator and never touches the DC cache; in the
electric-field override, an inductive-only survey skips the phase entirely,
a galvanic source with an empty DC cache triggers exactly one DC
factorization (which is cached), and a galvanic source with a populated DC
cache triggers none. -/
theorem claim_C5_amended_galvanic_dc :
    (∀ (nU nP nM nD nW : ℕ) (c : JCtx nU nP nM nD nW) (st : SimSt nU nW)
        (f : ℕ → ℕ → Vec nU) (d : ℕ → ℕ → Vec nD) (out : JTOut nM nU nW),
      jtvecBase c st f d = some out →
      countFactorDC out.log = 0 ∧ out.st.adcinv = st.adcinv)
    ∧ (∀ (nU nP nM nD nW : ℕ) (c : JCtx nU nP nM nD nW) (st : SimSt nU nW)
        (f : ℕ → ℕ → Vec nU) (d : ℕ → ℕ → Vec nD) (r : JTCoreOut nU nM nW),
      (∀ src ∈ c.srcs, src.srcType = SType.inductiveSrc) →
      jtvecCore c st f d = some r →
      jtvecE c st f d = some ⟨r.JTv, r.st, r.log⟩)
    ∧ (∀ (nU nP nM nD nW : ℕ) (c : JCtx nU nP nM nD nW) (st : SimSt nU nW)
        (f : ℕ → ℕ → Vec nU) (d : ℕ → ℕ → Vec nD) (r : JTCoreOut nU nM nW)
        (A : Mat nU nU),
      jtvecCore c st f d = some r → r.lastAsub = some A →
      r.st.adcinv = none →
      (∃ src ∈ c.srcs, src.srcType = SType.galvanic) →
      ∃ out : JTOut nM nU nW, jtvecE c st f d = some out
        ∧ out.st.adcinv = some ⟨c.AdcMat, r.st.nextId⟩
        ∧ countFactorDC out.log = 1)
    ∧ (∀ (nU nP nM nD nW : ℕ) (c : JCtx nU nP nM nD nW) (st : SimSt nU nW)
        (f : ℕ → ℕ → Vec nU) (d : ℕ → ℕ → Vec nD) (r : JTCoreOut nU nM nW)
        (A : Mat nU nU) (F : Fact nW),
      jtvecCore c st f d = some r → r.lastAsub = some A →
      r.st.adcinv = some F →
      ∃ out : JTOut nM nU nW, jtvecE c st f d = some out
        ∧ out.st.adcinv = some F ∧ countFactorDC out.log = 0) := by
  refine ⟨?_, ?_, ?_, ?_⟩
  · intro nU nP nM nD nW c st f d out hout
    obtain ⟨r, hcore, hdecomp⟩ := jtvecBase_decomp c st f d out hout
    obtain ⟨hdc, hadc⟩ := jtvecCore_noDC c st f d r hcore
    rw [hdecomp]
    exact ⟨hdc, hadc⟩
  · intro nU nP nM nD nW c st f d r hall hcore
    have hfold := galvFold_all_inductive c f r c.srcs.enum r.lam r.JTv
      r.st r.log
      (fun p hp => hall p.2 (snd_mem_of_mem_enumFrom c.srcs 0 p hp))
    simp only [jtvecE, hcore, jtvecGalvanicPhase, hfold]
  · intro nU nP nM nD nW c st f d r A hcore hlast hadc hgal
    obtain ⟨src, hsrc, hst⟩ := hgal
    obtain ⟨k, hk⟩ := mem_enumFrom_of_mem c.srcs src 0 hsrc
    obtain ⟨lam2, JTv2, hfold⟩ := galvFold_builds c f r A hlast c.srcs.enum
      r.lam r.JTv r.st r.log hadc ⟨(k, src), hk, hst⟩
    refine ⟨⟨JTv2,
      { r.st with adcinv := some ⟨c.AdcMat, r.st.nextId⟩,
                  nextId := r.st.nextId + 1 },
      r.log ++ [Ev.factorDC r.st.nextId]⟩, ?_, rfl, ?_⟩
    · simp only [jtvecE, hcore, jtvecGalvanicPhase, hfold]
    · obtain ⟨hdc, _⟩ := jtvecCore_noDC c st f d r hcore
      rw [countFactorDC_append, hdc]
      simp [countFactorDC, List.countP, List.countP.go]
  · intro nU nP nM nD nW c st f d r A F hcore hlast hadc
    obtain ⟨lam2, JTv2, hfold⟩ := galvFold_adc_some c f r A hlast c.srcs.enum
      r.lam r.JTv r.st r.log F hadc
    refine ⟨⟨JTv2, r.st, r.log⟩, ?_, hadc, ?_⟩
    · simp only [jtvecE, hcore, jtvecGalvanicPhase, hfold]
    · obtain ⟨hdc, _⟩ := jtvecCore_noDC c st f d r hcore
      exact hdc

/-- A galvanic source with one trivial receiver. -/
def srcGal : SrcC 1 1 1 1 :=
  { rxs := [rxDemo], G := 0, dRHS := fun _ => 0, srcType := SType.galvanic }

/-- The demonstration context with its single source made galvanic. -/
def cGal : JCtx 1 1 1 1 1 := { cDemo with srcs := [srcGal] }

/-- Fresh two-step state (`time_steps = [1, 1]`, empty caches). -/
def stGal : SimSt 1 1 := ⟨[1, 1], none, none, none, 0⟩

/-- Witness for C5 at a concrete input: on a two-step electric-field
simulation with one galvanic source and an empty DC cache, `Jtvec` succeeds
and factorizes the DC operator exactly once, caching it. -/
theorem claim_C5_amended_galvanic_dc_witness :
    ∃ (r : JTCoreOut 1 1 1) (out : JTOut 1 1 1),
      jtvecCore cGal stGal (fun _ _ => 0) (fun _ _ => 0) = some r
      ∧ jtvecE cGal stGal (fun _ _ => 0) (fun _ _ => 0) = some out
      ∧ out.st.adcinv = some ⟨cGal.AdcMat, r.st.nextId⟩
      ∧ countFactorDC out.log = 1 := by
  obtain ⟨r, hcore, _, _, _, _, hadc, _, hlast⟩ :=
    jtvecCore_val cGal stGal (fun _ _ => 0) (fun _ _ => 0) (Or.inl rfl)
  obtain ⟨out, hout, h1, h2⟩ :=
    claim_C5_amended_galvanic_dc.2.2.1 1 1 1 1 1 cGal stGal
      (fun _ _ => 0) (fun _ _ => 0) r _ hcore
      (hlast (by simp [stGal])) hadc
      ⟨srcGal, by simp [cGal, cDemo], rfl⟩
  exact ⟨r, out, hcore, hout, h1, h2⟩

/-- C5 counterexample: the base (b-, h-, j-formulation) `Jtvec` runs a
galvanic source without ever constructing the steady-state DC operator — the
galvanic phase exists only in the electric-field override, contradicting
`for every formulation variant`. -/
theorem claim_C5_counterexample :
    ∃ out : JTOut 1 1 1,
      jtvecBase cGal stGal (fun _ _ => 0) (fun _ _ => 0) = some out
      ∧ (∃ src ∈ cGal.srcs, src.srcType = SType.galvanic)
      ∧ countFactorDC out.log = 0
      ∧ out.st.adcinv = none := by
  obtain ⟨r, hcore, _, _, _, _, hadc, hdc, _⟩ :=
    jtvecCore_val cGal stGal (fun _ _ => 0) (fun _ _ => 0) (Or.inl rfl)
  refine ⟨⟨r.JTv, r.st, r.log⟩, ?_, ⟨srcGal, by simp [cGal, cDemo], rfl⟩,
    hdc, ?_⟩
  · simp only [jtvecBase, hcore]
  · rw [hadc]
    rfl

theorem minv_transpose {n : ℕ} (A : Mat n n) : minv Aᵀ = (minv A)ᵀ := by
  unfold minv
  rw [Matrix.det_transpose, ← Matrix.adjugate_transpose,
    Matrix.transpose_smul]

theorem dot_mulVec_flip {m n : ℕ} (M : Mat m n) (x : Vec m) (y : Vec n) :
    Matrix.dotProduct x (M.mulVec y) = Matrix.dotProduct (Mᵀ.mulVec x) y := by
  rw [Matrix.dotProduct_mulVec, Matrix.mulVec_transpose]

theorem dot_sum_right {n : ℕ} {ι : Type} (s : Finset ι) (v : Vec n)
    (g : ι → Vec n) :
    Matrix.dotProduct v (∑ i ∈ s, g i)
      = ∑ i ∈ s, Matrix.dotProduct v (g i) := by
  simp only [Matrix.dotProduct, Finset.sum_apply, Finset.mul_sum]
  rw [Finset.sum_comm]

theorem dot_list_sum_left {n : ℕ} (l : List (Vec n)) (x : Vec n) :
    Matrix.dotProduct l.sum x
      = (l.map (fun a => Matrix.dotProduct a x)).sum := by
  induction l with
  | nil => simp [Matrix.zero_dotProduct]
  | cons a rest ih =>
      rw [List.sum_cons, List.map_cons, List.sum_cons, Matrix.add_dotProduct,
        ih]

theorem list_finset_sum_comm {α : Type} {ι : Type} (l : List α)
    (s : Finset ι) (g : α → ι → ℚ) :
    (l.map (fun a => ∑ t ∈ s, g a t)).sum
      = ∑ t ∈ s, (l.map (fun a => g a t)).sum := by
  induction l with
  | nil => simp
  | cons a rest ih =>
      rw [List.map_cons, List.sum_cons, ih, ← Finset.sum_add_distrib]
      apply Finset.sum_congr rfl
      intro t _
      rw [List.map_cons, List.sum_cons]

theorem enumFrom_map_sum {α M : Type} [AddCommMonoid M] (x0 : α) :
    ∀ (l : List α) (n : ℕ) (g : ℕ × α → M),
      ((List.enumFrom n l).map g).sum
        = ∑ i ∈ Finset.range l.length, g (n + i, l.getD i x0) := by
  intro l
  induction l with
  | nil => intro n g; simp
  | cons a rest ih =>
      intro n g
      rw [show List.enumFrom n (a :: rest)
          = (n, a) :: List.enumFrom (n + 1) rest from rfl,
        List.map_cons, List.sum_cons, ih (n + 1) g, List.length_cons,
        Finset.sum_range_succ', show n + 0 = n from by omega, add_comm]
      congr 1
      apply Finset.sum_congr rfl
      intro i _
      rw [show n + 1 + i = n + (i + 1) from by omega]
      rfl

theorem enum_map_sum {α M : Type} [AddCommMonoid M] (x0 : α) (l : List α)
    (g : ℕ × α → M) :
    (l.enum.map g).sum = ∑ i ∈ Finset.range l.length, g (i, l.getD i x0) := by
  rw [show l.enum = List.enumFrom 0 l from rfl, enumFrom_map_sum x0 l 0 g]
  apply Finset.sum_congr rfl
  intro i _
  rw [show 0 + i = i from by omega]

theorem getD_mem {α : Type} (l : List α) (t : ℕ) (x0 : α)
    (h : t < l.length) : l.getD t x0 ∈ l := by
  rw [List.getD_eq_getElem l x0 h]
  exact List.getElem_mem h

theorem qVal_zero_of_P {nU nP nM nD : ℕ} (d : ℕ → ℕ → Vec nD) (i : ℕ)
    (src : SrcC nU nP nM nD) (t : ℕ) (hP : ∀ rx ∈ src.rxs, rx.P t = 0) :
    qVal d i src t = 0 := by
  apply List.sum_eq_zero
  intro x hx
  obtain ⟨p, hp, hpx⟩ := List.mem_map.mp hx
  rw [← hpx, hP p.2 (snd_mem_of_mem_enumFrom src.rxs 0 p hp),
    Matrix.transpose_zero, Matrix.zero_mulVec, Matrix.mulVec_zero]

theorem qmVal_zero_of_P {nU nP nM nD : ℕ} (d : ℕ → ℕ → Vec nD) (i : ℕ)
    (src : SrcC nU nP nM nD) (t : ℕ) (hP : ∀ rx ∈ src.rxs, rx.P t = 0) :
    qmVal d i src t = 0 := by
  apply List.sum_eq_zero
  intro x hx
  obtain ⟨p, hp, hpx⟩ := List.mem_map.mp hx
  rw [← hpx, hP p.2 (snd_mem_of_mem_enumFrom src.rxs 0 p hp),
    Matrix.transpose_zero, Matrix.zero_mulVec, Matrix.mulVec_zero]

/-- The elementary adjoint identity behind the telescoping argument: testing
the forward right-hand side against an adjoint solve equals testing the
forward solve against the adjoint right-hand side, up to the sub-diagonal
coupling term. -/
theorem solve_dot_split {n : ℕ} (A B : Mat n n) (r duPrev cvec : Vec n) :
    Matrix.dotProduct r ((minv Aᵀ).mulVec cvec)
      = Matrix.dotProduct (solveV A (r - B.mulVec duPrev)) cvec
        + Matrix.dotProduct duPrev
            (Bᵀ.mulVec ((minv Aᵀ).mulVec cvec)) := by
  rw [minv_transpose]
  rw [dot_mulVec_flip ((minv A)ᵀ) r cvec, Matrix.transpose_transpose]
  rw [solveV, Matrix.mulVec_sub, Matrix.sub_dotProduct]
  rw [dot_mulVec_flip (Bᵀ) duPrev (((minv A)ᵀ).mulVec cvec),
    Matrix.transpose_transpose]
  rw [dot_mulVec_flip ((minv A)ᵀ) (B.mulVec duPrev) cvec,
    Matrix.transpose_transpose]
  ring

/-- The telescoping identity of the backward recursion: over the tail
`[t, nT)` the adjoint solves test the forward right-hand sides exactly as
the receivers' back-projections test the forward solution derivatives, up
to the two boundary terms. -/
theorem jtvec_telescope {nU nP nM nD nW : ℕ} (c : JCtx nU nP nM nD nW)
    (ts : List ℚ) (f : ℕ → ℕ → Vec nU) (v : Vec nM) (d : ℕ → ℕ → Vec nD)
    (i : ℕ) (si : SrcC nU nP nM nD) :
    ∀ (k t : ℕ), t < ts.length → ts.length - 1 - t = k →
      ∑ s ∈ Finset.Ico t ts.length,
        Matrix.dotProduct (JRHSVal c f v i si s)
          (lamVal c ts (qVal d i si) (ts.length - s))
      = ∑ s ∈ Finset.Ico (t + 1) ts.length,
          Matrix.dotProduct (qVal d i si s) (duVal c ts f v i si s)
        + Matrix.dotProduct (qVal d i si ts.length)
            (duVal c ts f v i si ts.length)
        + Matrix.dotProduct (duVal c ts f v i si t)
            ((c.AsubOf (ts.getD t 0))ᵀ.mulVec
              (lamVal c ts (qVal d i si) (ts.length - t))) := by
  intro k
  induction k with
  | zero =>
      intro t ht hk
      have ht1 : t + 1 = ts.length := by omega
      have hlam1 : ts.length - t = 1 := by omega
      have hlamv : lamVal c ts (qVal d i si) (ts.length - t)
          = (minv ((c.AdiagOf (ts.getD t 0))ᵀ)).mulVec
              (qVal d i si ts.length) := by
        rw [hlam1, lamVal, solveV, show ts.length - 1 = t from by omega]
      rw [show Finset.Ico t ts.length = {t} from by
          rw [← ht1]; exact Nat.Ico_succ_singleton t,
        Finset.sum_singleton, ht1, Finset.Ico_self, Finset.sum_empty,
        zero_add, hlamv]
      rw [solve_dot_split (c.AdiagOf (ts.getD t 0)) (c.AsubOf (ts.getD t 0))
        (JRHSVal c f v i si t) (duVal c ts f v i si t) (qVal d i si ts.length)]
      have hdu : duVal c ts f v i si ts.length
          = solveV (c.AdiagOf (ts.getD t 0))
              (JRHSVal c f v i si t
                - (c.AsubOf (ts.getD t 0)).mulVec (duVal c ts f v i si t))
          := by
        rw [← ht1, duVal]
      rw [hdu, Matrix.dotProduct_comm]
  | succ k ih =>
      intro t ht hk
      have ht2 : t + 1 < ts.length := by omega
      have hcv : lamVal c ts (qVal d i si) (ts.length - t)
          = (minv ((c.AdiagOf (ts.getD t 0))ᵀ)).mulVec
              (qVal d i si (t + 1)
                - ((c.AsubOf (ts.getD (t + 1) 0))ᵀ).mulVec
                    (lamVal c ts (qVal d i si) (ts.length - (t + 1)))) := by
        rw [show ts.length - t = (ts.length - t - 2) + 2 from by omega,
          lamVal, solveV,
          show ts.length - (ts.length - t - 2) - 2 = t from by omega,
          show ts.length - (ts.length - t - 2) - 1 = t + 1 from by omega,
          show ts.length - t - 2 + 1 = ts.length - (t + 1) from by omega]
      rw [Finset.sum_eq_sum_Ico_succ_bot ht, hcv]
      rw [solve_dot_split (c.AdiagOf (ts.getD t 0)) (c.AsubOf (ts.getD t 0))
        (JRHSVal c f v i si t) (duVal c ts f v i si t)
        (qVal d i si (t + 1)
          - ((c.AsubOf (ts.getD (t + 1) 0))ᵀ).mulVec
              (lamVal c ts (qVal d i si) (ts.length - (t + 1))))]
      have hdu : duVal c ts f v i si (t + 1)
          = solveV (c.AdiagOf (ts.getD t 0))
              (JRHSVal c f v i si t
                - (c.AsubOf (ts.getD t 0)).mulVec (duVal c ts f v i si t))
          := by
        rw [duVal]
      rw [← hdu, ih (t + 1) ht2 (by omega),
        Matrix.dotProduct_sub,
        Finset.sum_eq_sum_Ico_succ_bot ht2,
        Matrix.dotProduct_comm (qVal d i si (t + 1))
          (duVal c ts f v i si (t + 1))]
      ring

/-- Per-source adjointness: the receivers' data-space inner products against
the forward sensitivity equal the model-space inner product against the
back-projection plus the backward-recursion contributions, provided the
source has no initial-field sensitivity (`G = 0`) and its receivers do not
sample the final time node (`P nT = 0`). -/
theorem perSource_adjoint {nU nP nM nD nW : ℕ} (c : JCtx nU nP nM nD nW)
    (ts : List ℚ) (f : ℕ → ℕ → Vec nU) (v : Vec nM) (d : ℕ → ℕ → Vec nD)
    (i : ℕ) (si : SrcC nU nP nM nD)
    (hG : si.G = 0)
    (hP : ∀ rx ∈ si.rxs, rx.P ts.length = 0) :
    (si.rxs.enum.map (fun rr =>
        Matrix.dotProduct (d i rr.1) (dataVal c ts f v i si rr.2))).sum
      = Matrix.dotProduct v
          (∑ t ∈ Finset.range (ts.length + 1), qmVal d i si t)
        + ∑ t ∈ Finset.range ts.length,
            Matrix.dotProduct v
              (jtvecContribVal c ts f (qVal d i si) i si t) := by
  have hdu0 : duVal c ts f v i si 0 = 0 := by
    rw [duVal, hG, Matrix.zero_mulVec]
  -- Step 1: exchange the receiver sum and the time sum.
  have h1 : (si.rxs.enum.map (fun rr =>
        Matrix.dotProduct (d i rr.1) (dataVal c ts f v i si rr.2))).sum
      = ∑ t ∈ Finset.range (ts.length + 1),
          (si.rxs.enum.map (fun rr =>
            Matrix.dotProduct (d i rr.1)
              ((rr.2.P t).mulVec (dfVal c ts f v i si rr.2 t)))).sum := by
    rw [← list_finset_sum_comm]
    congr 1
    apply List.map_congr_left
    intro rr _
    rw [dataVal, dot_sum_right]
  -- Step 2: evaluate the inner receiver sum at each time node.
  have h2 : ∀ t, (si.rxs.enum.map (fun rr =>
        Matrix.dotProduct (d i rr.1)
          ((rr.2.P t).mulVec (dfVal c ts f v i si rr.2 t)))).sum
      = if t < ts.length then
          Matrix.dotProduct (qVal d i si t) (duVal c ts f v i si t)
            + Matrix.dotProduct (qmVal d i si t) v
        else 0 := by
    intro t
    by_cases ht : t < ts.length
    · rw [if_pos ht]
      have hmap : (si.rxs.enum.map (fun rr =>
            Matrix.dotProduct (d i rr.1)
              ((rr.2.P t).mulVec (dfVal c ts f v i si rr.2 t))))
          = si.rxs.enum.map (fun rr =>
              Matrix.dotProduct
                ((rr.2.Fu t)ᵀ.mulVec ((rr.2.P t)ᵀ.mulVec (d i rr.1)))
                (duVal c ts f v i si t)
              + Matrix.dotProduct
                ((rr.2.Fm t)ᵀ.mulVec ((rr.2.P t)ᵀ.mulVec (d i rr.1))) v)
          := by
        apply List.map_congr_left
        intro rr _
        rw [dot_mulVec_flip, dfVal, if_pos ht, Matrix.dotProduct_add,
          dot_mulVec_flip ((rr.2.Fu t)) _ (duVal c ts f v i si t),
          dot_mulVec_flip ((rr.2.Fm t)) _ v]
      rw [hmap, sum_map_add, qVal, qmVal, dot_list_sum_left,
        dot_list_sum_left, List.map_map, List.map_map]
      rfl
    · rw [if_neg ht]
      apply List.sum_eq_zero
      intro x hx
      obtain ⟨rr, _, hrx⟩ := List.mem_map.mp hx
      rw [← hrx, dfVal, if_neg ht, Matrix.mulVec_zero, Matrix.dotProduct_zero]
  -- Step 3: the final node contributes nothing.
  have h3 : (si.rxs.enum.map (fun rr =>
        Matrix.dotProduct (d i rr.1) (dataVal c ts f v i si rr.2))).sum
      = ∑ t ∈ Finset.range ts.length,
          (Matrix.dotProduct (qVal d i si t) (duVal c ts f v i si t)
            + Matrix.dotProduct (qmVal d i si t) v) := by
    rw [h1]
    rw [Finset.sum_congr rfl (fun t _ => h2 t), Finset.sum_range_succ,
      if_neg (by omega), add_zero]
    apply Finset.sum_congr rfl
    intro t htmem
    rw [if_pos (Finset.mem_range.mp htmem)]
  -- Step 4: the backward contributions test the forward right-hand sides.
  have h4 : ∀ t,
      Matrix.dotProduct v (jtvecContribVal c ts f (qVal d i si) i si t)
        = Matrix.dotProduct (JRHSVal c f v i si t)
            (lamVal c ts (qVal d i si) (ts.length - t)) := by
    intro t
    rw [jtvecContribVal, JRHSVal]
    simp only [Matrix.dotProduct_add, Matrix.dotProduct_sub,
      Matrix.dotProduct_neg, Matrix.sub_dotProduct,
      dot_mulVec_flip ((c.DAdiag t (f i (t + 1)))ᵀ) v _,
      dot_mulVec_flip ((c.DAsub t (f i t))ᵀ) v _,
      dot_mulVec_flip ((si.dRHS (t + 1))ᵀ) v _,
      Matrix.transpose_transpose]
    ring
  -- Step 5: the telescoping identity.
  have h5 : ∑ t ∈ Finset.range ts.length,
        Matrix.dotProduct (JRHSVal c f v i si t)
          (lamVal c ts (qVal d i si) (ts.length - t))
      = ∑ t ∈ Finset.range ts.length,
          Matrix.dotProduct (qVal d i si t) (duVal c ts f v i si t) := by
    by_cases hnT : ts.length = 0
    · rw [hnT]
      simp
    · have h0 : 0 < ts.length := Nat.pos_of_ne_zero hnT
      rw [Finset.range_eq_Ico,
        jtvec_telescope c ts f v d i si (ts.length - 1) 0 h0 (by omega)]
      rw [qVal_zero_of_P d i si ts.length hP, Matrix.zero_dotProduct,
        add_zero, hdu0, Matrix.zero_dotProduct, add_zero]
      rw [Finset.sum_eq_sum_Ico_succ_bot h0, hdu0,
        Matrix.dotProduct_zero]
      exact (zero_add _).symm
  -- Assemble.
  rw [h3, dot_sum_right, Finset.sum_range_succ,
    qmVal_zero_of_P d i si ts.length hP, Matrix.dotProduct_zero, add_zero]
  rw [Finset.sum_congr rfl (fun t _ => h4 t), h5, ← Finset.sum_add_distrib]
  apply Finset.sum_congr rfl
  intro t _
  rw [Matrix.dotProduct_comm v (qmVal d i si t)]
  ring

theorem dot_list_sum_right {n : ℕ} (x : Vec n) (l : List (Vec n)) :
    Matrix.dotProduct x l.sum
      = (l.map (fun a => Matrix.dotProduct x a)).sum := by
  rw [Matrix.dotProduct_comm, dot_list_sum_left]
  congr 1
  apply List.map_congr_left
  intro a _
  rw [Matrix.dotProduct_comm]

theorem enum_enum {α : Type} (l : List α) :
    l.enum.enum = l.enum.map (fun p => (p.1, p)) := by
  apply List.ext_getElem
  · simp
  · intro j h1 h2
    simp [List.getElem_enum]

/-- The data-space inner product `⟨d, data⟩` accumulated over the survey's
(source, receiver) registration order. -/
def dotData {nD : ℕ} (d : ℕ → ℕ → Vec nD) (data : List (List (Vec nD))) :
    ℚ :=
  (data.enum.map (fun q =>
    (q.2.enum.map (fun rr => Matrix.dotProduct (d q.1 rr.1) rr.2)).sum)).sum

/-- Adjointness at the value level: `⟨d, Jvec(v)⟩ = ⟨v, Jtvec(d)⟩` for the
closed forms, provided no source has an initial-field sensitivity and no
receiver samples the final time node. -/
theorem adjoint_val {nU nP nM nD nW : ℕ} (c : JCtx nU nP nM nD nW)
    (ts : List ℚ) (f : ℕ → ℕ → Vec nU) (v : Vec nM) (d : ℕ → ℕ → Vec nD)
    (hG : ∀ src ∈ c.srcs, src.G = 0)
    (hP : ∀ src ∈ c.srcs, ∀ rx ∈ src.rxs, rx.P ts.length = 0) :
    dotData d (jvecVal c ts f v) = Matrix.dotProduct v (JTvVal c ts f d) := by
  have hA : dotData d (jvecVal c ts f v)
      = ∑ i ∈ Finset.range c.srcs.length,
          ((c.srcs.getD i dummySrc).rxs.enum.map (fun rr =>
            Matrix.dotProduct (d i rr.1)
              (dataVal c ts f v i (c.srcs.getD i dummySrc) rr.2))).sum := by
    rw [dotData, jvecVal, List.enum_map, List.map_map, enum_enum,
      List.map_map, enum_map_sum dummySrc]
    apply Finset.sum_congr rfl
    intro i _
    simp only [Function.comp_apply, Prod.map, id_eq]
    rw [List.enum_map, List.map_map]
    rfl
  have hB : Matrix.dotProduct v (JTvVal c ts f d)
      = (∑ i ∈ Finset.range c.srcs.length,
          Matrix.dotProduct v (∑ t ∈ Finset.range (ts.length + 1),
            qmVal d i (c.srcs.getD i dummySrc) t))
        + ∑ i ∈ Finset.range c.srcs.length,
            ∑ t ∈ Finset.range ts.length,
              Matrix.dotProduct v
                (jtvecContribVal c ts f
                  (qVal d i (c.srcs.getD i dummySrc)) i
                  (c.srcs.getD i dummySrc) t) := by
    rw [JTvVal, Matrix.dotProduct_add]
    congr 1
    · rw [dot_list_sum_right, List.map_map, enum_map_sum dummySrc]
      apply Finset.sum_congr rfl
      intro i _
      rfl
    · rw [dot_sum_right,
        Finset.sum_congr rfl (fun t _ => dot_sum_right
          (Finset.range c.srcs.length) v _),
        Finset.sum_comm]
  rw [hA, hB, ← Finset.sum_add_distrib]
  apply Finset.sum_congr rfl
  intro i hi
  have hmem : c.srcs.getD i dummySrc ∈ c.srcs :=
    getD_mem c.srcs i dummySrc (Finset.mem_range.mp hi)
  exact perSource_adjoint c ts f v d i (c.srcs.getD i dummySrc)
    (hG _ hmem) (hP _ hmem)

/-- C1 (amended): for every model-space vector `v` and data-space vector `d`,
`⟨d, Jvec(m, v)⟩ = ⟨v, Jtvec(m, d)⟩` holds — exactly, over ℚ — provided
(i) the factorization caches are fresh (`forward_only`) or coherent with the
current model, (ii) there is at least one time step, (iii) no source carries
an initial-field sensitivity (`getInitialFieldsDeriv = 0`), and (iv) no
receiver samples the final time node.  Without (iii)/(iv) the engines are
not adjoint: `Jvec` never writes `df_dm_v` at node `nT` and the base `Jtvec`
has no initial-condition phase, while the back-projection reads all nodes. -/
theorem claim_C1_amended_adjointness {nU nP nM nD nW : ℕ}
    (c : JCtx nU nP nM nD nW) (st : SimSt nU nW) (f : ℕ → ℕ → Vec nU)
    (v : Vec nM) (d : ℕ → ℕ → Vec nD)
    (hne : st.ts ≠ [])
    (hco : c.forward_only = true
      ∨ (ainvCoherent c (st.Ainv.getD []) st.ts
          ∧ ∃ dct, st.ATinv = some dct
            ∧ (dct.any (fun kv => kv.2.isNone) = true
                ∨ atinvCoherent c dct st.ts)))
    (hG : ∀ src ∈ c.srcs, src.G = 0)
    (hP : ∀ src ∈ c.srcs, ∀ rx ∈ src.rxs, rx.P st.ts.length = 0) :
    ∃ (outJ : JvOut nD) (outT : JTOut nM nU nW),
      jvecRun c st f v = some outJ
      ∧ jtvecBase c st f d = some outT
      ∧ dotData d outJ.data = Matrix.dotProduct v outT.JTv := by
  obtain ⟨outJ, hJ, hdata⟩ := jvecRun_val c st f v hne (hco.imp id And.left)
  obtain ⟨r, hcore, hJTv, _, _, _, _, _, _⟩ :=
    jtvecCore_val c st f d (hco.imp id And.right)
  refine ⟨outJ, ⟨r.JTv, r.st, r.log⟩, hJ, ?_, ?_⟩
  · simp only [jtvecBase, hcore]
  · show dotData d outJ.data = Matrix.dotProduct v r.JTv
    rw [hdata, hJTv]
    exact adjoint_val c st.ts f v d hG hP

/-- A receiver that never samples any node. -/
def rxAdj : RxC 1 1 1 1 :=
  { P := fun _ => 0, Fu := fun _ => 1, Fm := fun _ => 0 }

/-- An inductive source with no initial-field sensitivity. -/
def srcAdj : SrcC 1 1 1 1 :=
  { rxs := [rxAdj], G := 0, dRHS := fun _ => 0,
    srcType := SType.inductiveSrc }

/-- The demonstration context over the adjoint-compatible survey. -/
def cAdj : JCtx 1 1 1 1 1 := { cDemo with srcs := [srcAdj] }

/-- Witness for C1 at a concrete input: one time step, `forward_only`
factorization, a source with `G = 0` and a receiver with `P ≡ 0`. -/
theorem claim_C1_amended_adjointness_witness :
    ∃ (outJ : JvOut 1) (outT : JTOut 1 1 1),
      jvecRun cAdj stDemo (fun _ _ => 0) (fun _ => 1) = some outJ
      ∧ jtvecBase cAdj stDemo (fun _ _ => 0) (fun _ _ => fun _ => 1)
          = some outT
      ∧ dotData (fun _ _ => fun _ => 1) outJ.data
          = Matrix.dotProduct (fun _ => 1) outT.JTv :=
  claim_C1_amended_adjointness cAdj stDemo (fun _ _ => 0) (fun _ => 1)
    (fun _ _ => fun _ => 1)
    (by simp [stDemo])
    (Or.inl rfl)
    (by
      intro src hsrc
      rw [show src = srcAdj from by simpa [cAdj, cDemo] using hsrc]
      rfl)
    (by
      intro src hsrc rx hrx
      rw [show src = srcAdj from by simpa [cAdj, cDemo] using hsrc] at hrx
      rw [show rx = rxAdj from by simpa [srcAdj] using hrx]
      rfl)

/-- A receiver that samples only the final time node. -/
def rxCx : RxC 1 1 1 1 :=
  { P := fun t => if t = 0 then 0 else 1, Fu := fun _ => 1, Fm := fun _ => 0 }

/-- An inductive source carrying that receiver, with `G = 0`. -/
def srcCx : SrcC 1 1 1 1 :=
  { rxs := [rxCx], G := 0, dRHS := fun _ => 0,
    srcType := SType.inductiveSrc }

/-- Context for the C1 counterexample: identity operator, nonzero operator
linearization. -/
def cCx : JCtx 1 1 1 1 1 :=
  { dt_threshold := 1
    forward_only := true
    AdiagOf := fun _ => 1
    AsubOf := fun _ => 0
    DAdiag := fun _ _ => 1
    DAsub := fun _ _ => 0
    srcs := [srcCx]
    Grad := 0
    AdcMat := 0
    DMeSigma := fun _ => 0 }

/-- C1 counterexample: with a receiver that samples the final time node,
`⟨d, Jvec(m, v)⟩ = 0` but `⟨v, Jtvec(m, d)⟩ = -1` on the same inputs —
`Jvec` leaves `df_dm_v` at node `nT` at its initial zeros (the per-step
write lags one step, lines 284-296), while the `Jtvec` back-projection
(lines 393-424) reads every node including `nT`. -/
theorem claim_C1_counterexample :
    ∃ (outJ : JvOut 1) (outT : JTOut 1 1 1),
      jvecRun cCx stDemo (fun _ _ => 0) (fun _ => 1) = some outJ
      ∧ jtvecBase cCx stDemo (fun _ _ => 0) (fun _ _ => fun _ => 1)
          = some outT
      ∧ dotData (fun _ _ => fun _ => 1) outJ.data = 0
      ∧ Matrix.dotProduct (fun _ => 1) outT.JTv = -1 := by
  obtain ⟨outJ, hJ, hdata⟩ := jvecRun_val cCx stDemo (fun _ _ => 0)
    (fun _ => 1) (by simp [stDemo]) (Or.inl rfl)
  obtain ⟨r, hcore, hJTv, _, _, _, _, _, _⟩ := jtvecCore_val cCx stDemo
    (fun _ _ => 0) (fun _ _ => fun _ => 1) (Or.inl rfl)
  refine ⟨outJ, ⟨r.JTv, r.st, r.log⟩, hJ, by simp only [jtvecBase, hcore],
    ?_, ?_⟩
  · rw [hdata]
    simp only [dotData, jvecVal, dataVal, dfVal, duVal, stDemo, cCx, srcCx,
      rxCx, List.enumFrom, List.enum, List.map_cons, List.map_nil,
      List.sum_cons, List.sum_nil, List.length_cons, List.length_nil]
    norm_num [Finset.sum_range_succ, Matrix.mulVec_zero, Matrix.zero_mulVec,
      Matrix.dotProduct_zero]
  · show Matrix.dotProduct (fun _ => 1) r.JTv = -1
    rw [hJTv]
    simp only [JTvVal, qmVal, qVal, jtvecContribVal, lamVal, solveV, cCx,
      srcCx, rxCx, stDemo, dummySrc, List.enumFrom, List.enum,
      List.map_cons, List.map_nil, List.sum_cons, List.sum_nil,
      List.length_cons, List.length_nil, List.getD_cons_zero,
      Matrix.transpose_zero, Matrix.zero_mulVec, Matrix.mulVec_zero,
      minv_one, Matrix.transpose_one, Matrix.one_mulVec]
    norm_num [Finset.sum_range_succ, Matrix.dotProduct, Fin.sum_univ_one,
      lamVal, solveV, qVal, minv_one, Matrix.transpose_one,
      Matrix.one_mulVec, List.enumFrom, List.map_cons, List.map_nil,
      List.sum_cons, List.sum_nil]

end TDEMSpec
